import Mathlib

/-!
# Calendar application: holiday service and TTL cache

A shallow embedding of `backend/services/holidayService.js` and
`backend/utils/cache.js`, followed by theorems about them.

Modelling conventions.

* A JavaScript number that occurs here is an integer or `NaN`; it is an
  `Option Int` with `none` for `NaN`.
* The calendar functions follow ECMAScript (`DayFromYear`, `YearFromTime`,
  `MonthFromTime`, `DateFromTime`, `WeekDay`, `MakeDay`, `TimeClip`,
  `LocalTime`, `UTC`).
* The `Date` methods are embedded twice.  In `HolidayService.Zoned` a `Date` is
  its instant in minutes since the epoch, `none` for an Invalid Date, and the
  server has a `Zone`: the offset of local time at every instant and the
  offset with which every local time is read, as ECMAScript `LocalTZA`.  This
  covers offset changes: `setDate` keeps the time of day, so a midnight that
  the zone skips leaves the running date at a later time of day, and a day
  that the zone skips is missing from the grid.  In `HolidayService` itself
  the server has an `Env` with one fixed offset; every `Date` the service
  builds then stands at a local midnight, so it is the number of its local
  calendar day counted from 1970-01-01.  The two builders agree on every input
  when the zone keeps one offset (`zoned_generateCalendarStructure_fixed`).
* The `while` loop of `generateCalendarStructure` takes a fuel argument and
  returns `none` when the fuel runs out.
* The cache is an insertion-ordered association list, every operation takes the
  values of its `Date.now()` calls as arguments and operations return the new
  cache.
-/

namespace HolidayService

/-- A JavaScript number restricted to integers and NaN (`none`). -/
abbrev JSNum := Option Int

/-- A Date on a server with one fixed offset: it stands at a local midnight and
is its local day number, `none` for Invalid Date. -/
abbrev JSDate := Option Int

/-- The environment of a run: the ISO date of the current instant
(`new Date().toISOString().split('T')[0]`) and the offset of local time from
UTC in minutes. -/
structure Env where
  today : String
  tzOffset : Int
  tz_lo : -1440 < tzOffset
  tz_hi : tzOffset < 1440

/-- ECMAScript `DayFromYear`: the day number of January 1 of year `y`. -/
def dayFromYear (y : Int) : Int :=
  365 * (y - 1970) + (y - 1969) / 4 - (y - 1901) / 100 + (y - 1601) / 400

/-- ECMAScript `InLeapYear`, as a flag. -/
def inLeapYear (y : Int) : Bool :=
  if y % 4 ≠ 0 then false
  else if y % 100 ≠ 0 then true
  else if y % 400 ≠ 0 then false
  else true

/-- The value 1 in a leap year and 0 otherwise. -/
def leapDays (y : Int) : Int := if inLeapYear y then 1 else 0

/-- ECMAScript `YearFromTime` on day numbers: the largest `y` with
`dayFromYear y ≤ d`, found from an estimate that is off by at most one. -/
def yearFromDay (d : Int) : Int :=
  let y0 := 1970 + (d * 400) / 146097
  if dayFromYear (y0 + 1) ≤ d then y0 + 1
  else if d < dayFromYear y0 then y0 - 1
  else y0

/-- ECMAScript `DayWithinYear`. -/
def dayWithinYear (d : Int) : Int := d - dayFromYear (yearFromDay d)

/-- ECMAScript `MonthFromTime` (0 = January). -/
def monthFromDay (d : Int) : Int :=
  let w := dayWithinYear d
  let l := leapDays (yearFromDay d)
  if w < 31 then 0
  else if w < 59 + l then 1
  else if w < 90 + l then 2
  else if w < 120 + l then 3
  else if w < 151 + l then 4
  else if w < 181 + l then 5
  else if w < 212 + l then 6
  else if w < 243 + l then 7
  else if w < 273 + l then 8
  else if w < 304 + l then 9
  else if w < 334 + l then 10
  else 11

/-- Days of the year before month `mn` (0 = January) starts. -/
def daysBeforeMonth (mn : Int) (l : Int) : Int :=
  if mn = 0 then 0
  else if mn = 1 then 31
  else if mn = 2 then 59 + l
  else if mn = 3 then 90 + l
  else if mn = 4 then 120 + l
  else if mn = 5 then 151 + l
  else if mn = 6 then 181 + l
  else if mn = 7 then 212 + l
  else if mn = 8 then 243 + l
  else if mn = 9 then 273 + l
  else if mn = 10 then 304 + l
  else 334 + l

/-- ECMAScript `DateFromTime`: the day of the month, from 1. -/
def dateFromDay (d : Int) : Int :=
  dayWithinYear d + 1 - daysBeforeMonth (monthFromDay d) (leapDays (yearFromDay d))

/-- ECMAScript `WeekDay`: 0 = Sunday .. 6 = Saturday (1970-01-01 was a Thursday). -/
def weekDay (d : Int) : Int := (d + 4) % 7

/-- ECMAScript `MakeDay`: months outside 0..11 carry into the year and the day
of the month is an offset from the first of the month. -/
def makeDay (year month date : Int) : Int :=
  let ym := year + month / 12
  let mn := month % 12
  dayFromYear ym + daysBeforeMonth mn (leapDays ym) + date - 1

/-- ECMAScript `TimeClip` for a local midnight: the instant must lie within
8.64e15 ms (144000000000 minutes) of the epoch. -/
def timeClip (env : Env) (d : Int) : JSDate :=
  if -144000000000 ≤ d * 1440 - env.tzOffset ∧ d * 1440 - env.tzOffset ≤ 144000000000
  then some d else none

/-- The constructor `new Date(year, month, date)`: a year in 0..99 stands for
1900 + year. -/
def newDate (env : Env) (year month date : Int) : JSDate :=
  let yr := if 0 ≤ year ∧ year ≤ 99 then 1900 + year else year
  timeClip env (makeDay yr month date)

/-- The method `getFullYear`. -/
def getFullYear (d : JSDate) : JSNum := d.map yearFromDay

/-- The method `getMonth`. -/
def getMonth (d : JSDate) : JSNum := d.map monthFromDay

/-- The method `getDate`. -/
def getDate (d : JSDate) : JSNum := d.map dateFromDay

/-- The method `getDay`. -/
def getDay (d : JSDate) : JSNum := d.map weekDay

/-- The method `setDate(n)` on a server with one fixed offset: rebuilds the date
from its year, its month and the new day of the month; the time of day stays
00:00.  `Zoned.setDate` is the method in any zone. -/
def setDate (env : Env) (d : JSDate) (n : JSNum) : JSDate :=
  match d, n with
  | some t, some k => timeClip env (makeDay (yearFromDay t) (monthFromDay t) k)
  | _, _ => none

/-- Addition of numbers, NaN absorbing. -/
def jsAdd (a b : JSNum) : JSNum :=
  match a, b with
  | some x, some y => some (x + y)
  | _, _ => none

/-- Subtraction of numbers, NaN absorbing. -/
def jsSub (a b : JSNum) : JSNum :=
  match a, b with
  | some x, some y => some (x - y)
  | _, _ => none

/-- The comparison `a <= b`, false when a side is NaN. -/
def jsLe (a b : JSNum) : Bool :=
  match a, b with
  | some x, some y => decide (x ≤ y)
  | _, _ => false

/-- The comparison `a > b`, false when a side is NaN. -/
def jsGt (a b : JSNum) : Bool :=
  match a, b with
  | some x, some y => decide (y < x)
  | _, _ => false

/-- Decimal digits of a natural number, most significant first; the fuel
bounds the number of digits. -/
def digitsAux : Nat → Nat → List Char → List Char
  | 0, _, acc => acc
  | fuel + 1, n, acc =>
    let acc1 := Char.ofNat (48 + n % 10) :: acc
    if n / 10 = 0 then acc1 else digitsAux fuel (n / 10) acc1

/-- Decimal numeral of a natural number. -/
def natToString (n : Nat) : String := String.mk (digitsAux (n + 1) n [])

/-- The conversion of a number to a string. -/
def jsNumToString : JSNum → String
  | none => "NaN"
  | some (Int.ofNat n) => natToString n
  | some (Int.negSucc n) => "-" ++ natToString (n + 1)

/-- The call `padStart(2, '0')`. -/
def padStart2 (s : String) : String :=
  String.mk (List.replicate (2 - s.length) '0') ++ s

/-- The string `getFullYear() + '-' + MM + '-' + DD` built for every day. -/
def dateString (d : JSDate) : String :=
  jsNumToString (getFullYear d) ++ "-" ++
    padStart2 (jsNumToString (jsAdd (getMonth d) (some 1))) ++ "-" ++
    padStart2 (jsNumToString (getDate d))

/-- A holiday record as produced by `processHolidayData`; only `date` is read by
the calendar builder. -/
structure Holiday where
  date : String
  name : String
deriving DecidableEq, Repr

/-- One cell of the grid. -/
structure Day where
  date : String
  day : JSNum
  isCurrentMonth : Bool
  isHoliday : Bool
  isToday : Bool
deriving DecidableEq, Repr

/-- One row of the grid. -/
structure Week where
  days : List Day
  holidayCount : Nat
  weekColor : String
  weekNumber : JSNum
deriving DecidableEq, Repr

/-- The instant, in minutes since the epoch, of `new Date(str)` for the string
`str = dateString d` of a date `d`: a date-only ISO string is read as UTC
midnight.  Only years 1000..9999 give a string of that form; elsewhere the
result is implementation-defined and is taken to be an Invalid Date. -/
def reparse (d : JSDate) : Option Int :=
  match d with
  | none => none
  | some t =>
    if 1000 ≤ yearFromDay t ∧ yearFromDay t ≤ 9999 then some (t * 1440) else none

/-- The method `getWeekNumber(date)` on an instant given in minutes:
`Math.ceil((pastDaysOfYear + firstDayOfYear.getDay() + 1) / 7)`. -/
def getWeekNumber (env : Env) (date : Option Int) : JSNum :=
  match date with
  | none => none
  | some u =>
    let year := yearFromDay ((u + env.tzOffset) / 1440)
    match newDate env year 0 1 with
    | none => none
    | some j =>
      let pastMinutes := u - (j * 1440 - env.tzOffset)
      some (-((-(pastMinutes + (weekDay j + 1) * 1440)) / (7 * 1440)))

/-- The colour chosen from the number of in-month holidays of a week. -/
def weekColorOf (holidayCount : Nat) : String :=
  if holidayCount ≥ 2 then "very-dark-green"
  else if holidayCount = 1 then "light-green"
  else "default"

/-- The inner `for` loop: `n` more days are pushed onto `week`, `weekDates`
collects the in-month holiday dates and `startDate` advances by one day each
time. -/
def weekDaysLoop (env : Env) (month : Int) (holidayDates : List String) :
    Nat → JSDate → List Day → List String → JSDate × List Day × List String
  | 0, startDate, week, weekDates => (startDate, week, weekDates)
  | n + 1, startDate, week, weekDates =>
    let date := startDate
    let ds := dateString date
    let isCurrentMonth := decide (getMonth date = some (month - 1))
    let isHoliday := decide (ds ∈ holidayDates)
    let day : Day := ⟨ds, getDate date, isCurrentMonth, isHoliday, decide (ds = env.today)⟩
    let weekDates1 := if isCurrentMonth && isHoliday then weekDates ++ [ds] else weekDates
    weekDaysLoop env month holidayDates n
      (setDate env startDate (jsAdd (getDate startDate) (some 1))) (week ++ [day]) weekDates1

/-- The guard of the `while` loop. -/
def loopGuard (lastDay startDate : JSDate) (weeks : List Week) : Bool :=
  jsLe startDate lastDay || decide (weeks.length = 0) || decide (getDay startDate ≠ some 1)

/-- The `while` loop with its `break`; `none` when the fuel is used up. -/
def whileLoop (env : Env) (month : Int) (lastDay : JSDate) (holidayDates : List String) :
    Nat → JSDate → List Week → Option (List Week)
  | 0, startDate, weeks =>
    if loopGuard lastDay startDate weeks then none else some weeks
  | fuel + 1, startDate, weeks =>
    if loopGuard lastDay startDate weeks then
      let r := weekDaysLoop env month holidayDates 7 startDate [] []
      let holidayCount := r.2.2.length
      let weeks1 := weeks ++
        [⟨r.2.1, holidayCount, weekColorOf holidayCount, getWeekNumber env (reparse startDate)⟩]
      if jsGt (getMonth r.1) (some (month - 1)) then some weeks1
      else whileLoop env month lastDay holidayDates fuel r.1 weeks1
    else some weeks

/-- The method `generateCalendarStructure(year, month, holidays)`. -/
def generateCalendarStructure (fuel : Nat) (env : Env) (year month : Int)
    (holidays : List Holiday) : Option (List Week) :=
  let firstDay := newDate env year (month - 1) 1
  let lastDay := newDate env year month 0
  let dayOfWeek := getDay firstDay
  let startDate := setDate env firstDay
    (jsSub (some 1) (if dayOfWeek = some 0 then some 6 else jsSub dayOfWeek (some 1)))
  let holidayDates := holidays.map (fun h => h.date)
  whileLoop env month lastDay holidayDates fuel startDate []

end HolidayService

/-- A stored cache item: `value`, `expiresAt` and `createdAt`. -/
structure CacheEntry (V : Type) where
  value : V
  expiresAt : Int
  createdAt : Int
deriving DecidableEq, Repr

/-- The class `Cache`: the `Map` of entries in insertion order and the
configured default time to live. -/
structure Cache (V : Type) where
  cache : List (String × CacheEntry V)
  defaultTTL : Int
deriving DecidableEq, Repr

namespace Cache

variable {V : Type}

/-- The call `Map.prototype.get`. -/
def mapGet (m : List (String × CacheEntry V)) (key : String) : Option (CacheEntry V) :=
  match m with
  | [] => none
  | (k, e) :: rest => if k = key then some e else mapGet rest key

/-- The call `Map.prototype.set`: an existing key keeps its place, a new key
goes to the end. -/
def mapSet (m : List (String × CacheEntry V)) (key : String) (e : CacheEntry V) :
    List (String × CacheEntry V) :=
  match m with
  | [] => [(key, e)]
  | (k, e0) :: rest => if k = key then (key, e) :: rest else (k, e0) :: mapSet rest key e

/-- The call `Map.prototype.delete`, without its result. -/
def mapDelete (m : List (String × CacheEntry V)) (key : String) :
    List (String × CacheEntry V) :=
  m.filter (fun p => decide (p.1 ≠ key))

/-- The constructor: `parseInt(process.env.CACHE_DURATION) || 3600000`, with
`none` for a missing or unparsable setting. -/
def create (cacheDuration : Option Int) : Cache V :=
  ⟨[], match cacheDuration with
       | some d => if d = 0 then 3600000 else d
       | none => 3600000⟩

/-- The expression `ttl || this.defaultTTL`, with `none` for an omitted ttl. -/
def effectiveTTL (c : Cache V) (ttl : Option Int) : Int :=
  match ttl with
  | some t => if t = 0 then c.defaultTTL else t
  | none => c.defaultTTL

/-- The method `set(key, value, ttl)`.  `now` is the value of the first
`Date.now()`, read for `expiresAt`, and `createdNow` the value of the second,
read for `createdAt`. -/
def set (c : Cache V) (now createdNow : Int) (key : String) (value : V) (ttl : Option Int) :
    Cache V :=
  let expiresAt := now + effectiveTTL c ttl
  ⟨mapSet c.cache key ⟨value, expiresAt, createdNow⟩, c.defaultTTL⟩

/-- The method `get(key, includeExpired)` at time `now`: the value read (`none`
for `null`) and the cache afterwards. -/
def get (c : Cache V) (now : Int) (key : String) (includeExpired : Bool) :
    Option V × Cache V :=
  match mapGet c.cache key with
  | none => (none, c)
  | some item =>
    if !includeExpired && decide (now > item.expiresAt) then
      (none, ⟨mapDelete c.cache key, c.defaultTTL⟩)
    else (some item.value, c)

/-- The method `delete(key)`: whether an entry was removed, and the cache
afterwards. -/
def delete (c : Cache V) (key : String) : Bool × Cache V :=
  ((mapGet c.cache key).isSome, ⟨mapDelete c.cache key, c.defaultTTL⟩)

/-- The method `clear()`. -/
def clear (c : Cache V) : Cache V := ⟨[], c.defaultTTL⟩

/-- The method `has(key)`. -/
def has (c : Cache V) (key : String) : Bool := (mapGet c.cache key).isSome

/-- The method `keys()`. -/
def keys (c : Cache V) : List String := c.cache.map (fun p => p.1)

/-- The first loop of `cleanup()`: the keys of the entries with
`now > item.expiresAt`, pushed in iteration order. -/
def expiredKeys (m : List (String × CacheEntry V)) (now : Int) : List String :=
  m.foldl (fun acc p => if now > p.2.expiresAt then acc ++ [p.1] else acc) []

/-- The method `cleanup()` at time `now`: every collected key is deleted. -/
def cleanup (c : Cache V) (now : Int) : Cache V :=
  ⟨(expiredKeys c.cache now).foldl (fun m key => mapDelete m key) c.cache, c.defaultTTL⟩

/-- The length of a JavaScript string: its number of UTF-16 code units. -/
def utf16Length (s : String) : Nat :=
  s.data.foldl (fun n ch => n + (if ch.toNat < 65536 then 1 else 2)) 0

/-- The report of `getMemoryUsage()`. -/
structure MemoryUsage where
  bytes : Nat
  kb : Nat
  mb : Nat
deriving DecidableEq, Repr

/-- The method `getMemoryUsage()`; `jsonLength v` stands for
`JSON.stringify(v).length`, and `Math.round` of a non-negative quotient rounds
halves up. -/
def getMemoryUsage (jsonLength : V → Nat) (c : Cache V) : MemoryUsage :=
  let totalSize := c.cache.foldl (fun acc p => acc + utf16Length p.1 + jsonLength p.2.value) 0
  ⟨totalSize, (2 * totalSize + 1024) / 2048, (2 * totalSize + 1048576) / 2097152⟩

/-- The report of `getStats()`. -/
structure Stats where
  totalEntries : Nat
  validEntries : Nat
  expiredEntries : Nat
  memoryUsage : MemoryUsage
deriving DecidableEq, Repr

/-- The counting loop of `getStats()`: the pair `(validEntries, expiredEntries)`. -/
def countEntries (m : List (String × CacheEntry V)) (now : Int) : Nat × Nat :=
  m.foldl (fun acc p => if now > p.2.expiresAt then (acc.1, acc.2 + 1) else (acc.1 + 1, acc.2))
    (0, 0)

/-- The method `getStats()` at time `now`: the report and the cache afterwards. -/
def getStats (jsonLength : V → Nat) (c : Cache V) (now : Int) : Stats × Cache V :=
  let counts := countEntries c.cache now
  (⟨c.cache.length, counts.1, counts.2, getMemoryUsage jsonLength c⟩, c)

/-- The invariant of a `Map`: a key is stored once. -/
def keysUnique (c : Cache V) : Prop := c.keys.Nodup

instance (c : Cache V) : Decidable c.keysUnique := by
  unfold keysUnique; infer_instance

/-- The entry is expired at time `now`. -/
def expiredAt (now : Int) (p : String × CacheEntry V) : Bool := decide (now > p.2.expiresAt)

/-- A ttl argument or configured duration that is omitted, zero or positive. -/
def notNegative (o : Option Int) : Prop := ∀ x, o = some x → 0 ≤ x

/-- The cache states reached from the constructor by calls of `set`, `get`,
`delete`, `clear` and `cleanup` (`prewarm` is a series of `set` calls);
`okCreate` restricts the configured duration and `okSet` the two clock readings
and the ttl argument of every `set`. -/
inductive ReachableVia (okCreate : Option Int → Prop) (okSet : Int → Int → Option Int → Prop) :
    Cache V → Prop
  | create (d : Option Int) : okCreate d → ReachableVia okCreate okSet (Cache.create d)
  | set {c : Cache V} (now createdNow : Int) (key : String) (value : V) (ttl : Option Int) :
      ReachableVia okCreate okSet c → okSet now createdNow ttl →
      ReachableVia okCreate okSet (c.set now createdNow key value ttl)
  | get {c : Cache V} (now : Int) (key : String) (includeExpired : Bool) :
      ReachableVia okCreate okSet c → ReachableVia okCreate okSet (c.get now key includeExpired).2
  | delete {c : Cache V} (key : String) :
      ReachableVia okCreate okSet c → ReachableVia okCreate okSet (c.delete key).2
  | clear {c : Cache V} :
      ReachableVia okCreate okSet c → ReachableVia okCreate okSet c.clear
  | cleanup {c : Cache V} (now : Int) :
      ReachableVia okCreate okSet c → ReachableVia okCreate okSet (c.cleanup now)

/-- The cache states reached by any calls. -/
def Reachable (c : Cache V) : Prop := ReachableVia (fun _ => True) (fun _ _ _ => True) c

/-- The cache states reached when the configured duration and every ttl
argument are omitted, zero or positive and `set` reads the same clock value
twice. -/
def ReachableWithPositiveTTL (c : Cache V) : Prop :=
  ReachableVia notNegative (fun now createdNow ttl => createdNow = now ∧ notNegative ttl) c

end Cache

namespace HolidayService

/-- The service object: the configured API key (`none` when the variable is
unset). -/
structure Service where
  apiKey : Option String

/-- The test `!this.apiKey || this.apiKey === 'your_api_key_here'`. -/
def Service.keyMissing (s : Service) : Bool :=
  match s.apiKey with
  | none => true
  | some k => decide (k = "") || decide (k = "your_api_key_here")

/-- The cache key of a holiday request; `month` is `none` for `null`, and
`month || 'all'` also turns 0 into `all`. -/
def holidayCacheKey (country : String) (year : Int) (month : Option Int) : String :=
  "holidays_" ++ country ++ "_" ++ jsNumToString (some year) ++ "_" ++
    (match month with
     | none => "all"
     | some m => if m = 0 then "all" else jsNumToString (some m))

/-- The method `getHolidays(country, year, month)`.  `upstream` is the outcome
of the request to the holiday provider together with `processHolidayData`: the
processed list, or the message of the error thrown.  `now1` is the time of the
first cache read, `now2` the time after the request and `now3` the second
clock reading of `cache.set`. -/
def getHolidays (s : Service) (upstream : Except String (List Holiday)) (now1 now2 now3 : Int)
    (c : Cache (List Holiday)) (country : String) (year : Int) (month : Option Int) :
    Except String (List Holiday) × Cache (List Holiday) :=
  let cacheKey := holidayCacheKey country year month
  let r1 := c.get now1 cacheKey false
  match r1.1 with
  | some cachedData => (Except.ok cachedData, r1.2)
  | none =>
    let attempt : Except String (List Holiday) :=
      if s.keyMissing then Except.error "Calendarific API key is not configured"
      else if country = "" ∨ year = 0 then Except.error "Country and year are required"
      else upstream
    match attempt with
    | Except.ok holidays => (Except.ok holidays, r1.2.set now2 now3 cacheKey holidays none)
    | Except.error e =>
      let r2 := r1.2.get now2 cacheKey true
      match r2.1 with
      | some expiredCache => (Except.ok expiredCache, r2.2)
      | none => (Except.error e, r2.2)

end HolidayService

/-! ## Calendar vocabulary used in the statements -/

namespace HolidayService

/-- Number of days of month `month` (1 = January) of year `year`. -/
def daysInMonth (year month : Int) : Int :=
  if month = 2 then 28 + leapDays year
  else if month = 4 ∨ month = 6 ∨ month = 9 ∨ month = 11 then 30
  else 31

/-- The string `Y-MM-DD` of a calendar date (month from 1). -/
def isoDate (year month day : Int) : String :=
  jsNumToString (some year) ++ "-" ++ padStart2 (jsNumToString (some month)) ++ "-" ++
    padStart2 (jsNumToString (some day))

/-- A calendar date: year, month from 1, day of the month. -/
structure Civil where
  year : Int
  month : Int
  day : Int
deriving DecidableEq, Repr

/-- The calendar date of a day number. -/
def civilOfDay (t : Int) : Civil := ⟨yearFromDay t, monthFromDay t + 1, dateFromDay t⟩

/-- The string of a calendar date. -/
def Civil.iso (c : Civil) : String := isoDate c.year c.month c.day

/-- The calendar date is a real one: its month is in 1..12 and its day exists
in that month. -/
def Civil.wellFormed (c : Civil) : Prop :=
  1 ≤ c.month ∧ c.month ≤ 12 ∧ 1 ≤ c.day ∧ c.day ≤ daysInMonth c.year c.month

/-- The day after a calendar date. -/
def Civil.next (c : Civil) : Civil :=
  if c.day < daysInMonth c.year c.month then ⟨c.year, c.month, c.day + 1⟩
  else if c.month < 12 then ⟨c.year, c.month + 1, 1⟩
  else ⟨c.year + 1, 1, 1⟩

/-- The day number of the first of a month, for `month` in 1..12. -/
def firstOfMonth (year month : Int) : Int :=
  dayFromYear year + daysBeforeMonth (month - 1) (leapDays year)

/-- Weekday numbered 1 = Monday .. 6 = Saturday, 7 = Sunday. -/
def isoWeekday (t : Int) : Int := if weekDay t = 0 then 7 else weekDay t

/-- The years whose months, with their padding rows, the Date type can
represent. -/
def representableYear (year : Int) : Prop := -271820 ≤ year ∧ year ≤ 275759

instance (year : Int) : Decidable (representableYear year) := by
  unfold representableYear; infer_instance

/-- The years that `new Date(year, ..)` takes literally: a representable year
outside 0..99. -/
def literalYear (year : Int) : Prop := representableYear year ∧ ¬ (0 ≤ year ∧ year ≤ 99)

instance (year : Int) : Decidable (literalYear year) := by
  unfold literalYear; infer_instance

/-- The year a `Date` is built for. -/
def effectiveYear (year : Int) : Int := if 0 ≤ year ∧ year ≤ 99 then 1900 + year else year

/-! ## Closed form of the grid -/

/-- The cell pushed for the day number `t`. -/
def dayAt (env : Env) (month : Int) (holidayDates : List String) (t : Int) : Day :=
  ⟨dateString (some t), getDate (some t), decide (getMonth (some t) = some (month - 1)),
    decide (dateString (some t) ∈ holidayDates), decide (dateString (some t) = env.today)⟩

/-- The cells of `n` successive days from `t`. -/
def daysFrom (env : Env) (month : Int) (holidayDates : List String) : Int → Nat → List Day
  | _, 0 => []
  | t, n + 1 => dayAt env month holidayDates t :: daysFrom env month holidayDates (t + 1) n

/-- The in-month holidays among some cells. -/
def inMonthHolidays (ds : List Day) : List Day :=
  ds.filter (fun d => d.isCurrentMonth && d.isHoliday)

/-- The row that starts on day number `t`. -/
def weekAt (env : Env) (month : Int) (holidayDates : List String) (t : Int) : Week :=
  ⟨daysFrom env month holidayDates t 7,
    (inMonthHolidays (daysFrom env month holidayDates t 7)).length,
    weekColorOf (inMonthHolidays (daysFrom env month holidayDates t 7)).length,
    getWeekNumber env (reparse (some t))⟩

/-- The rows of `r` successive weeks from `t`. -/
def weeksFrom (env : Env) (month : Int) (holidayDates : List String) : Int → Nat → List Week
  | _, 0 => []
  | t, r + 1 => weekAt env month holidayDates t :: weeksFrom env month holidayDates (t + 7) r

/-- The Monday on or before the first of the month. -/
def gridStart (year month : Int) : Int :=
  firstOfMonth year month - (isoWeekday (firstOfMonth year month) - 1)

/-- The number of rows from `gridStart` that reach the last day of the month. -/
def gridRows (year month : Int) : Nat :=
  ((firstOfMonth year month + daysInMonth year month - 1 - gridStart year month) / 7 + 1).toNat

/-- All cells of a grid, read row by row. -/
def allDays (ws : List Week) : List Day := ws.flatMap (fun w => w.days)

/-- The cells of a grid that are flagged as belonging to the month. -/
def currentMonthDays (ws : List Week) : List Day := (allDays ws).filter (fun d => d.isCurrentMonth)

end HolidayService

namespace HolidayService

/-- The date the `while` loop starts from. -/
def gridStartDate (env : Env) (year month : Int) : JSDate :=
  setDate env (newDate env year (month - 1) 1)
    (jsSub (some 1) (if getDay (newDate env year (month - 1) 1) = some 0 then some 6
      else jsSub (getDay (newDate env year (month - 1) 1)) (some 1)))

/-- The part of a cell that does not depend on the environment. -/
def Day.core (d : Day) : String × JSNum × Bool × Bool :=
  (d.date, d.day, d.isCurrentMonth, d.isHoliday)

/-- The part of a row that does not depend on the current date: its cells
without `isToday`, its holiday count and its colour. -/
def Week.core (w : Week) : List (String × JSNum × Bool × Bool) × Nat × String :=
  (w.days.map Day.core, w.holidayCount, w.weekColor)

/-- An environment for the examples: a server on UTC on 2024-02-10. -/
def utcEnv : Env := ⟨"2024-02-10", 0, by decide, by decide⟩

end HolidayService

/-! ## Frontend: consecutive holidays in `CalendarGrid.jsx` -/

namespace CalendarGrid

open HolidayService

/-- The function `apiUtils.groupHolidaysByDate`: the object from a date to the
holidays of that date, keys in order of first occurrence. -/
def groupHolidaysByDate (holidays : List Holiday) : List (String × List Holiday) :=
  holidays.foldl (fun acc holiday =>
    if acc.any (fun p => decide (p.1 = holiday.date)) then
      acc.map (fun p => if p.1 = holiday.date then (p.1, p.2 ++ [holiday]) else p)
    else acc ++ [(holiday.date, [holiday])]) []

/-- The function `apiUtils.getHolidaysForDate`: `holidaysByDate[dateString] || []`. -/
def getHolidaysForDate (dateString : String) (holidaysByDate : List (String × List Holiday)) :
    List Holiday :=
  match holidaysByDate.find? (fun p => decide (p.1 = dateString)) with
  | some p => p.2
  | none => []

/-- The test `day.isCurrentMonth && dayHolidays.length > 0` of a day. -/
def qualifies (holidaysByDate : List (String × List Holiday)) (day : Day) : Bool :=
  day.isCurrentMonth && decide ((getHolidaysForDate day.date holidaysByDate).length > 0)

/-- The variables of `getConsecutiveHolidaySequences`. -/
structure SeqState where
  sequences : List (List Nat)
  lastHolidayIdx : Int
  consecutive : List Nat
deriving DecidableEq, Repr

/-- The statement `if (consecutive.length > 1) sequences.push([...consecutive])`. -/
def pushRun (sequences : List (List Nat)) (consecutive : List Nat) : List (List Nat) :=
  if consecutive.length > 1 then sequences ++ [consecutive] else sequences

/-- The body of the `forEach` callback for the day at index `idx`. -/
def seqStep (holidaysByDate : List (String × List Holiday)) (st : SeqState) (day : Day)
    (idx : Nat) : SeqState :=
  if qualifies holidaysByDate day then
    if st.lastHolidayIdx = (idx : Int) - 1 then
      ⟨st.sequences, idx, st.consecutive ++ [idx]⟩
    else
      ⟨pushRun st.sequences st.consecutive, idx, [idx]⟩
  else
    ⟨pushRun st.sequences st.consecutive, -2, []⟩

/-- The call `weekDays.forEach((day, idx) => ..)` from index `idx` on. -/
def forEachDay (holidaysByDate : List (String × List Holiday)) :
    List Day → Nat → SeqState → SeqState
  | [], _, st => st
  | day :: rest, idx, st =>
    forEachDay holidaysByDate rest (idx + 1) (seqStep holidaysByDate st day idx)

/-- The helper `getConsecutiveHolidaySequences(weekDays)`; `holidaysByDate` is
the lookup it closes over. -/
def getConsecutiveHolidaySequences (holidaysByDate : List (String × List Holiday))
    (weekDays : List Day) : List (List Nat) :=
  let st := forEachDay holidaysByDate weekDays 0 ⟨[], -2, []⟩
  pushRun st.sequences st.consecutive

/-- The flag `highlightWholeWeekWhite`. -/
def highlightWholeWeekWhite (consecutiveSequences : List (List Nat)) : Bool :=
  consecutiveSequences.any (fun seq => decide (seq.length ≥ 3))

/-- The variables `isConsecutiveHoliday` and `consecutiveType` of a day cell. -/
structure DayHighlight where
  isConsecutiveHoliday : Bool
  consecutiveType : Option String
deriving DecidableEq, Repr

/-- The body of `consecutiveSequences.forEach(seq => ..)` for a day index. -/
def highlightStep (dayIndex : Nat) (h : DayHighlight) (seq : List Nat) : DayHighlight :=
  if dayIndex ∈ seq then
    let t1 := if seq.length = 2 then some "yellow" else h.consecutiveType
    ⟨true, if seq.length ≥ 3 then some "white" else t1⟩
  else h

/-- The highlight variables of the day at `dayIndex` after the loop over the
sequences. -/
def dayHighlight (consecutiveSequences : List (List Nat)) (dayIndex : Nat) : DayHighlight :=
  consecutiveSequences.foldl (highlightStep dayIndex) ⟨false, none⟩

/-- The day at index `i` exists and passes the test of the scan. -/
def qualifiesAt (holidaysByDate : List (String × List Holiday)) (weekDays : List Day)
    (i : Nat) : Bool :=
  match weekDays[i]? with
  | some day => qualifies holidaysByDate day
  | none => false

/-- A maximal run of a predicate among the indices below `n`: the `len`
indices from `s` satisfy it and the indices next to the run, when they exist,
do not. -/
def IsMaximalRun (p : Nat → Bool) (n s len : Nat) : Prop :=
  s + len ≤ n ∧ (∀ i, s ≤ i → i < s + len → p i = true) ∧
    (s = 0 ∨ p (s - 1) = false) ∧ (s + len = n ∨ p (s + len) = false)

/-- The invariant of the scan after the first `n` days: `consecutive` is the
run that ends at day `n - 1` and `sequences` holds the closed runs. -/
def ScanInv (p : Nat → Bool) (n : Nat) (st : SeqState) : Prop :=
  ∃ a, a ≤ n ∧ st.consecutive = List.range' a (n - a) ∧
    st.lastHolidayIdx = (if a < n then (n : Int) - 1 else -2) ∧
    (∀ i, a ≤ i → i < n → p i = true) ∧ (a = 0 ∨ p (a - 1) = false) ∧
    (a = n → n = 0 ∨ p (n - 1) = false) ∧
    (∀ r ∈ st.sequences, ∃ s len, r = List.range' s len ∧ 2 ≤ len ∧ s + len < n ∧
      (∀ i, s ≤ i → i < s + len → p i = true) ∧ (s = 0 ∨ p (s - 1) = false) ∧
      p (s + len) = false) ∧
    (∀ s len, 2 ≤ len → s + len < n → (∀ i, s ≤ i → i < s + len → p i = true) →
      (s = 0 ∨ p (s - 1) = false) → p (s + len) = false → List.range' s len ∈ st.sequences) ∧
    st.sequences.Pairwise (fun r1 r2 => ∀ i ∈ r1, ∀ j ∈ r2, i < j)

end CalendarGrid

namespace CalendarGrid

open HolidayService

/-- Days of a week of February 2024, all in the month. -/
def sampleWeek : List Day :=
  [⟨"2024-02-05", some 5, true, false, false⟩, ⟨"2024-02-06", some 6, true, false, false⟩,
    ⟨"2024-02-07", some 7, true, false, false⟩, ⟨"2024-02-08", some 8, true, false, false⟩,
    ⟨"2024-02-09", some 9, true, false, false⟩, ⟨"2024-02-10", some 10, true, false, false⟩,
    ⟨"2024-02-11", some 11, true, false, false⟩]

/-- Holidays on the Monday, Tuesday and Thursday of `sampleWeek`. -/
def monTueThu : List Holiday :=
  [⟨"2024-02-05", "A"⟩, ⟨"2024-02-06", "B"⟩, ⟨"2024-02-08", "C"⟩]

/-- Holidays from the Tuesday to the Friday of `sampleWeek`. -/
def tueToFri : List Holiday :=
  [⟨"2024-02-06", "A"⟩, ⟨"2024-02-07", "B"⟩, ⟨"2024-02-08", "C"⟩, ⟨"2024-02-09", "D"⟩]

end CalendarGrid

/-! ## Dates in words, week numbers and calendar data -/

namespace HolidayService

/-- The decimal digit character of the last digit of `n`. -/
def digitChar (n : Nat) : Char := Char.ofNat (48 + n % 10)

/-- The two-digit, zero-padded numeral of `n`. -/
def twoDigits (n : Nat) : String := String.mk [digitChar (n / 10), digitChar n]

/-- The four-digit, zero-padded numeral of `n`. -/
def fourDigits (n : Nat) : String :=
  String.mk [digitChar (n / 1000), digitChar (n / 100), digitChar (n / 10), digitChar n]

/-- The zero-padded `YYYY-MM-DD` string of a calendar date. -/
def zeroPaddedDate (c : Civil) : String :=
  fourDigits c.year.toNat ++ "-" ++ twoDigits c.month.toNat ++ "-" ++ twoDigits c.day.toNat

/-- The month before `month` of `year`, as a year and a month. -/
def previousMonth (year month : Int) : Int × Int :=
  if month = 1 then (year - 1, 12) else (year, month - 1)

/-- The month after `month` of `year`, as a year and a month. -/
def followingMonth (year month : Int) : Int × Int :=
  if month = 12 then (year + 1, 1) else (year, month + 1)

/-- The calendar dates of a grid with their month flag: the last `lead` days of
the previous month, the days of the month, and the first `trail` days of the
following month. -/
def expectedCells (year month : Int) (lead trail : Nat) : List (Civil × Bool) :=
  (List.range lead).map (fun i : Nat =>
    ((⟨(previousMonth year month).1, (previousMonth year month).2,
      daysInMonth (previousMonth year month).1 (previousMonth year month).2 - lead + 1 + i⟩ :
        Civil), false)) ++
  (List.range (daysInMonth year month).toNat).map (fun i : Nat =>
    ((⟨year, month, (i : Int) + 1⟩ : Civil), true)) ++
  (List.range trail).map (fun i : Nat =>
    ((⟨(followingMonth year month).1, (followingMonth year month).2, (i : Int) + 1⟩ : Civil),
      false))

/-- The date, day number and month flag of a cell. -/
def Day.stamp (d : Day) : String × JSNum × Bool := (d.date, d.day, d.isCurrentMonth)

/-- The week number `ceil((d + w + 1) / 7)` of the week that starts on day
number `t`: `d` counts the days from January 1 of the year of `t` and `w` is
the weekday of that January 1. -/
def weekNumberOf (t : Int) : Int :=
  -((-((t - dayFromYear (yearFromDay t)) + weekDay (dayFromYear (yearFromDay t)) + 1)) / 7)

/-- A server five hours behind UTC on 2024-01-15. -/
def easternEnv : Env := ⟨"2024-01-15", -300, by decide, by decide⟩

/-- The environment of a run at another current date. -/
def Env.onDate (env : Env) (today : String) : Env :=
  ⟨today, env.tzOffset, env.tz_lo, env.tz_hi⟩

/-- A cell without its `isToday` flag. -/
def Day.timeless (d : Day) : String × JSNum × Bool × Bool :=
  (d.date, d.day, d.isCurrentMonth, d.isHoliday)

/-- A row without the `isToday` flags of its cells. -/
def Week.timeless (w : Week) : List (String × JSNum × Bool × Bool) × Nat × String × JSNum :=
  (w.days.map Day.timeless, w.holidayCount, w.weekColor, w.weekNumber)

/-- The object returned by `getCalendarData`, without `monthName`. -/
structure CalendarData where
  country : String
  year : Int
  month : Int
  holidays : List Holiday
  calendar : List Week
  totalHolidays : Nat
deriving DecidableEq, Repr

/-- The method `getCalendarData(country, year, month)`: the holidays of
`getHolidays` go to `generateCalendarStructure` with the same year and month.
The outcome is `none` when the builder does not return within the fuel, and
an error when `getHolidays` throws. -/
def getCalendarData (fuel : Nat) (env : Env) (s : Service)
    (upstream : Except String (List Holiday)) (now1 now2 now3 : Int)
    (c : Cache (List Holiday)) (country : String) (year month : Int) :
    Option (Except String CalendarData) × Cache (List Holiday) :=
  let r := getHolidays s upstream now1 now2 now3 c country year (some month)
  match r.1 with
  | Except.error e => (some (Except.error e), r.2)
  | Except.ok holidays =>
    ((generateCalendarStructure fuel env year month holidays).map (fun calendar =>
      Except.ok ⟨country, year, month, holidays, calendar, holidays.length⟩), r.2)

/-- The date strings of the days of a month. -/
def monthDates (year month : Int) : List String :=
  (List.range (daysInMonth year month).toNat).map (fun i : Nat => isoDate year month ((i : Int) + 1))

/-- The sum of `holidayCount` over the rows. -/
def totalHolidayCount (ws : List Week) : Nat := (ws.map (fun w => w.holidayCount)).sum

/-- The distinct holiday date strings that are dates of the month. -/
def holidayDatesOfMonth (year month : Int) (holidays : List Holiday) : List String :=
  ((holidays.map (fun h => h.date)).dedup).filter (fun s => decide (s ∈ monthDates year month))

end HolidayService

/-! ## The calendar route of `routes/holidays.js` -/

namespace Routes

open HolidayService

/-- The object `weekColorStats` of the calendar route. -/
structure WeekColorStats where
  totalWeeks : Nat
  defaultWeeks : Nat
  lightGreenWeeks : Nat
  darkGreenWeeks : Nat
deriving DecidableEq, Repr

/-- The statistics the calendar route computes from `calendarData.calendar`. -/
def weekColorStats (calendar : List Week) : WeekColorStats :=
  ⟨calendar.length,
    (calendar.filter (fun w => decide (w.weekColor = "default"))).length,
    (calendar.filter (fun w => decide (w.weekColor = "light-green"))).length,
    (calendar.filter (fun w => decide (w.weekColor = "dark-green"))).length⟩

end Routes

/-! ## Request validation in `utils/validator.js` -/

namespace Validator

open HolidayService

/-- The route parameters read by the validator; `none` is a missing value. -/
structure Params where
  country : Option String
  year : Option String
  month : Option String
deriving DecidableEq, Repr

/-- The ECMAScript white space and line terminator code points removed by
`trim` and skipped by `parseInt`. -/
def isWhiteSpace (c : Char) : Bool :=
  decide (c.toNat = 9 ∨ c.toNat = 10 ∨ c.toNat = 11 ∨ c.toNat = 12 ∨ c.toNat = 13 ∨
    c.toNat = 32 ∨ c.toNat = 160 ∨ c.toNat = 5760 ∨ (8192 ≤ c.toNat ∧ c.toNat ≤ 8202) ∨
    c.toNat = 8232 ∨ c.toNat = 8233 ∨ c.toNat = 8239 ∨ c.toNat = 8287 ∨ c.toNat = 12288 ∨
    c.toNat = 65279)

/-- The method `String.prototype.trim`. -/
def jsTrim (s : String) : String :=
  String.mk ((s.data.dropWhile isWhiteSpace).reverse.dropWhile isWhiteSpace).reverse

/-- The value of a character as a digit, letters counting from 10. -/
def digitValue (c : Char) : Option Nat :=
  if 48 ≤ c.toNat ∧ c.toNat ≤ 57 then some (c.toNat - 48)
  else if 97 ≤ c.toNat ∧ c.toNat ≤ 122 then some (c.toNat - 87)
  else if 65 ≤ c.toNat ∧ c.toNat ≤ 90 then some (c.toNat - 55)
  else none

/-- The values of the longest run of leading digits of the radix. -/
def radixDigits (radix : Nat) : List Char → List Nat
  | [] => []
  | c :: cs =>
    match digitValue c with
    | some v => if v < radix then v :: radixDigits radix cs else []
    | none => []

/-- The function `parseInt(string)` without a radix: leading white space is
skipped, a sign is read, `0x` selects radix 16, and the longest run of digits
is the value; NaN when there is no digit.  The value is kept exact. -/
def parseInt (s : String) : JSNum :=
  let cs := s.data.dropWhile isWhiteSpace
  let negative := decide (cs.head? = some '-')
  let cs1 := if cs.head? = some '-' ∨ cs.head? = some '+' then cs.tail else cs
  let hex := decide (cs1.take 2 = ['0', 'x'] ∨ cs1.take 2 = ['0', 'X'])
  let radix := if hex then 16 else 10
  let ds := radixDigits radix (if hex then cs1.drop 2 else cs1)
  if ds = [] then none
  else
    let n : Int := ((ds.foldl (fun a d => a * radix + d) 0 : Nat) : Int)
    some (if negative then -n else n)

/-- The test `/^[A-Z]{2}$/`. -/
def twoUpperLetters (s : String) : Bool :=
  decide (s.data.length = 2) && s.data.all (fun c => decide (65 ≤ c.toNat ∧ c.toNat ≤ 90))

/-- The method `validateCountryCode` on a string; `toUpperCase` is the
built-in of that name. -/
def validateCountryCode (toUpperCase : String → String) (country : String) :
    Except String String :=
  if country = "" then Except.error "Country code is required"
  else
    let countryCode := toUpperCase (jsTrim country)
    if Cache.utf16Length countryCode ≠ 2 then
      Except.error "Country code must be 2 characters long (ISO 3166-1 alpha-2)"
    else if ¬ twoUpperLetters countryCode then
      Except.error "Country code must contain only letters"
    else Except.ok countryCode

/-- The method `validateYear` on a string; `currentYear` is
`new Date().getFullYear()`. -/
def validateYear (currentYear : Int) (year : String) : Except String Int :=
  if year = "" then Except.error "Year is required"
  else
    match parseInt year with
    | none => Except.error "Year must be a valid number"
    | some yearNum =>
      if yearNum < 2000 ∨ yearNum > currentYear + 5 then
        Except.error ("Year must be between 2000 and " ++ jsNumToString (some (currentYear + 5)))
      else Except.ok yearNum

/-- The method `validateMonth` on a string. -/
def validateMonth (month : String) : Except String Int :=
  if month = "" then Except.error "Month is required"
  else
    match parseInt month with
    | none => Except.error "Month must be a valid number"
    | some monthNum =>
      if monthNum < 1 ∨ monthNum > 12 then Except.error "Month must be between 1 and 12"
      else Except.ok monthNum

/-- One entry of `sanitizeParams`: missing and empty values are dropped and
the others are trimmed. -/
def sanitizeValue (value : Option String) : Option String :=
  match value with
  | none => none
  | some s => if s = "" then none else some (jsTrim s)

/-- The method `sanitizeParams`. -/
def sanitizeParams (params : Params) : Params :=
  ⟨sanitizeValue params.country, sanitizeValue params.year, sanitizeValue params.month⟩

/-- The object `validated`: the fields that passed. -/
structure Validated where
  country : Option String
  year : Option Int
  month : Option Int
deriving DecidableEq, Repr

/-- The result of `validateHolidayRequest`. -/
structure ValidationResult where
  valid : Bool
  errors : List String
  data : Validated
deriving DecidableEq, Repr

/-- The test `if (value)` on a sanitized entry: a non-empty string. -/
def truthy (value : Option String) : Option String :=
  match value with
  | none => none
  | some s => if s = "" then none else some s

/-- The block `// Validate country` of `validateHolidayRequest`: the errors
and the validated country after it. -/
def countryBlock (toUpperCase : String → String) (sanitized : Params) :
    List String × Option String :=
  match truthy sanitized.country with
  | some country =>
    match validateCountryCode toUpperCase country with
    | Except.error e => ([e], none)
    | Except.ok v => ([], some v)
  | none => (["Country parameter is required"], none)

/-- The block `// Validate year`, entered with the errors so far. -/
def yearBlock (currentYear : Int) (sanitized : Params) (errors : List String) :
    List String × Option Int :=
  match truthy sanitized.year with
  | some year =>
    match validateYear currentYear year with
    | Except.error e => (errors ++ [e], none)
    | Except.ok v => (errors, some v)
  | none => (errors ++ ["Year parameter is required"], none)

/-- The block `// Validate month (optional)`, entered with the errors so far. -/
def monthBlock (sanitized : Params) (errors : List String) : List String × Option Int :=
  match truthy sanitized.month with
  | some month =>
    match validateMonth month with
    | Except.error e => (errors ++ [e], none)
    | Except.ok v => (errors, some v)
  | none => (errors, none)

/-- The method `validateHolidayRequest`. -/
def validateHolidayRequest (toUpperCase : String → String) (currentYear : Int)
    (params : Params) : ValidationResult :=
  let sanitized := sanitizeParams params
  let r1 := countryBlock toUpperCase sanitized
  let r2 := yearBlock currentYear sanitized r1.1
  let r3 := monthBlock sanitized r2.1
  ⟨decide (r3.1.length = 0), r3.1, ⟨r1.2, r2.2, r3.2⟩⟩

/-- The object `req.validated` the calendar route destructures into the
arguments of `getCalendarData`, which hands `month` on to
`generateCalendarStructure`; `none` when the middleware answers 400. -/
def calendarRouteArguments (toUpperCase : String → String) (currentYear : Int)
    (params : Params) : Option Validated :=
  let validation := validateHolidayRequest toUpperCase currentYear params
  if validation.valid then some validation.data else none

/-- Upper-casing of the letters a..z, for the examples. -/
def asciiUpper (s : String) : String :=
  String.mk (s.data.map (fun c =>
    if 97 ≤ c.toNat ∧ c.toNat ≤ 122 then Char.ofNat (c.toNat - 32) else c))

end Validator

/-! ## Frontend: `findConsecutiveHolidayWeeks` in `ConsecutiveHolidaysView.jsx` -/

namespace ConsecutiveHolidaysView

open HolidayService CalendarGrid

/-- The variables of the scan of one week. -/
structure ScanState where
  consecutiveCount : Nat
  lastHolidayIdx : Int
  weekHasConsecutive : Bool
deriving DecidableEq, Repr

/-- The body of `days.forEach((day, idx) => ..)`. -/
def scanStep (holidaysByDate : List (String × List Holiday)) (st : ScanState) (day : Day)
    (idx : Nat) : ScanState :=
  let hasHoliday := decide ((getHolidaysForDate day.date holidaysByDate).length > 0)
  if hasHoliday then
    let consecutiveCount :=
      if st.lastHolidayIdx = (idx : Int) - 1 then st.consecutiveCount + 1 else 1
    ⟨consecutiveCount, idx,
      if consecutiveCount ≥ 2 then true else st.weekHasConsecutive⟩
  else ⟨0, -2, st.weekHasConsecutive⟩

/-- The call `days.forEach(..)` from index `idx` on. -/
def scanDays (holidaysByDate : List (String × List Holiday)) :
    List Day → Nat → ScanState → ScanState
  | [], _, st => st
  | day :: rest, idx, st =>
    scanDays holidaysByDate rest (idx + 1) (scanStep holidaysByDate st day idx)

/-- The flag `weekHasConsecutive` after the scan of the in-month days of a
week. -/
def weekHasConsecutive (holidaysByDate : List (String × List Holiday)) (week : Week) : Bool :=
  (scanDays holidaysByDate (week.days.filter (fun day => day.isCurrentMonth)) 0
    ⟨0, -2, false⟩).weekHasConsecutive

/-- The function `findConsecutiveHolidayWeeks(calendarData, holidays)`;
`calendar` is `none` when `calendarData` or its `calendar` is missing. -/
def findConsecutiveHolidayWeeks (calendar : Option (List Week)) (holidays : List Holiday) :
    List Week :=
  match calendar with
  | none => []
  | some weeks => weeks.filter (weekHasConsecutive (groupHolidaysByDate holidays))

/-- Seven cells whose in-month days are not contiguous: the first and the
third belong to the month, the second does not. -/
def brokenWeek : Week :=
  ⟨[⟨"2024-02-05", some 5, true, false, false⟩, ⟨"2024-02-06", some 6, false, false, false⟩,
    ⟨"2024-02-07", some 7, true, false, false⟩, ⟨"2024-02-08", some 8, false, false, false⟩,
    ⟨"2024-02-09", some 9, false, false, false⟩, ⟨"2024-02-10", some 10, false, false, false⟩,
    ⟨"2024-02-11", some 11, false, false, false⟩], 0, "default", some 6⟩

end ConsecutiveHolidaysView

namespace ConsecutiveHolidaysView

open HolidayService CalendarGrid

/-- The test `getHolidaysForDate(day.date, holidaysByDate).length > 0`. -/
def hasHoliday (holidaysByDate : List (String × List Holiday)) (day : Day) : Bool :=
  decide ((getHolidaysForDate day.date holidaysByDate).length > 0)

/-- Whether a list of flags has two neighbouring entries that are both set. -/
def adjacentPair (l : List Bool) : Bool := (l.zip l.tail).any (fun p => p.1 && p.2)

/-- The flags that are set form one block: between two set flags every flag is
set. -/
def ContiguousFlags (l : List Bool) : Prop :=
  ∀ i j k : Nat, i < j → j < k → l[i]? = some true → l[k]? = some true → l[j]? = some true

end ConsecutiveHolidaysView

/-! ## The builder on a server with any time zone -/

namespace HolidayService

/-- The time zone of the server, as ECMAScript `LocalTZA(t, isUTC)` in minutes:
`offsetAt u` is the offset of local time from UTC at the instant `u` (minutes
since the epoch) and `offsetOfLocal tl` is the offset with which the local time
`tl` is read; the offsets stay below a day. -/
structure Zone where
  offsetAt : Int → Int
  offsetOfLocal : Int → Int
  local_lo : ∀ tl, -1440 < offsetOfLocal tl
  local_hi : ∀ tl, offsetOfLocal tl < 1440

/-- A zone that keeps one offset. -/
def Zone.fixed (k : Int) (lo : -1440 < k) (hi : k < 1440) : Zone :=
  ⟨fun _ => k, fun _ => k, fun _ => lo, fun _ => hi⟩

/-- A zone whose offset changes once, at the instant `change`, from `before` to
`after`.  A local time that the change skips or repeats is read with the offset
before the change, as ECMAScript `UTC(t)` prescribes. -/
def Zone.changing (before after change : Int) (b1 : -1440 < before) (b2 : before < 1440)
    (a1 : -1440 < after) (a2 : after < 1440) : Zone :=
  ⟨fun u => if u < change then before else after,
    fun tl => if tl < change + (if before < after then after else before) then before else after,
    fun tl => by dsimp only; split_ifs <;> assumption,
    fun tl => by dsimp only; split_ifs <;> assumption⟩

/-- The zone of the fixed-offset environment `env`. -/
def Env.zone (env : Env) : Zone := Zone.fixed env.tzOffset env.tz_lo env.tz_hi

namespace Zoned

/-- ECMAScript `LocalTime(t)` in minutes. -/
def localTime (z : Zone) (u : Int) : Int := u + z.offsetAt u

/-- ECMAScript `UTC(t)` in minutes. -/
def utc (z : Zone) (tl : Int) : Int := tl - z.offsetOfLocal tl

/-- The local day number of an instant. -/
def localDay (z : Zone) (u : Int) : Int := localTime z u / 1440

/-- ECMAScript `TimeClip` on an instant in minutes. -/
def timeClip (u : Int) : Option Int :=
  if -144000000000 ≤ u ∧ u ≤ 144000000000 then some u else none

/-- The constructor `new Date(year, month, date)`: the instant of that local
midnight; a year in 0..99 stands for 1900 + year.  A Date is its instant in
minutes, `none` for Invalid Date. -/
def newDate (z : Zone) (year month date : Int) : Option Int :=
  let yr := if 0 ≤ year ∧ year ≤ 99 then 1900 + year else year
  timeClip (utc z (makeDay yr month date * 1440))

/-- The method `getFullYear`. -/
def getFullYear (z : Zone) (d : Option Int) : JSNum := d.map (fun u => yearFromDay (localDay z u))

/-- The method `getMonth`. -/
def getMonth (z : Zone) (d : Option Int) : JSNum := d.map (fun u => monthFromDay (localDay z u))

/-- The method `getDate`. -/
def getDate (z : Zone) (d : Option Int) : JSNum := d.map (fun u => dateFromDay (localDay z u))

/-- The method `getDay`. -/
def getDay (z : Zone) (d : Option Int) : JSNum := d.map (fun u => weekDay (localDay z u))

/-- The method `setDate(n)`: the local year, month and time of day are kept and
the day of the month is replaced. -/
def setDate (z : Zone) (d : Option Int) (n : JSNum) : Option Int :=
  match d, n with
  | some u, some k =>
    timeClip (utc z (makeDay (yearFromDay (localDay z u)) (monthFromDay (localDay z u)) k * 1440
      + localTime z u % 1440))
  | _, _ => none

/-- The string `getFullYear() + '-' + MM + '-' + DD` built for every day. -/
def dateString (z : Zone) (d : Option Int) : String :=
  jsNumToString (getFullYear z d) ++ "-" ++
    padStart2 (jsNumToString (jsAdd (getMonth z d) (some 1))) ++ "-" ++
    padStart2 (jsNumToString (getDate z d))

/-- The instant of `new Date(str)` for `str = dateString d`: midnight UTC of the
local date of `d`; only years 1000..9999 give a string of ISO form, elsewhere
the result is taken to be an Invalid Date. -/
def reparse (z : Zone) (d : Option Int) : Option Int :=
  match d with
  | none => none
  | some u =>
    if 1000 ≤ yearFromDay (localDay z u) ∧ yearFromDay (localDay z u) ≤ 9999 then
      some (localDay z u * 1440)
    else none

/-- The method `getWeekNumber(date)` on an instant. -/
def getWeekNumber (z : Zone) (date : Option Int) : JSNum :=
  match date with
  | none => none
  | some u =>
    match newDate z (yearFromDay (localDay z u)) 0 1 with
    | none => none
    | some j =>
      some (-((-((u - j) + (weekDay (localDay z j) + 1) * 1440)) / (7 * 1440)))

/-- The inner `for` loop. -/
def weekDaysLoop (z : Zone) (today : String) (month : Int) (holidayDates : List String) :
    Nat → Option Int → List Day → List String → Option Int × List Day × List String
  | 0, startDate, week, weekDates => (startDate, week, weekDates)
  | n + 1, startDate, week, weekDates =>
    let date := startDate
    let ds := dateString z date
    let isCurrentMonth := decide (getMonth z date = some (month - 1))
    let isHoliday := decide (ds ∈ holidayDates)
    let day : Day := ⟨ds, getDate z date, isCurrentMonth, isHoliday, decide (ds = today)⟩
    let weekDates1 := if isCurrentMonth && isHoliday then weekDates ++ [ds] else weekDates
    weekDaysLoop z today month holidayDates n
      (setDate z startDate (jsAdd (getDate z startDate) (some 1))) (week ++ [day]) weekDates1

/-- The guard of the `while` loop; the Dates are compared as instants. -/
def loopGuard (z : Zone) (lastDay startDate : Option Int) (weeks : List Week) : Bool :=
  jsLe startDate lastDay || decide (weeks.length = 0) || decide (getDay z startDate ≠ some 1)

/-- The `while` loop with its `break`; `none` when the fuel is used up. -/
def whileLoop (z : Zone) (today : String) (month : Int) (lastDay : Option Int)
    (holidayDates : List String) : Nat → Option Int → List Week → Option (List Week)
  | 0, startDate, weeks =>
    if loopGuard z lastDay startDate weeks then none else some weeks
  | fuel + 1, startDate, weeks =>
    if loopGuard z lastDay startDate weeks then
      let r := weekDaysLoop z today month holidayDates 7 startDate [] []
      let holidayCount := r.2.2.length
      let weeks1 := weeks ++
        [⟨r.2.1, holidayCount, weekColorOf holidayCount, getWeekNumber z (reparse z startDate)⟩]
      if jsGt (getMonth z r.1) (some (month - 1)) then some weeks1
      else whileLoop z today month lastDay holidayDates fuel r.1 weeks1
    else some weeks

/-- The date the `while` loop starts from. -/
def gridStartDate (z : Zone) (year month : Int) : Option Int :=
  setDate z (newDate z year (month - 1) 1)
    (jsSub (some 1) (if getDay z (newDate z year (month - 1) 1) = some 0 then some 6
      else jsSub (getDay z (newDate z year (month - 1) 1)) (some 1)))

/-- The method `generateCalendarStructure(year, month, holidays)` on a server
in the zone `z` on the date `today`. -/
def generateCalendarStructure (fuel : Nat) (z : Zone) (today : String) (year month : Int)
    (holidays : List Holiday) : Option (List Week) :=
  let firstDay := newDate z year (month - 1) 1
  let lastDay := newDate z year month 0
  let dayOfWeek := getDay z firstDay
  let startDate := setDate z firstDay
    (jsSub (some 1) (if dayOfWeek = some 0 then some 6 else jsSub dayOfWeek (some 1)))
  let holidayDates := holidays.map (fun h => h.date)
  whileLoop z today month lastDay holidayDates fuel startDate []

/-- The method `getCalendarData(country, year, month)` on a server in the zone
`z`. -/
def getCalendarData (fuel : Nat) (z : Zone) (today : String) (s : Service)
    (upstream : Except String (List Holiday)) (now1 now2 now3 : Int)
    (c : Cache (List Holiday)) (country : String) (year month : Int) :
    Option (Except String CalendarData) × Cache (List Holiday) :=
  let r := getHolidays s upstream now1 now2 now3 c country year (some month)
  match r.1 with
  | Except.error e => (some (Except.error e), r.2)
  | Except.ok holidays =>
    ((generateCalendarStructure fuel z today year month holidays).map (fun calendar =>
      Except.ok ⟨country, year, month, holidays, calendar, holidays.length⟩), r.2)

end Zoned

/-- The instant at which the local day `t` begins when read as a local
midnight. -/
def Zone.midnight (z : Zone) (t : Int) : Int := Zoned.utc z (t * 1440)

/-- The day `t` begins at a local midnight: the instant of that midnight shows
00:00 of day `t` on the local clock. -/
def Zone.keepsMidnight (z : Zone) (t : Int) : Prop :=
  Zoned.localTime z (z.midnight t) = t * 1440

/-- Every day from `a` to `b` begins at a local midnight, each midnight later
than the one of the day before. -/
def Zone.regularOn (z : Zone) (a b : Int) : Prop :=
  ∀ t, a ≤ t → t ≤ b → z.keepsMidnight t ∧ (t < b → z.midnight t < z.midnight (t + 1))

/-- The zone America/Santiago around 8 September 2024, when the clocks went
from 00:00 to 01:00 (UTC-4 to UTC-3); its other changes are left out. -/
def santiago : Zone :=
  Zone.changing (-240) (-180) ((firstOfMonth 2024 9 + 7) * 1440 + 240)
    (by decide) (by decide) (by decide) (by decide)

/-- The zone Pacific/Apia around 30 December 2011, the day it skipped (UTC-10
to UTC+14); its other changes are left out. -/
def apia : Zone :=
  Zone.changing (-600) 840 ((firstOfMonth 2011 12 + 29) * 1440 + 600)
    (by decide) (by decide) (by decide) (by decide)

/-- The zone UTC. -/
def utcZone : Zone := Zone.fixed 0 (by decide) (by decide)

/-- The environment whose current date is `today`; it lends its `today` to the
cells of the closed form. -/
def envOn (today : String) : Env := utcEnv.onDate today

/-- The row that starts on the local day `t` in the zone `z`. -/
def Zoned.weekAt (z : Zone) (today : String) (month : Int) (holidayDates : List String)
    (t : Int) : Week :=
  ⟨daysFrom (envOn today) month holidayDates t 7,
    (inMonthHolidays (daysFrom (envOn today) month holidayDates t 7)).length,
    weekColorOf (inMonthHolidays (daysFrom (envOn today) month holidayDates t 7)).length,
    Zoned.getWeekNumber z (Zoned.reparse z (some (z.midnight t)))⟩

/-- The rows of `r` successive weeks from the local day `t`. -/
def Zoned.weeksFrom (z : Zone) (today : String) (month : Int) (holidayDates : List String) :
    Int → Nat → List Week
  | _, 0 => []
  | t, r + 1 => Zoned.weekAt z today month holidayDates t ::
      Zoned.weeksFrom z today month holidayDates (t + 7) r

/-- The cells, the holiday count and the colour of a row. -/
def Week.cells (w : Week) : List Day × Nat × String := (w.days, w.holidayCount, w.weekColor)

end HolidayService

/-! ## Calendar arithmetic -/

namespace HolidayService

theorem leapDays_eq (y : Int) : leapDays y =
    if y % 4 ≠ 0 then 0 else if y % 100 ≠ 0 then 1 else if y % 400 ≠ 0 then 0 else 1 := by
  unfold leapDays inLeapYear
  split_ifs <;> simp_all

theorem leapDays_cases (y : Int) : leapDays y = 0 ∨ leapDays y = 1 := by
  unfold leapDays; split <;> simp

theorem dayFromYear_succ (y : Int) : dayFromYear (y + 1) = dayFromYear y + 365 + leapDays y := by
  rw [leapDays_eq]
  unfold dayFromYear
  split_ifs <;> omega

theorem dayFromYear_mono {a b : Int} (h : a ≤ b) : dayFromYear a ≤ dayFromYear b := by
  unfold dayFromYear; omega

theorem yearFromDay_spec (d : Int) :
    dayFromYear (yearFromDay d) ≤ d ∧ d < dayFromYear (yearFromDay d + 1) := by
  have h1 : dayFromYear (1970 + d * 400 / 146097 - 1) ≤ d := by
    unfold dayFromYear; omega
  have h2 : d < dayFromYear (1970 + d * 400 / 146097 + 1 + 1) := by
    unfold dayFromYear; omega
  have e : (1970 + d * 400 / 146097 - 1 + 1 : Int) = 1970 + d * 400 / 146097 := by omega
  unfold yearFromDay
  simp only []
  split_ifs with c1 c2
  · exact ⟨c1, h2⟩
  · rw [e]; exact ⟨h1, c2⟩
  · exact ⟨not_lt.mp c2, not_le.mp c1⟩

theorem yearFromDay_eq {y d : Int} (h1 : dayFromYear y ≤ d) (h2 : d < dayFromYear (y + 1)) :
    yearFromDay d = y := by
  obtain ⟨s1, s2⟩ := yearFromDay_spec d
  by_contra hne
  rcases lt_or_gt_of_ne hne with h | h
  · have := dayFromYear_mono (show yearFromDay d + 1 ≤ y by omega)
    omega
  · have := dayFromYear_mono (show y + 1 ≤ yearFromDay d by omega)
    omega

theorem month_cases {mn : Int} (h0 : 0 ≤ mn) (h1 : mn ≤ 11) :
    mn = 0 ∨ mn = 1 ∨ mn = 2 ∨ mn = 3 ∨ mn = 4 ∨ mn = 5 ∨ mn = 6 ∨ mn = 7 ∨ mn = 8 ∨
      mn = 9 ∨ mn = 10 ∨ mn = 11 := by omega

theorem daysInMonth_bounds (y m : Int) : 28 ≤ daysInMonth y m ∧ daysInMonth y m ≤ 31 := by
  have := leapDays_cases y
  unfold daysInMonth; split_ifs <;> omega

theorem daysBeforeMonth_succ {mn : Int} (l : Int) (h0 : 0 ≤ mn) (h1 : mn ≤ 10) (y : Int)
    (hl : l = leapDays y) :
    daysBeforeMonth (mn + 1) l = daysBeforeMonth mn l + daysInMonth y (mn + 1) := by
  rcases month_cases h0 (by omega : mn ≤ 11) with h | h | h | h | h | h | h | h | h | h | h | h <;>
    subst h <;> simp [daysBeforeMonth, daysInMonth] <;> omega

theorem daysBeforeMonth_last (y : Int) :
    daysBeforeMonth 11 (leapDays y) + daysInMonth y 12 = 365 + leapDays y := by
  simp [daysBeforeMonth, daysInMonth]; omega

/-- A day given by its year, month and offset in the month has that calendar date. -/
theorem civil_of_offset {y m k : Int} (h0 : 0 ≤ m) (h1 : m ≤ 11) (k0 : 0 ≤ k)
    (k1 : k < daysInMonth y (m + 1)) :
    yearFromDay (dayFromYear y + daysBeforeMonth m (leapDays y) + k) = y ∧
    monthFromDay (dayFromYear y + daysBeforeMonth m (leapDays y) + k) = m ∧
    dateFromDay (dayFromYear y + daysBeforeMonth m (leapDays y) + k) = k + 1 := by
  have hs := dayFromYear_succ y
  have hl := leapDays_cases y
  have hy : yearFromDay (dayFromYear y + daysBeforeMonth m (leapDays y) + k) = y := by
    apply yearFromDay_eq
    · rcases month_cases h0 h1 with h | h | h | h | h | h | h | h | h | h | h | h <;>
        subst h <;> simp [daysBeforeMonth] <;> omega
    · rw [hs]
      rcases month_cases h0 h1 with h | h | h | h | h | h | h | h | h | h | h | h <;>
        subst h <;> simp [daysBeforeMonth, daysInMonth] at k1 ⊢ <;> omega
  refine ⟨hy, ?_⟩
  have hm : monthFromDay (dayFromYear y + daysBeforeMonth m (leapDays y) + k) = m := by
    unfold monthFromDay dayWithinYear
    simp only [hy]
    rcases month_cases h0 h1 with h | h | h | h | h | h | h | h | h | h | h | h <;>
      subst h <;> simp [daysBeforeMonth, daysInMonth] at k1 ⊢ <;> omega
  refine ⟨hm, ?_⟩
  unfold dateFromDay dayWithinYear
  rw [hm, hy]; omega

theorem monthFromDay_range (d : Int) : 0 ≤ monthFromDay d ∧ monthFromDay d ≤ 11 := by
  unfold monthFromDay
  simp only []
  omega

/-- Every day number is the day of its own calendar date. -/
theorem civil_decomp (d : Int) :
    d = dayFromYear (yearFromDay d) + daysBeforeMonth (monthFromDay d) (leapDays (yearFromDay d))
      + (dateFromDay d - 1) ∧
    1 ≤ dateFromDay d ∧ dateFromDay d ≤ daysInMonth (yearFromDay d) (monthFromDay d + 1) := by
  obtain ⟨s1, s2⟩ := yearFromDay_spec d
  rw [dayFromYear_succ] at s2
  have hl := leapDays_cases (yearFromDay d)
  obtain ⟨m0, m1⟩ := monthFromDay_range d
  have hd : dateFromDay d = d - dayFromYear (yearFromDay d) + 1
      - daysBeforeMonth (monthFromDay d) (leapDays (yearFromDay d)) := rfl
  have hm : monthFromDay d =
      (if d - dayFromYear (yearFromDay d) < 31 then 0
      else if d - dayFromYear (yearFromDay d) < 59 + leapDays (yearFromDay d) then 1
      else if d - dayFromYear (yearFromDay d) < 90 + leapDays (yearFromDay d) then 2
      else if d - dayFromYear (yearFromDay d) < 120 + leapDays (yearFromDay d) then 3
      else if d - dayFromYear (yearFromDay d) < 151 + leapDays (yearFromDay d) then 4
      else if d - dayFromYear (yearFromDay d) < 181 + leapDays (yearFromDay d) then 5
      else if d - dayFromYear (yearFromDay d) < 212 + leapDays (yearFromDay d) then 6
      else if d - dayFromYear (yearFromDay d) < 243 + leapDays (yearFromDay d) then 7
      else if d - dayFromYear (yearFromDay d) < 273 + leapDays (yearFromDay d) then 8
      else if d - dayFromYear (yearFromDay d) < 304 + leapDays (yearFromDay d) then 9
      else if d - dayFromYear (yearFromDay d) < 334 + leapDays (yearFromDay d) then 10
      else 11) := rfl
  refine ⟨by omega, ?_⟩
  rw [hd]
  rcases month_cases m0 m1 with h | h | h | h | h | h | h | h | h | h | h | h <;>
    rw [h] at hm ⊢ <;> simp [daysBeforeMonth, daysInMonth] <;> omega

theorem makeDay_of_day (d n : Int) :
    makeDay (yearFromDay d) (monthFromDay d) n = d - dateFromDay d + n := by
  obtain ⟨m0, m1⟩ := monthFromDay_range d
  obtain ⟨h, -, -⟩ := civil_decomp d
  unfold makeDay
  have e1 : monthFromDay d / 12 = 0 := by omega
  have e2 : monthFromDay d % 12 = monthFromDay d := by omega
  simp only [e1, e2, add_zero]
  omega

theorem timeClip_cases (env : Env) (d : Int) : timeClip env d = some d ∨ timeClip env d = none := by
  unfold timeClip; split <;> simp

theorem setDate_none (env : Env) (n : JSNum) : setDate env none n = none := by
  unfold setDate; rfl

theorem setDate_next (env : Env) (t : Int) :
    setDate env (some t) (jsAdd (getDate (some t)) (some 1)) = timeClip env (t + 1) := by
  simp only [setDate, getDate, jsAdd, Option.map_some', makeDay_of_day]
  congr 1; omega

theorem weekDaysLoop_none (env : Env) (month : Int) (hd : List String) (n : Nat)
    (week : List Day) (wd : List String) :
    (weekDaysLoop env month hd n none week wd).1 = none := by
  induction n generalizing week wd with
  | zero => rfl
  | succ n ih => simp only [weekDaysLoop, setDate_none]; exact ih _ _

theorem inMonthHolidays_cons (d : Day) (ds : List Day) :
    inMonthHolidays (d :: ds) =
      if d.isCurrentMonth && d.isHoliday then d :: inMonthHolidays ds else inMonthHolidays ds := by
  unfold inMonthHolidays
  rw [List.filter_cons]

/-- The inner loop over representable days pushes the cells of those days. -/
theorem weekDaysLoop_valid (env : Env) (month : Int) (hd : List String) (n : Nat) (t : Int)
    (week : List Day) (wd : List String)
    (hv : ∀ j : Nat, 1 ≤ j → j ≤ n → timeClip env (t + j) = some (t + j)) :
    weekDaysLoop env month hd n (some t) week wd =
      (some (t + n), week ++ daysFrom env month hd t n,
        wd ++ (inMonthHolidays (daysFrom env month hd t n)).map (fun d => d.date)) := by
  induction n generalizing t week wd with
  | zero => simp [weekDaysLoop, daysFrom, inMonthHolidays]
  | succ n ih =>
    have h1 : timeClip env (t + 1) = some (t + 1) := by
      have := hv 1 (le_refl 1) (by omega)
      simpa using this
    have hv2 : ∀ j : Nat, 1 ≤ j → j ≤ n → timeClip env (t + 1 + j) = some (t + 1 + j) := by
      intro j j1 j2
      have := hv (j + 1) (by omega) (by omega)
      have e : t + ((j + 1 : Nat) : Int) = t + 1 + j := by push_cast; omega
      rwa [e] at this
    simp only [weekDaysLoop, setDate_next, h1]
    rw [ih (t + 1) _ _ hv2]
    have e : t + 1 + (n : Int) = t + ((n + 1 : Nat) : Int) := by push_cast; omega
    rw [e]
    simp only [daysFrom, inMonthHolidays_cons, List.append_assoc, List.singleton_append]
    have hday : dayAt env month hd t = ⟨dateString (some t), getDate (some t),
        decide (getMonth (some t) = some (month - 1)),
        decide (dateString (some t) ∈ hd), decide (dateString (some t) = env.today)⟩ := rfl
    rw [← hday]
    have hcm : (dayAt env month hd t).isCurrentMonth = decide (getMonth (some t) = some (month - 1)) := rfl
    have hho : (dayAt env month hd t).isHoliday = decide (dateString (some t) ∈ hd) := rfl
    have hda : (dayAt env month hd t).date = dateString (some t) := rfl
    rw [← hcm, ← hho, ← hda]
    split <;> simp

/-- When some day of the inner loop is not representable the running date ends
as an Invalid Date. -/
theorem weekDaysLoop_invalid (env : Env) (month : Int) (hd : List String) (n : Nat) (t : Int)
    (week : List Day) (wd : List String)
    (hv : ¬ ∀ j : Nat, 1 ≤ j → j ≤ n → timeClip env (t + j) = some (t + j)) :
    (weekDaysLoop env month hd n (some t) week wd).1 = none := by
  induction n generalizing t week wd with
  | zero => exact absurd (fun j j1 j2 => absurd j2 (by omega)) hv
  | succ n ih =>
    simp only [weekDaysLoop, setDate_next]
    rcases timeClip_cases env (t + 1) with h1 | h1
    · rw [h1]
      apply ih
      intro hall
      apply hv
      intro j j1 j2
      rcases Nat.eq_or_lt_of_le j1 with e | l
      · subst e; simpa using h1
      · have := hall (j - 1) (by omega) (by omega)
        have e : t + 1 + ((j - 1 : Nat) : Int) = t + j := by omega
        rwa [e] at this
    · rw [h1]; exact weekDaysLoop_none _ _ _ _ _ _

theorem loopGuard_none (lastDay : JSDate) (ws : List Week) : loopGuard lastDay none ws = true := by
  simp [loopGuard, getDay]

/-- From an Invalid Date the `while` loop never exits. -/
theorem whileLoop_none (env : Env) (month : Int) (lastDay : JSDate) (hd : List String)
    (fuel : Nat) (ws : List Week) : whileLoop env month lastDay hd fuel none ws = none := by
  induction fuel generalizing ws with
  | zero => simp [whileLoop, loopGuard_none]
  | succ fuel ih =>
    simp only [whileLoop, loopGuard_none, if_true]
    rw [weekDaysLoop_none]
    simp only [getMonth, Option.map_none', jsGt]
    exact ih _

theorem week_of_valid (env : Env) (month : Int) (hd : List String) (t : Int)
    (hv : ∀ j : Nat, 1 ≤ j → j ≤ 7 → timeClip env (t + j) = some (t + j)) :
    (⟨(weekDaysLoop env month hd 7 (some t) [] []).2.1,
      (weekDaysLoop env month hd 7 (some t) [] []).2.2.length,
      weekColorOf (weekDaysLoop env month hd 7 (some t) [] []).2.2.length,
      getWeekNumber env (reparse (some t))⟩ : Week) = weekAt env month hd t ∧
    (weekDaysLoop env month hd 7 (some t) [] []).1 = some (t + 7) := by
  rw [weekDaysLoop_valid env month hd 7 t [] [] hv]
  simp [weekAt]

/-- Whatever the `while` loop returns from a valid date is the rows of
successive weeks of representable days appended to the rows it started with. -/
theorem whileLoop_shape (env : Env) (month : Int) (lastDay : JSDate) (hd : List String)
    (fuel : Nat) (t : Int) (ws out : List Week)
    (h : whileLoop env month lastDay hd fuel (some t) ws = some out) :
    ∃ r : Nat, out = ws ++ weeksFrom env month hd t r := by
  induction fuel generalizing t ws with
  | zero =>
    simp only [whileLoop] at h
    split at h
    · exact absurd h (by simp)
    · exact ⟨0, by simpa [weeksFrom] using (Option.some.inj h).symm⟩
  | succ fuel ih =>
    simp only [whileLoop] at h
    split at h
    · by_cases hv : ∀ j : Nat, 1 ≤ j → j ≤ 7 → timeClip env (t + j) = some (t + j)
      · obtain ⟨hw, hs⟩ := week_of_valid env month hd t hv
        rw [hw, hs] at h
        split at h
        · exact ⟨1, by simpa [weeksFrom] using (Option.some.inj h).symm⟩
        · obtain ⟨r, hr⟩ := ih _ _ h
          exact ⟨r + 1, by simpa [weeksFrom] using hr⟩
      · have hn := weekDaysLoop_invalid env month hd 7 t [] [] hv
        rw [hn] at h
        simp only [getMonth, Option.map_none', jsGt] at h
        rw [whileLoop_none] at h
        exact absurd h (by simp)
    · exact ⟨0, by simpa [weeksFrom] using (Option.some.inj h).symm⟩

/-- The `while` loop run over `r + 1` rows that end with the row of the last
day of the month. -/
theorem whileLoop_run (env : Env) (month : Int) (hd : List String) (first last : Int)
    (hmid : ∀ d, first ≤ d → d ≤ last → monthFromDay d = month - 1)
    (r : Nat) (fuel : Nat) (s : Int) (ws : List Week)
    (hfuel : r + 1 ≤ fuel)
    (hv : ∀ j : Nat, 1 ≤ j → j ≤ 7 * (r + 1) → timeClip env (s + j) = some (s + j))
    (hmon : weekDay s = 1) (hfirst : first ≤ s + 7)
    (hlo : s + 7 * r ≤ last) (hhi : last < s + 7 * (r + 1)) :
    whileLoop env month (some last) hd fuel (some s) ws =
      some (ws ++ weeksFrom env month hd s (r + 1)) := by
  induction r generalizing fuel s ws with
  | zero =>
    obtain ⟨f, rfl⟩ : ∃ f, fuel = f + 1 := ⟨fuel - 1, by omega⟩
    have hg : loopGuard (some last) (some s) ws = true := by
      simp only [loopGuard, jsLe, Bool.or_eq_true, decide_eq_true_eq]
      left; left; omega
    obtain ⟨hw, hs⟩ := week_of_valid env month hd s (fun j j1 j2 => hv j j1 (by omega))
    simp only [whileLoop, hg, if_true]
    rw [hw, hs]
    have hg2 : loopGuard (some last) (some (s + 7)) (ws ++ [weekAt env month hd s]) = false := by
      have : weekDay (s + 7) = 1 := by unfold weekDay at *; omega
      simp only [loopGuard, jsLe, getDay, Option.map_some', this]
      simp
      omega
    split
    · simp [weeksFrom]
    · cases f with
      | zero => simp [whileLoop, hg2, weeksFrom]
      | succ f => simp [whileLoop, hg2, weeksFrom]
  | succ r ih =>
    obtain ⟨f, rfl⟩ : ∃ f, fuel = f + 1 := ⟨fuel - 1, by omega⟩
    have hg : loopGuard (some last) (some s) ws = true := by
      simp only [loopGuard, jsLe, Bool.or_eq_true, decide_eq_true_eq]
      left; left; push_cast at hlo; omega
    obtain ⟨hw, hs⟩ := week_of_valid env month hd s (fun j j1 j2 => hv j j1 (by omega))
    simp only [whileLoop, hg, if_true]
    rw [hw, hs]
    have hm : monthFromDay (s + 7) = month - 1 :=
      hmid _ (by omega) (by push_cast at hlo; omega)
    have hb : jsGt (getMonth (some (s + 7))) (some (month - 1)) = false := by
      simp [jsGt, getMonth, hm]
    rw [hb]
    simp only [Bool.false_eq_true, if_false]
    rw [ih f (s + 7) _ (by omega) ?_ (by unfold weekDay at *; omega) (by omega)
      (by push_cast at hlo ⊢; omega) (by push_cast at hhi ⊢; omega)]
    · simp [weeksFrom]
    · intro j j1 j2
      have := hv (j + 7) (by omega) (by omega)
      have e : s + ((j + 7 : Nat) : Int) = s + 7 + j := by push_cast; omega
      rwa [e] at this

theorem effectiveYear_representable {year : Int} (h : representableYear year) :
    representableYear (effectiveYear year) := by
  unfold representableYear effectiveYear at *
  split <;> omega

theorem effectiveYear_literal {year : Int} (h : literalYear year) : effectiveYear year = year := by
  unfold literalYear at h
  unfold effectiveYear
  rw [if_neg h.2]

theorem makeDay_first {month : Int} (y : Int) (h1 : 1 ≤ month) (h2 : month ≤ 12) :
    makeDay y (month - 1) 1 = firstOfMonth y month := by
  unfold makeDay firstOfMonth
  have e1 : (month - 1) / 12 = 0 := by omega
  have e2 : (month - 1) % 12 = month - 1 := by omega
  simp only [e1, e2, add_zero]
  omega

theorem makeDay_last {month : Int} (y : Int) (h1 : 1 ≤ month) (h2 : month ≤ 12) :
    makeDay y month 0 = firstOfMonth y month + daysInMonth y month - 1 := by
  unfold makeDay firstOfMonth
  rcases (show month ≤ 11 ∨ month = 12 by omega) with h | h
  · have e1 : month / 12 = 0 := by omega
    have e2 : month % 12 = month := by omega
    have := daysBeforeMonth_succ (leapDays y) (show 0 ≤ month - 1 by omega)
      (show month - 1 ≤ 10 by omega) y rfl
    simp only [sub_add_cancel] at this
    simp only [e1, e2, add_zero, this]
    omega
  · subst h
    have := daysBeforeMonth_last y
    have hs := dayFromYear_succ y
    simp only [show (12 : Int) / 12 = 1 by decide, show (12 : Int) % 12 = 0 by decide,
      show (12 : Int) - 1 = 11 by decide]
    have z : daysBeforeMonth 0 (leapDays (y + 1)) = 0 := by simp [daysBeforeMonth]
    rw [z, hs]
    omega

/-- The days of the month carry the calendar dates 1..N of that month. -/
theorem civil_in_month {month : Int} (y : Int) (h1 : 1 ≤ month) (h2 : month ≤ 12) {k : Int}
    (k0 : 0 ≤ k) (k1 : k < daysInMonth y month) :
    yearFromDay (firstOfMonth y month + k) = y ∧
    monthFromDay (firstOfMonth y month + k) = month - 1 ∧
    dateFromDay (firstOfMonth y month + k) = k + 1 := by
  unfold firstOfMonth
  exact civil_of_offset (by omega) (by omega) k0 (by simpa using k1)

/-- The six days before the first of the month belong to another month. -/
theorem month_before {month : Int} (y : Int) (h1 : 1 ≤ month) (h2 : month ≤ 12) {j : Int}
    (j1 : 1 ≤ j) (j2 : j ≤ 6) : monthFromDay (firstOfMonth y month - j) ≠ month - 1 := by
  have hb := daysInMonth_bounds
  rcases (show month = 1 ∨ 2 ≤ month by omega) with h | h
  · subst h
    have hs := dayFromYear_succ (y - 1)
    have hl := daysBeforeMonth_last (y - 1)
    have hk := hb (y - 1) 12
    have e : firstOfMonth y 1 - j =
        dayFromYear (y - 1) + daysBeforeMonth 11 (leapDays (y - 1)) + (daysInMonth (y - 1) 12 - j) := by
      unfold firstOfMonth
      simp only [sub_add_cancel] at hs
      simp only [show (1 : Int) - 1 = 0 by decide, show daysBeforeMonth 0 (leapDays y) = 0 by
        simp [daysBeforeMonth]]
      omega
    rw [e]
    have := (civil_of_offset (y := y - 1) (m := 11) (k := daysInMonth (y - 1) 12 - j)
      (by omega) (by omega) (by omega) (by simp; omega)).2.1
    rw [this]; omega
  · have hd := daysBeforeMonth_succ (leapDays y) (show 0 ≤ month - 2 by omega)
      (show month - 2 ≤ 10 by omega) y rfl
    have hk := hb y (month - 2 + 1)
    have e : firstOfMonth y month - j =
        dayFromYear y + daysBeforeMonth (month - 2) (leapDays y)
          + (daysInMonth y (month - 2 + 1) - j) := by
      unfold firstOfMonth
      have e2 : month - 2 + 1 = month - 1 := by omega
      rw [e2] at hd ⊢
      omega
    rw [e]
    have := (civil_of_offset (y := y) (m := month - 2) (k := daysInMonth y (month - 2 + 1) - j)
      (by omega) (by omega) (by omega) (by omega)).2.1
    rw [this]; omega

/-- The seven days after the last of the month belong to the next month: a
later month of the year, or January after December. -/
theorem month_after {month : Int} (y : Int) (h1 : 1 ≤ month) (h2 : month ≤ 12) {j : Int}
    (j1 : 1 ≤ j) (j2 : j ≤ 7) :
    monthFromDay (firstOfMonth y month + daysInMonth y month - 1 + j) =
      (if month = 12 then 0 else month) := by
  have hb := daysInMonth_bounds
  rcases (show month ≤ 11 ∨ month = 12 by omega) with h | h
  · have hd := daysBeforeMonth_succ (leapDays y) (show 0 ≤ month - 1 by omega)
      (show month - 1 ≤ 10 by omega) y rfl
    simp only [sub_add_cancel] at hd
    have e : firstOfMonth y month + daysInMonth y month - 1 + j =
        dayFromYear y + daysBeforeMonth month (leapDays y) + (j - 1) := by
      unfold firstOfMonth; omega
    rw [e, if_neg (by omega)]
    have hk := hb y (month + 1)
    exact (civil_of_offset (y := y) (m := month) (k := j - 1)
      (by omega) (by omega) (by omega) (by omega)).2.1
  · subst h
    have hs := dayFromYear_succ y
    have hl := daysBeforeMonth_last y
    have e : firstOfMonth y 12 + daysInMonth y 12 - 1 + j =
        dayFromYear (y + 1) + daysBeforeMonth 0 (leapDays (y + 1)) + (j - 1) := by
      unfold firstOfMonth
      simp only [show (12 : Int) - 1 = 11 by decide,
        show daysBeforeMonth 0 (leapDays (y + 1)) = 0 by simp [daysBeforeMonth]]
      omega
    rw [e, if_pos rfl]
    have hk := hb (y + 1) (0 + 1)
    exact (civil_of_offset (y := y + 1) (m := 0) (k := j - 1)
      (by omega) (by omega) (by omega) (by omega)).2.1

theorem firstOfMonth_bounds {month : Int} (y : Int) (h1 : 1 ≤ month) (h2 : month ≤ 12) :
    dayFromYear y ≤ firstOfMonth y month ∧
    firstOfMonth y month + daysInMonth y month ≤ dayFromYear (y + 1) := by
  have hs := dayFromYear_succ y
  have hl := leapDays_cases y
  unfold firstOfMonth
  rcases month_cases (show 0 ≤ month - 1 by omega) (show month - 1 ≤ 11 by omega) with
    h | h | h | h | h | h | h | h | h | h | h | h <;>
  · have hm : month = month - 1 + 1 := by omega
    rw [hm, h]
    simp [daysBeforeMonth, daysInMonth]
    omega

/-- Every day of a grid of a representable year is a valid Date. -/
theorem timeClip_of_representable (env : Env) {y : Int} (hy : representableYear y) {d : Int}
    (h1 : dayFromYear y - 6 ≤ d) (h2 : d ≤ dayFromYear (y + 1) + 6) :
    timeClip env d = some d := by
  have lo := env.tz_lo
  have hi := env.tz_hi
  unfold representableYear at hy
  have a := dayFromYear_mono hy.1
  have b := dayFromYear_mono (show y + 1 ≤ 275760 by omega)
  have ea : dayFromYear (-271820) = -99999744 := by decide
  have eb : dayFromYear 275760 = 99999744 := by decide
  unfold timeClip
  rw [if_pos (by omega)]

theorem gridStart_props (y month : Int) :
    weekDay (gridStart y month) = 1 ∧ gridStart y month ≤ firstOfMonth y month ∧
      firstOfMonth y month ≤ gridStart y month + 6 := by
  unfold gridStart isoWeekday weekDay
  split <;> omega

theorem gridRows_props (y month : Int) :
    4 ≤ gridRows y month ∧ gridRows y month ≤ 6 ∧
    gridStart y month + 7 * ((gridRows y month : Int) - 1)
      ≤ firstOfMonth y month + daysInMonth y month - 1 ∧
    firstOfMonth y month + daysInMonth y month - 1 < gridStart y month + 7 * (gridRows y month : Int) := by
  obtain ⟨-, g1, g2⟩ := gridStart_props y month
  obtain ⟨b1, b2⟩ := daysInMonth_bounds y month
  unfold gridRows
  omega

theorem newDate_eq (env : Env) (year m d : Int) :
    newDate env year m d = timeClip env (makeDay (effectiveYear year) m d) := rfl

theorem grid_day_valid (env : Env) {y month : Int} (hy : representableYear y) (h1 : 1 ≤ month)
    (h2 : month ≤ 12) {d : Int} (a : firstOfMonth y month - 6 ≤ d)
    (b : d ≤ firstOfMonth y month + daysInMonth y month + 6) : timeClip env d = some d := by
  obtain ⟨f1, f2⟩ := firstOfMonth_bounds y h1 h2
  exact timeClip_of_representable env hy (by omega) (by omega)

theorem startDate_eq (env : Env) {y month : Int} (hy : representableYear y) (h1 : 1 ≤ month)
    (h2 : month ≤ 12) :
    setDate env (some (firstOfMonth y month))
      (jsSub (some 1) (if getDay (some (firstOfMonth y month)) = some 0 then some 6
        else jsSub (getDay (some (firstOfMonth y month))) (some 1))) =
      some (gridStart y month) := by
  obtain ⟨b1, b2⟩ := daysInMonth_bounds y month
  obtain ⟨-, -, hd⟩ := civil_in_month y h1 h2 (le_refl 0) (by omega : (0 : Int) < daysInMonth y month)
  simp only [add_zero] at hd
  obtain ⟨-, g1, g2⟩ := gridStart_props y month
  have hk : (if getDay (some (firstOfMonth y month)) = some 0 then (some 6 : JSNum)
        else jsSub (getDay (some (firstOfMonth y month))) (some 1)) =
      some (isoWeekday (firstOfMonth y month) - 1) := by
    unfold isoWeekday
    simp only [getDay, Option.map_some', Option.some.injEq, jsSub]
    split <;> simp
  rw [hk]
  simp only [setDate, jsSub, makeDay_of_day, hd]
  have e : firstOfMonth y month - (0 + 1) + (1 - (isoWeekday (firstOfMonth y month) - 1)) =
      gridStart y month := by unfold gridStart; omega
  rw [e]
  exact grid_day_valid env hy h1 h2 (by omega) (by omega)

/-- For a representable year and a month in 1..12 the builder returns, with six
units of fuel, the rows from the Monday on or before the first of the month
through the row of the last day of the month. -/
theorem generateCalendarStructure_eq (env : Env) (fuel : Nat) (year month : Int)
    (hs : List Holiday) (hy : representableYear year) (h1 : 1 ≤ month) (h2 : month ≤ 12)
    (hf : 6 ≤ fuel) :
    generateCalendarStructure fuel env year month hs =
      some (weeksFrom env month (hs.map (fun h => h.date))
        (gridStart (effectiveYear year) month) (gridRows (effectiveYear year) month)) := by
  have hy2 := effectiveYear_representable hy
  obtain ⟨b1, b2⟩ := daysInMonth_bounds (effectiveYear year) month
  obtain ⟨gm, g1, g2⟩ := gridStart_props (effectiveYear year) month
  obtain ⟨r1, r2, r3, r4⟩ := gridRows_props (effectiveYear year) month
  have hF : newDate env year (month - 1) 1 = some (firstOfMonth (effectiveYear year) month) := by
    rw [newDate_eq, makeDay_first _ h1 h2]
    exact grid_day_valid env hy2 h1 h2 (by omega) (by omega)
  have hL : newDate env year month 0 =
      some (firstOfMonth (effectiveYear year) month + daysInMonth (effectiveYear year) month - 1) := by
    rw [newDate_eq, makeDay_last _ h1 h2]
    exact grid_day_valid env hy2 h1 h2 (by omega) (by omega)
  unfold generateCalendarStructure
  simp only [hF, hL, startDate_eq env hy2 h1 h2]
  obtain ⟨r, hr⟩ : ∃ r, gridRows (effectiveYear year) month = r + 1 :=
    ⟨gridRows (effectiveYear year) month - 1, by omega⟩
  rw [hr] at r3 r4 ⊢
  have := whileLoop_run env month (hs.map (fun h => h.date)) (firstOfMonth (effectiveYear year) month)
    (firstOfMonth (effectiveYear year) month + daysInMonth (effectiveYear year) month - 1)
    (fun d d1 d2 => by
      have := (civil_in_month (effectiveYear year) h1 h2
        (k := d - firstOfMonth (effectiveYear year) month) (by omega) (by omega)).2.1
      simpa using this)
    r fuel (gridStart (effectiveYear year) month) [] (by omega)
    (fun j j1 j2 => grid_day_valid env hy2 h1 h2 (by omega) (by push_cast at r3; omega))
    gm (by omega) (by push_cast at r3; omega) (by push_cast at r4 ⊢; omega)
  simpa using this

theorem daysFrom_length (env : Env) (m : Int) (hd : List String) (t : Int) (n : Nat) :
    (daysFrom env m hd t n).length = n := by
  induction n generalizing t with
  | zero => rfl
  | succ n ih => simp [daysFrom, ih]

theorem daysFrom_add (env : Env) (m : Int) (hd : List String) (t : Int) (a b : Nat) :
    daysFrom env m hd t (a + b) = daysFrom env m hd t a ++ daysFrom env m hd (t + a) b := by
  induction a generalizing t with
  | zero => simp [daysFrom]
  | succ a ih =>
    have e : a + 1 + b = (a + b) + 1 := by omega
    rw [e]
    simp only [daysFrom, ih, List.cons_append]
    have e2 : t + 1 + (a : Int) = t + ((a + 1 : Nat) : Int) := by push_cast; omega
    rw [e2]

theorem weeksFrom_length (env : Env) (m : Int) (hd : List String) (t : Int) (r : Nat) :
    (weeksFrom env m hd t r).length = r := by
  induction r generalizing t with
  | zero => rfl
  | succ r ih => simp [weeksFrom, ih]

theorem allDays_weeksFrom (env : Env) (m : Int) (hd : List String) (t : Int) (r : Nat) :
    allDays (weeksFrom env m hd t r) = daysFrom env m hd t (7 * r) := by
  induction r generalizing t with
  | zero => rfl
  | succ r ih =>
    have e : 7 * (r + 1) = 7 + 7 * r := by omega
    rw [e, daysFrom_add]
    simp only [weeksFrom, allDays, List.flatMap_cons]
    have := ih (t + 7)
    simp only [allDays] at this
    rw [this]
    rfl

theorem mem_daysFrom {env : Env} {m : Int} {hd : List String} {t : Int} {n : Nat} {d : Day} :
    d ∈ daysFrom env m hd t n ↔ ∃ i : Nat, i < n ∧ d = dayAt env m hd (t + i) := by
  induction n generalizing t with
  | zero => simp [daysFrom]
  | succ n ih =>
    simp only [daysFrom, List.mem_cons, ih]
    constructor
    · rintro (h | ⟨i, hi, h⟩)
      · exact ⟨0, by omega, by simpa using h⟩
      · refine ⟨i + 1, by omega, ?_⟩
        have e : t + ((i + 1 : Nat) : Int) = t + 1 + i := by push_cast; omega
        rw [e]; exact h
    · rintro ⟨i, hi, h⟩
      cases i with
      | zero => left; simpa using h
      | succ i =>
        right
        refine ⟨i, by omega, ?_⟩
        have e : t + ((i + 1 : Nat) : Int) = t + 1 + i := by push_cast; omega
        rw [e] at h; exact h

theorem daysFrom_map {α : Type} (f : Day → α) (env : Env) (m : Int) (hd : List String) (t : Int)
    (n : Nat) :
    (daysFrom env m hd t n).map f =
      (List.range n).map (fun i : Nat => f (dayAt env m hd (t + (i : Int)))) := by
  induction n generalizing t with
  | zero => rfl
  | succ n ih =>
    rw [List.range_succ_eq_map]
    simp only [daysFrom, List.map_cons, List.map_map, ih, Nat.cast_zero, add_zero]
    congr 1
    apply List.map_congr_left
    intro i _
    simp only [Function.comp]
    have e : t + 1 + (i : Int) = t + ((i + 1 : Nat) : Int) := by push_cast; omega
    rw [e]

theorem dayAt_isCurrentMonth (env : Env) (m : Int) (hd : List String) (t : Int) :
    (dayAt env m hd t).isCurrentMonth = decide (monthFromDay t = m - 1) := by
  simp [dayAt, getMonth]

theorem dayAt_date (env : Env) (m : Int) (hd : List String) (t : Int) :
    (dayAt env m hd t).date = (civilOfDay t).iso := rfl

theorem dayAt_day (env : Env) (m : Int) (hd : List String) (t : Int) :
    (dayAt env m hd t).day = some (dateFromDay t) := rfl

theorem dayAt_isHoliday (env : Env) (m : Int) (hd : List String) (t : Int) :
    (dayAt env m hd t).isHoliday = decide ((civilOfDay t).iso ∈ hd) := rfl

theorem daysFrom_filter_none (env : Env) (m : Int) (hd : List String) (t : Int) (n : Nat)
    (h : ∀ i : Nat, i < n → monthFromDay (t + i) ≠ m - 1) :
    (daysFrom env m hd t n).filter (fun d => d.isCurrentMonth) = [] := by
  rw [List.filter_eq_nil_iff]
  intro d hdm
  obtain ⟨i, hi, rfl⟩ := mem_daysFrom.mp hdm
  simp [dayAt_isCurrentMonth, h i hi]

theorem daysFrom_filter_all (env : Env) (m : Int) (hd : List String) (t : Int) (n : Nat)
    (h : ∀ i : Nat, i < n → monthFromDay (t + i) = m - 1) :
    (daysFrom env m hd t n).filter (fun d => d.isCurrentMonth) = daysFrom env m hd t n := by
  rw [List.filter_eq_self]
  intro d hdm
  obtain ⟨i, hi, rfl⟩ := mem_daysFrom.mp hdm
  simp [dayAt_isCurrentMonth, h i hi]

/-- The flagged cells of the closed-form grid are the cells of the days of the
month. -/
theorem currentMonthDays_grid (env : Env) (y month : Int) (hd : List String) (h1 : 1 ≤ month)
    (h2 : month ≤ 12) :
    currentMonthDays (weeksFrom env month hd (gridStart y month) (gridRows y month)) =
      daysFrom env month hd (firstOfMonth y month) (daysInMonth y month).toNat := by
  obtain ⟨b1, b2⟩ := daysInMonth_bounds y month
  obtain ⟨-, g1, g2⟩ := gridStart_props y month
  obtain ⟨r1, r2, r3, r4⟩ := gridRows_props y month
  obtain ⟨k, hk⟩ : ∃ k : Nat, (k : Int) = firstOfMonth y month - gridStart y month :=
    ⟨(firstOfMonth y month - gridStart y month).toNat, by omega⟩
  obtain ⟨n, hn⟩ : ∃ n : Nat, (n : Int) = daysInMonth y month := ⟨(daysInMonth y month).toNat, by omega⟩
  obtain ⟨q, hq⟩ : ∃ q : Nat, 7 * gridRows y month = k + (n + q) :=
    ⟨7 * gridRows y month - k - n, by omega⟩
  have hn2 : (daysInMonth y month).toNat = n := by omega
  unfold currentMonthDays
  rw [allDays_weeksFrom, hq, daysFrom_add, daysFrom_add, List.filter_append, List.filter_append, hn2]
  have e1 : gridStart y month + (k : Int) = firstOfMonth y month := by omega
  rw [e1]
  rw [daysFrom_filter_none env month hd (gridStart y month) k, daysFrom_filter_all,
    daysFrom_filter_none]
  · simp
  · intro i hi
    have e : firstOfMonth y month + (n : Int) + (i : Int) =
        firstOfMonth y month + daysInMonth y month - 1 + ((i : Int) + 1) := by omega
    rw [e, month_after y h1 h2 (by omega) (by omega)]
    split <;> omega
  · intro i hi
    exact (civil_in_month y h1 h2 (k := (i : Int)) (by omega) (by omega)).2.1
  · intro i hi
    have e : gridStart y month + (i : Int) = firstOfMonth y month - ((k : Int) - i) := by omega
    rw [e]
    exact month_before y h1 h2 (by omega) (by omega)

theorem generateCalendarStructure_def (fuel : Nat) (env : Env) (year month : Int)
    (hs : List Holiday) :
    generateCalendarStructure fuel env year month hs =
      whileLoop env month (newDate env year month 0) (hs.map (fun h => h.date)) fuel
        (gridStartDate env year month) [] := rfl

/-- Whatever the builder returns is a list of rows of successive weeks from the
start date. -/
theorem generateCalendarStructure_shape {fuel : Nat} {env : Env} {year month : Int}
    {hs : List Holiday} {ws : List Week}
    (h : generateCalendarStructure fuel env year month hs = some ws) :
    ∃ t0, gridStartDate env year month = some t0 ∧
      ws = weeksFrom env month (hs.map (fun h => h.date)) t0 ws.length := by
  rw [generateCalendarStructure_def] at h
  cases hst : gridStartDate env year month with
  | none => rw [hst, whileLoop_none] at h; exact absurd h (by simp)
  | some t0 =>
    rw [hst] at h
    obtain ⟨r, hr⟩ := whileLoop_shape _ _ _ _ _ _ _ _ h
    refine ⟨t0, rfl, ?_⟩
    simp only [List.nil_append] at hr
    rw [hr, weeksFrom_length]

/-- When the first of the month is not a valid Date the builder never returns. -/
theorem generateCalendarStructure_diverges {env : Env} {year month : Int}
    (h : newDate env year (month - 1) 1 = none) (fuel : Nat) (hs : List Holiday) :
    generateCalendarStructure fuel env year month hs = none := by
  rw [generateCalendarStructure_def]
  have : gridStartDate env year month = none := by
    unfold gridStartDate; rw [h]; exact setDate_none _ _
  rw [this, whileLoop_none]

theorem mem_weeksFrom {env : Env} {m : Int} {hd : List String} {t : Int} {r : Nat} {w : Week} :
    w ∈ weeksFrom env m hd t r ↔ ∃ i : Nat, i < r ∧ w = weekAt env m hd (t + 7 * i) := by
  induction r generalizing t with
  | zero => simp [weeksFrom]
  | succ r ih =>
    simp only [weeksFrom, List.mem_cons, ih]
    constructor
    · rintro (h | ⟨i, hi, h⟩)
      · exact ⟨0, by omega, by simpa using h⟩
      · refine ⟨i + 1, by omega, ?_⟩
        have e : t + 7 * ((i + 1 : Nat) : Int) = t + 7 + 7 * i := by push_cast; omega
        rw [e]; exact h
    · rintro ⟨i, hi, h⟩
      cases i with
      | zero => left; simpa using h
      | succ i =>
        right
        refine ⟨i, by omega, ?_⟩
        have e : t + 7 * ((i + 1 : Nat) : Int) = t + 7 + 7 * i := by push_cast; omega
        rw [e] at h; exact h

theorem weeksFrom_snoc (env : Env) (m : Int) (hd : List String) (t : Int) (r : Nat) :
    weeksFrom env m hd t (r + 1) = weeksFrom env m hd t r ++ [weekAt env m hd (t + 7 * r)] := by
  induction r generalizing t with
  | zero => simp [weeksFrom]
  | succ r ih =>
    rw [weeksFrom, ih (t + 7)]
    have e : t + 7 + 7 * (r : Int) = t + 7 * ((r + 1 : Nat) : Int) := by push_cast; omega
    rw [e]
    rfl

theorem weeksFrom_getLast (env : Env) (m : Int) (hd : List String) (t : Int) (r : Nat) :
    (weeksFrom env m hd t (r + 1)).getLast? = some (weekAt env m hd (t + 7 * r)) := by
  rw [weeksFrom_snoc]; simp

/-- The calendar date of every day number is a real date. -/
theorem civilOfDay_wellFormed (t : Int) : (civilOfDay t).wellFormed := by
  obtain ⟨m0, m1⟩ := monthFromDay_range t
  obtain ⟨-, d1, d2⟩ := civil_decomp t
  unfold Civil.wellFormed civilOfDay
  simp only
  omega

/-- The next day number carries the next calendar date. -/
theorem civilOfDay_succ (t : Int) : civilOfDay (t + 1) = (civilOfDay t).next := by
  obtain ⟨m0, m1⟩ := monthFromDay_range t
  obtain ⟨e, d1, d2⟩ := civil_decomp t
  obtain ⟨b1, b2⟩ := daysInMonth_bounds (yearFromDay t) (monthFromDay t + 1)
  unfold Civil.next
  simp only [civilOfDay]
  by_cases c1 : dateFromDay t < daysInMonth (yearFromDay t) (monthFromDay t + 1)
  · rw [if_pos c1]
    have := civil_of_offset (y := yearFromDay t) (m := monthFromDay t) (k := dateFromDay t)
      m0 m1 (by omega) c1
    have e2 : t + 1 = dayFromYear (yearFromDay t)
        + daysBeforeMonth (monthFromDay t) (leapDays (yearFromDay t)) + dateFromDay t := by omega
    rw [← e2] at this
    rw [this.1, this.2.1, this.2.2]
  · rw [if_neg c1]
    by_cases c2 : monthFromDay t + 1 < 12
    · rw [if_pos c2]
      have hd := daysBeforeMonth_succ (leapDays (yearFromDay t)) m0 (by omega : monthFromDay t ≤ 10)
        (yearFromDay t) rfl
      obtain ⟨b3, b4⟩ := daysInMonth_bounds (yearFromDay t) (monthFromDay t + 1 + 1)
      have := civil_of_offset (y := yearFromDay t) (m := monthFromDay t + 1) (k := 0)
        (by omega) (by omega) (le_refl 0) (by omega)
      have e2 : t + 1 = dayFromYear (yearFromDay t)
          + daysBeforeMonth (monthFromDay t + 1) (leapDays (yearFromDay t)) + 0 := by omega
      rw [← e2] at this
      rw [this.1, this.2.1, this.2.2]
      simp
    · rw [if_neg c2]
      have hm : monthFromDay t = 11 := by omega
      have hdim : daysInMonth (yearFromDay t) (monthFromDay t + 1) = daysInMonth (yearFromDay t) 12 := by
        rw [hm]; rfl
      rw [hm] at e
      have hl := daysBeforeMonth_last (yearFromDay t)
      have hs := dayFromYear_succ (yearFromDay t)
      obtain ⟨b3, b4⟩ := daysInMonth_bounds (yearFromDay t + 1) (0 + 1)
      have := civil_of_offset (y := yearFromDay t + 1) (m := 0) (k := 0)
        (le_refl 0) (by omega) (le_refl 0) (by omega)
      have z : daysBeforeMonth 0 (leapDays (yearFromDay t + 1)) = 0 := by simp [daysBeforeMonth]
      have e2 : t + 1 = dayFromYear (yearFromDay t + 1)
          + daysBeforeMonth 0 (leapDays (yearFromDay t + 1)) + 0 := by
        rw [z, hs]; omega
      rw [← e2] at this
      rw [this.1, this.2.1, this.2.2]
      simp

theorem dayAt_in_month (env : Env) (hd : List String) {y month : Int} (h1 : 1 ≤ month) (h2 : month ≤ 12)
    {k : Int} (k0 : 0 ≤ k) (k1 : k < daysInMonth y month) :
    (dayAt env month hd (firstOfMonth y month + k)).date = isoDate y month (k + 1) ∧
    (dayAt env month hd (firstOfMonth y month + k)).day = some (k + 1) ∧
    (dayAt env month hd (firstOfMonth y month + k)).isCurrentMonth = true := by
  obtain ⟨a, b, c⟩ := civil_in_month y h1 h2 k0 k1
  refine ⟨?_, ?_, ?_⟩
  · rw [dayAt_date]
    simp only [Civil.iso, civilOfDay, a, b, c, sub_add_cancel]
  · rw [dayAt_day, c]
  · rw [dayAt_isCurrentMonth, b]; simp

theorem weekAt_days (env : Env) (m : Int) (hd : List String) (t : Int) :
    (weekAt env m hd t).days = daysFrom env m hd t 7 := rfl

theorem chain_civil (t : Int) (n : Nat) :
    List.Chain' (fun a b : Civil => b = a.next)
      ((List.range n).map (fun i : Nat => civilOfDay (t + (i : Int)))) := by
  rw [List.chain'_map]
  cases n with
  | zero => simp
  | succ n =>
    rw [List.chain'_range_succ]
    intro i _
    have e : t + ((i + 1 : Nat) : Int) = t + i + 1 := by push_cast; omega
    rw [e]
    exact civilOfDay_succ _

theorem weeksFrom_head (env : Env) (m : Int) (hd : List String) (t : Int) (r : Nat) :
    (weeksFrom env m hd t (r + 1)).head? = some (weekAt env m hd t) := rfl

/-- C4 (amended): for every year that the Date constructor takes literally and
every month in 1..12, the first cell of the first week carries the date of the
day that lies (weekday - 1) days before the first of the month, where weekday
is 1..6 for Monday..Saturday and 7 for Sunday; that day is a Monday and no day
after it up to the first of the month is a Monday. -/
theorem first_cell_is_the_monday_on_or_before_the_first (env : Env) (fuel : Nat)
    (year month : Int) (hs : List Holiday) (hy : literalYear year) (h1 : 1 ≤ month)
    (h2 : month ≤ 12) (hf : 6 ≤ fuel) :
    civilOfDay (firstOfMonth year month) = ⟨year, month, 1⟩ ∧
    1 ≤ isoWeekday (firstOfMonth year month) ∧ isoWeekday (firstOfMonth year month) ≤ 7 ∧
    weekDay (firstOfMonth year month - (isoWeekday (firstOfMonth year month) - 1)) = 1 ∧
    (∀ t, firstOfMonth year month - (isoWeekday (firstOfMonth year month) - 1) < t →
      t ≤ firstOfMonth year month → weekDay t ≠ 1) ∧
    ∃ ws w d, generateCalendarStructure fuel env year month hs = some ws ∧
      ws.head? = some w ∧ w.days.head? = some d ∧
      d.date = (civilOfDay
        (firstOfMonth year month - (isoWeekday (firstOfMonth year month) - 1))).iso := by
  obtain ⟨b1, b2⟩ := daysInMonth_bounds year month
  obtain ⟨a, b, c⟩ := civil_in_month year h1 h2 (le_refl 0) (by omega : (0 : Int) < daysInMonth year month)
  obtain ⟨gm, g1, g2⟩ := gridStart_props year month
  obtain ⟨r1, -, -, -⟩ := gridRows_props year month
  refine ⟨?_, ?_, ?_, gm, ?_, ?_⟩
  · simp only [add_zero, zero_add] at a b c
    simp only [civilOfDay, a, b, c, sub_add_cancel]
  · unfold isoWeekday weekDay; split <;> omega
  · unfold isoWeekday weekDay; split <;> omega
  · intro t t1 t2
    unfold gridStart at gm g1 g2
    unfold weekDay at *
    omega
  · obtain ⟨r, hr⟩ : ∃ r, gridRows year month = r + 1 := ⟨gridRows year month - 1, by omega⟩
    refine ⟨_, weekAt env month (hs.map (fun h => h.date)) (gridStart year month),
      dayAt env month (hs.map (fun h => h.date)) (gridStart year month),
      generateCalendarStructure_eq env fuel year month hs hy.1 h1 h2 hf, ?_, ?_, ?_⟩
    · rw [effectiveYear_literal hy, hr, weeksFrom_head]
    · rfl
    · rfl

/-- Witness of C4 at September 2024, whose first day is a Sunday. -/
theorem first_cell_is_the_monday_on_or_before_the_first_witness :
    isoWeekday (firstOfMonth 2024 9) = 7 ∧
    ∃ ws w d, generateCalendarStructure 6 utcEnv 2024 9 [] = some ws ∧
      ws.head? = some w ∧ w.days.head? = some d ∧
      d.date = (civilOfDay (firstOfMonth 2024 9 - (isoWeekday (firstOfMonth 2024 9) - 1))).iso :=
  ⟨by decide, (first_cell_is_the_monday_on_or_before_the_first utcEnv 6 2024 9 [] (by decide)
    (by decide) (by decide) (le_refl 6)).2.2.2.2.2⟩

/-- C4 fails as stated: for January of year 50 the grid starts on 1949-12-26,
the Monday before 1950-01-01, while the first of January of year 50 is a
Saturday whose Monday is December 27 of year 49; for the years next to the
representable range the builder never returns. -/
theorem first_cell_counterexample :
    (generateCalendarStructure 6 utcEnv 50 1 []).map
        (fun ws => ws.head?.map (fun w => w.days.head?.map (fun d => d.date)))
      = some (some (some "1949-12-26")) ∧
    civilOfDay (firstOfMonth 50 1) = ⟨50, 1, 1⟩ ∧ isoWeekday (firstOfMonth 50 1) = 6 ∧
    (civilOfDay (firstOfMonth 50 1 - (isoWeekday (firstOfMonth 50 1) - 1))).iso = "49-12-27" ∧
    (∀ fuel, generateCalendarStructure fuel utcEnv 275760 12 [] = none) ∧
    (∀ fuel, generateCalendarStructure fuel utcEnv (-271821) 1 [] = none) :=
  ⟨by decide, by decide, by decide, by decide,
    fun fuel => generateCalendarStructure_diverges (by decide) fuel [],
    fun fuel => generateCalendarStructure_diverges (by decide) fuel []⟩

theorem weekDaysLoop_fst_indep (env : Env) (month : Int) (hd hd1 : List String) (n : Nat)
    (s : JSDate) (week week1 : List Day) (wd wd1 : List String) :
    (weekDaysLoop env month hd n s week wd).1 = (weekDaysLoop env month hd1 n s week1 wd1).1 := by
  induction n generalizing s week week1 wd wd1 with
  | zero => rfl
  | succ n ih => simp only [weekDaysLoop]; exact ih _ _ _ _ _

theorem loopGuard_length (lastDay s : JSDate) (ws ws1 : List Week) (h : ws.length = ws1.length) :
    loopGuard lastDay s ws = loopGuard lastDay s ws1 := by
  unfold loopGuard; rw [h]

/-- The number of rows the `while` loop returns does not depend on the
holidays. -/
theorem whileLoop_length_indep (env : Env) (month : Int) (lastDay : JSDate) (hd hd1 : List String)
    (fuel : Nat) (s : JSDate) (ws ws1 : List Week) (h : ws.length = ws1.length) :
    (whileLoop env month lastDay hd fuel s ws).map List.length =
      (whileLoop env month lastDay hd1 fuel s ws1).map List.length := by
  induction fuel generalizing s ws ws1 with
  | zero =>
    simp only [whileLoop, loopGuard_length lastDay s ws ws1 h]
    split <;> simp [h]
  | succ fuel ih =>
    simp only [whileLoop, loopGuard_length lastDay s ws ws1 h]
    split
    · rw [weekDaysLoop_fst_indep env month hd hd1 7 s [] [] [] []]
      split
      · simp [h]
      · apply ih; simp [h]
    · simp [h]

theorem dayAt_cons_isCurrentMonth (env : Env) (m : Int) (hd : List String) (x : String) (t : Int) :
    (dayAt env m (x :: hd) t).isCurrentMonth = (dayAt env m hd t).isCurrentMonth := rfl

theorem dayAt_cons_date (env : Env) (m : Int) (hd : List String) (x : String) (t : Int) :
    (dayAt env m (x :: hd) t).date = (dayAt env m hd t).date := rfl

theorem inMonthHolidays_length_cons (env : Env) (m : Int) (hd : List String) (x : String)
    (t : Int) (n : Nat)
    (h : ∀ i : Nat, i < n → (dayAt env m hd (t + i)).isCurrentMonth = true →
      (dayAt env m hd (t + i)).date ≠ x) :
    (inMonthHolidays (daysFrom env m (x :: hd) t n)).length =
      (inMonthHolidays (daysFrom env m hd t n)).length := by
  induction n generalizing t with
  | zero => rfl
  | succ n ih =>
    have h0 := h 0 (by omega)
    simp only [Nat.cast_zero, add_zero] at h0
    have ih2 := ih (t + 1) (fun i hi => by
      have := h (i + 1) (by omega)
      have e : t + ((i + 1 : Nat) : Int) = t + 1 + i := by push_cast; omega
      rwa [e] at this)
    simp only [daysFrom, inMonthHolidays_cons, dayAt_cons_isCurrentMonth]
    have hh : (dayAt env m hd t).isCurrentMonth = true →
        (dayAt env m (x :: hd) t).isHoliday = (dayAt env m hd t).isHoliday := by
      intro hc
      have hne := h0 hc
      rw [dayAt_date] at hne
      simp only [dayAt_isHoliday, List.mem_cons, hne, false_or]
    by_cases hc : (dayAt env m hd t).isCurrentMonth = true
    · rw [hh hc]
      by_cases hh2 : (dayAt env m hd t).isHoliday = true
      · simp [hc, hh2, ih2]
      · simp [hc, hh2, ih2]
    · simp [hc, ih2]

theorem weeksFrom_counts_cons (env : Env) (m : Int) (hd : List String) (x : String)
    (t : Int) (r : Nat)
    (h : ∀ d ∈ allDays (weeksFrom env m hd t r), d.isCurrentMonth = true → d.date ≠ x) :
    (weeksFrom env m (x :: hd) t r).map (fun w => (w.holidayCount, w.weekColor)) =
      (weeksFrom env m hd t r).map (fun w => (w.holidayCount, w.weekColor)) := by
  induction r generalizing t with
  | zero => rfl
  | succ r ih =>
    have hsplit : allDays (weeksFrom env m hd t (r + 1)) =
        daysFrom env m hd t 7 ++ allDays (weeksFrom env m hd (t + 7) r) := by
      simp only [weeksFrom, allDays, List.flatMap_cons]; rfl
    rw [hsplit] at h
    have e := inMonthHolidays_length_cons env m hd x t 7 (fun i hi hc =>
      h _ (List.mem_append_left _ (mem_daysFrom.mpr ⟨i, hi, rfl⟩)) hc)
    have ih2 := ih (t + 7) (fun d hdm => h d (List.mem_append_right _ hdm))
    simp only [weeksFrom, List.map_cons, ih2]
    congr 1
    simp only [weekAt, e]

/-- C6: in every week the builder returns, `holidayCount` is the number of
its days with `isCurrentMonth && isHoliday` and `weekColor` is `default`,
`light-green` or `very-dark-green` for a count of 0, 1, or 2 and more; every
day, padding days included, has `isHoliday` set exactly when its date is in
the holiday list; and adding a holiday that falls on no day of the month leaves
every `holidayCount` and `weekColor` as it was while the days with that date
are flagged `isHoliday`.  For a representable year and a month in 1..12 the
builder does return. -/
theorem holidayCount_and_weekColor (env : Env) (year month : Int) (hs : List Holiday) :
    (∀ fuel ws, generateCalendarStructure fuel env year month hs = some ws →
      ∀ w ∈ ws,
        w.holidayCount = (w.days.filter (fun d => d.isCurrentMonth && d.isHoliday)).length ∧
        (w.holidayCount = 0 → w.weekColor = "default") ∧
        (w.holidayCount = 1 → w.weekColor = "light-green") ∧
        (2 ≤ w.holidayCount → w.weekColor = "very-dark-green") ∧
        ∀ d ∈ w.days, d.isHoliday = decide (d.date ∈ hs.map (fun h => h.date))) ∧
    (∀ fuel ws (h : Holiday), generateCalendarStructure fuel env year month hs = some ws →
      (∀ d ∈ allDays ws, d.isCurrentMonth = true → d.date ≠ h.date) →
      ∃ ws1, generateCalendarStructure fuel env year month (h :: hs) = some ws1 ∧
        ws1.map (fun w => (w.holidayCount, w.weekColor)) =
          ws.map (fun w => (w.holidayCount, w.weekColor)) ∧
        ∀ d ∈ allDays ws1, d.date = h.date → d.isHoliday = true) ∧
    (representableYear year → 1 ≤ month → month ≤ 12 →
      ∃ ws, generateCalendarStructure 6 env year month hs = some ws) := by
  refine ⟨?_, ?_, ?_⟩
  · intro fuel ws h w hw
    obtain ⟨t0, -, hsh⟩ := generateCalendarStructure_shape h
    rw [hsh] at hw
    obtain ⟨i, -, rfl⟩ := mem_weeksFrom.mp hw
    refine ⟨rfl, ?_, ?_, ?_, ?_⟩
    · intro h0
      have : (weekAt env month (hs.map (fun h => h.date)) (t0 + 7 * i)).weekColor
          = weekColorOf (weekAt env month (hs.map (fun h => h.date)) (t0 + 7 * i)).holidayCount := rfl
      rw [this, h0]; rfl
    · intro h0
      have : (weekAt env month (hs.map (fun h => h.date)) (t0 + 7 * i)).weekColor
          = weekColorOf (weekAt env month (hs.map (fun h => h.date)) (t0 + 7 * i)).holidayCount := rfl
      rw [this, h0]; rfl
    · intro h0
      have : (weekAt env month (hs.map (fun h => h.date)) (t0 + 7 * i)).weekColor
          = weekColorOf (weekAt env month (hs.map (fun h => h.date)) (t0 + 7 * i)).holidayCount := rfl
      rw [this]
      unfold weekColorOf
      rw [if_pos h0]
    · intro d hdm
      rw [weekAt_days] at hdm
      obtain ⟨j, -, rfl⟩ := mem_daysFrom.mp hdm
      rfl
  · intro fuel ws h hg hno
    obtain ⟨t0, hst, hsh⟩ := generateCalendarStructure_shape hg
    have hlen := whileLoop_length_indep env month (newDate env year month 0)
      (hs.map (fun h => h.date)) ((h :: hs).map (fun h => h.date)) fuel
      (gridStartDate env year month) [] [] rfl
    rw [← generateCalendarStructure_def, ← generateCalendarStructure_def, hg] at hlen
    cases hg1 : generateCalendarStructure fuel env year month (h :: hs) with
    | none => rw [hg1] at hlen; exact absurd hlen (by simp)
    | some ws1 =>
      rw [hg1] at hlen
      have hl : ws1.length = ws.length := by simpa using hlen.symm
      obtain ⟨t1, hst1, hsh1⟩ := generateCalendarStructure_shape hg1
      have ht : t1 = t0 := by rw [hst] at hst1; exact (Option.some.inj hst1).symm
      subst ht
      rw [hl] at hsh1
      refine ⟨ws1, rfl, ?_, ?_⟩
      · rw [hsh1, hsh]
        rw [hsh] at hno
        simp only [weeksFrom_length] at hno ⊢
        exact weeksFrom_counts_cons env month _ h.date t1 ws.length hno
      · intro d hdm hdate
        rw [hsh1, allDays_weeksFrom] at hdm
        obtain ⟨j, -, rfl⟩ := mem_daysFrom.mp hdm
        rw [dayAt_date] at hdate
        simp [dayAt_isHoliday, hdate]
  · intro hy h1 h2
    exact ⟨_, generateCalendarStructure_eq env 6 year month hs hy h1 h2 (le_refl 6)⟩

/-- Witness of C6 at December 2024: Christmas Day is in the month, New Year's
Day falls on a padding day of the last row. -/
theorem holidayCount_and_weekColor_witness :
    ∃ ws ws1,
      generateCalendarStructure 6 utcEnv 2024 12 [⟨"2024-12-25", "Christmas Day"⟩] = some ws ∧
      generateCalendarStructure 6 utcEnv 2024 12
        [⟨"2025-01-01", "New Year"⟩, ⟨"2024-12-25", "Christmas Day"⟩] = some ws1 ∧
      ws.map (fun w => (w.holidayCount, w.weekColor)) =
        [(0, "default"), (0, "default"), (0, "default"), (0, "default"), (1, "light-green"),
          (0, "default")] ∧
      ws1.map (fun w => (w.holidayCount, w.weekColor)) =
        ws.map (fun w => (w.holidayCount, w.weekColor)) ∧
      (∀ d ∈ allDays ws1, d.date = "2025-01-01" → d.isHoliday = true) ∧
      (∀ w ∈ ws, w.holidayCount =
        (w.days.filter (fun d => d.isCurrentMonth && d.isHoliday)).length) := by
  have hg : generateCalendarStructure 6 utcEnv 2024 12 [⟨"2024-12-25", "Christmas Day"⟩] =
      some (weeksFrom utcEnv 12 ["2024-12-25"] (gridStart (effectiveYear 2024) 12)
        (gridRows (effectiveYear 2024) 12)) :=
    generateCalendarStructure_eq utcEnv 6 2024 12 _ (by decide) (by decide) (by decide) (le_refl 6)
  obtain ⟨ws1, h1, h2, h3⟩ := (holidayCount_and_weekColor utcEnv 2024 12
    [⟨"2024-12-25", "Christmas Day"⟩]).2.1 6 _ ⟨"2025-01-01", "New Year"⟩ hg (by decide)
  exact ⟨_, ws1, hg, h1, by decide, h2, h3,
    fun w hw => ((holidayCount_and_weekColor utcEnv 2024 12
      [⟨"2024-12-25", "Christmas Day"⟩]).1 6 _ hg w hw).1⟩

theorem inMonthHolidays_length_core (ds : List Day) :
    (inMonthHolidays ds).length = (ds.map Day.core).countP (fun c => c.2.2.1 && c.2.2.2) := by
  unfold inMonthHolidays
  rw [← List.countP_eq_length_filter, List.countP_map]
  rfl

theorem daysFrom_core_env (env env1 : Env) (m : Int) (hd : List String) (t : Int) (n : Nat) :
    (daysFrom env m hd t n).map Day.core = (daysFrom env1 m hd t n).map Day.core := by
  rw [daysFrom_map, daysFrom_map]
  rfl

/-- The dates, day numbers, month and holiday flags, holiday counts and colours
of the rows do not depend on the environment. -/
theorem weeksFrom_core_env (env env1 : Env) (m : Int) (hd : List String) (t : Int) (r : Nat) :
    (weeksFrom env m hd t r).map Week.core = (weeksFrom env1 m hd t r).map Week.core := by
  induction r generalizing t with
  | zero => rfl
  | succ r ih =>
    simp only [weeksFrom, List.map_cons, ih]
    congr 1
    simp only [Week.core, weekAt, inMonthHolidays_length_core, daysFrom_core_env env env1]

/-- C7: for every environment, `generateCalendarStructure(2024, 2,
[{date: "2024-02-14"}])` returns five weeks with exactly 29 days flagged
`isCurrentMonth`; the third week, the one that contains 2024-02-14, has
`holidayCount` 1 and colour `light-green`, and the four other weeks have
`holidayCount` 0 and colour `default`. -/
theorem february_2024_scenario (env : Env) (name : String) :
    ∃ ws, generateCalendarStructure 6 env 2024 2 [⟨"2024-02-14", name⟩] = some ws ∧
      (currentMonthDays ws).length = 29 ∧
      ws.map (fun w => (w.days.map (fun d => d.date), w.holidayCount, w.weekColor)) =
        [(["2024-01-29", "2024-01-30", "2024-01-31", "2024-02-01", "2024-02-02", "2024-02-03",
            "2024-02-04"], 0, "default"),
          (["2024-02-05", "2024-02-06", "2024-02-07", "2024-02-08", "2024-02-09", "2024-02-10",
            "2024-02-11"], 0, "default"),
          (["2024-02-12", "2024-02-13", "2024-02-14", "2024-02-15", "2024-02-16", "2024-02-17",
            "2024-02-18"], 1, "light-green"),
          (["2024-02-19", "2024-02-20", "2024-02-21", "2024-02-22", "2024-02-23", "2024-02-24",
            "2024-02-25"], 0, "default"),
          (["2024-02-26", "2024-02-27", "2024-02-28", "2024-02-29", "2024-03-01", "2024-03-02",
            "2024-03-03"], 0, "default")] := by
  refine ⟨_, generateCalendarStructure_eq env 6 2024 2 _ (by decide) (by decide) (by decide)
    (le_refl 6), ?_, ?_⟩
  · rw [currentMonthDays_grid env _ 2 _ (by decide) (by decide), daysFrom_length]
    decide
  · have e : (fun w : Week => (w.days.map (fun d => d.date), w.holidayCount, w.weekColor)) =
        (fun c : List (String × JSNum × Bool × Bool) × Nat × String =>
          (c.1.map (fun x => x.1), c.2.1, c.2.2)) ∘ Week.core := by
      funext w
      simp [Week.core, Day.core, Function.comp]
    have hd : List.map (fun h : Holiday => h.date) [⟨"2024-02-14", name⟩] = ["2024-02-14"] := rfl
    rw [hd, e, ← List.map_map, weeksFrom_core_env env utcEnv, List.map_map]
    decide

end HolidayService

namespace Cache

variable {V : Type}

theorem mapGet_mapSet_self (m : List (String × CacheEntry V)) (key : String) (e : CacheEntry V) :
    mapGet (mapSet m key e) key = some e := by
  induction m with
  | nil => simp [mapSet, mapGet]
  | cons p rest ih =>
    obtain ⟨k, e0⟩ := p
    by_cases h : k = key
    · simp [mapSet, mapGet, h]
    · simp [mapSet, mapGet, h, ih]

theorem mapGet_mapDelete_self (m : List (String × CacheEntry V)) (key : String) :
    mapGet (mapDelete m key) key = none := by
  induction m with
  | nil => rfl
  | cons p rest ih =>
    obtain ⟨k, e0⟩ := p
    by_cases h : k = key
    · simpa [mapDelete, List.filter_cons, h] using ih
    · simpa [mapDelete, List.filter_cons, h, mapGet] using ih

theorem effectiveTTL_pos (c : Cache V) {ttl : Int} (h : 0 < ttl) :
    effectiveTTL c (some ttl) = ttl := by
  unfold effectiveTTL
  simp only []
  rw [if_neg (by omega)]

/-- C9: after `set(k, v, ttl)` with a positive ttl at time `t`, `get(k)` at any
time up to `t + ttl` inclusive (in particular from `t` on) returns `v` and
leaves the cache as it is, whatever the cache held before. -/
theorem get_after_set_within_ttl (c : Cache V) (k : String) (v : V) (ttl t tc t1 : Int)
    (hpos : 0 < ttl) (h2 : t1 ≤ t + ttl) :
    (c.set t tc k v (some ttl)).get t1 k false = (some v, c.set t tc k v (some ttl)) := by
  unfold get
  simp only [set, mapGet_mapSet_self, effectiveTTL_pos c hpos]
  rw [if_neg]
  simp only [Bool.not_false, Bool.true_and, decide_eq_true_eq, gt_iff_lt, not_lt]
  exact h2

/-- Witness of C9 at the boundary `t1 = t + ttl`, on a cache that already holds
the key. -/
theorem get_after_set_within_ttl_witness :
    ((⟨[("k", ⟨"old", 5, 0⟩)], 3600000⟩ : Cache String).set 0 0 "k" "v" (some 100)).get 100 "k" false
      = (some "v", (⟨[("k", ⟨"old", 5, 0⟩)], 3600000⟩ : Cache String).set 0 0 "k" "v" (some 100)) :=
  get_after_set_within_ttl _ "k" "v" 100 0 0 100 (by decide) (by decide)

/-- C10 (amended): after `set(k, v, ttl)` with a positive ttl at time `t`, at a
time later than `t + ttl` the call `get(k)` returns absent and removes the
entry, so that `get(k, includeExpired = true)` made after it on the same cache
returns absent too; made on the cache as `set` left it, `get(k, includeExpired
= true)` returns `v`. -/
theorem get_after_expiry (c : Cache V) (k : String) (v : V) (ttl t tc t1 t2 : Int)
    (hpos : 0 < ttl) (h1 : t + ttl < t1) :
    ((c.set t tc k v (some ttl)).get t1 k false).1 = none ∧
    (((c.set t tc k v (some ttl)).get t1 k false).2.get t2 k true).1 = none ∧
    ((c.set t tc k v (some ttl)).get t1 k true).1 = some v := by
  have hg : (c.set t tc k v (some ttl)).get t1 k false =
      (none, ⟨mapDelete (c.set t tc k v (some ttl)).cache k, c.defaultTTL⟩) := by
    unfold get
    simp only [set, mapGet_mapSet_self, effectiveTTL_pos c hpos]
    rw [if_pos]
    simp only [Bool.not_false, Bool.true_and, decide_eq_true_eq, gt_iff_lt]
    exact h1
  refine ⟨by rw [hg], ?_, ?_⟩
  · rw [hg]
    unfold get
    simp only [mapGet_mapDelete_self]
  · unfold get
    simp only [set, mapGet_mapSet_self]
    simp

/-- Witness of C10 (amended) with ttl 100 and reads at time 150. -/
theorem get_after_expiry_witness :
    (((Cache.create none : Cache String).set 0 0 "k" "v" (some 100)).get 150 "k" false).1 = none ∧
    ((((Cache.create none : Cache String).set 0 0 "k" "v" (some 100)).get 150 "k" false).2.get
      150 "k" true).1 = none ∧
    (((Cache.create none : Cache String).set 0 0 "k" "v" (some 100)).get 150 "k" true).1 = some "v" :=
  get_after_expiry _ "k" "v" 100 0 0 150 150 (by decide) (by decide)

/-- C10 fails as stated: with ttl 100, the read `get(k, true)` made at time 150
after `get(k)` returns absent, not `v`. -/
theorem get_includeExpired_after_get_counterexample :
    ((((Cache.create none : Cache String).set 0 0 "k" "v" (some 100)).get 150 "k" false).2.get
      150 "k" true).1 ≠ some "v" := by
  decide

end Cache

namespace HolidayService

/-- C8, the behaviour of the code: when the cache holds an expired entry for
the holiday key and the attempt to fetch fails (the API key is missing or the
upstream request fails), `getHolidays` does not return the stale value; its
first read has removed the entry, so the fallback read finds nothing, the error
is thrown and the entry is gone. -/
theorem getHolidays_loses_stale_entry (s : Service) (upstream : Except String (List Holiday))
    (now1 now2 now3 : Int) (c : Cache (List Holiday)) (country : String) (year : Int)
    (month : Option Int) (item : CacheEntry (List Holiday))
    (hitem : Cache.mapGet c.cache (holidayCacheKey country year month) = some item)
    (hexp : item.expiresAt < now1)
    (hfail : s.keyMissing = true ∨ ∃ msg, upstream = Except.error msg) :
    (∃ e, (getHolidays s upstream now1 now2 now3 c country year month).1 = Except.error e) ∧
    Cache.mapGet (getHolidays s upstream now1 now2 now3 c country year month).2.cache
      (holidayCacheKey country year month) = none := by
  have hg : c.get now1 (holidayCacheKey country year month) false =
      (none, ⟨Cache.mapDelete c.cache (holidayCacheKey country year month), c.defaultTTL⟩) := by
    unfold Cache.get
    rw [hitem]
    simp only []
    rw [if_pos]
    simp only [Bool.not_false, Bool.true_and, decide_eq_true_eq, gt_iff_lt]
    exact hexp
  have hg2 : ∀ t, (⟨Cache.mapDelete c.cache (holidayCacheKey country year month), c.defaultTTL⟩ :
      Cache (List Holiday)).get t (holidayCacheKey country year month) true =
      (none, ⟨Cache.mapDelete c.cache (holidayCacheKey country year month), c.defaultTTL⟩) := by
    intro t
    unfold Cache.get
    rw [Cache.mapGet_mapDelete_self]
  unfold getHolidays
  simp only [hg]
  split
  · rename_i holidays hh
    rcases hfail with hk | ⟨msg, rfl⟩
    · rw [if_pos hk] at hh
      exact absurd hh (by simp)
    · split_ifs at hh
  · rename_i e he
    simp only [hg2]
    exact ⟨⟨e, rfl⟩, Cache.mapGet_mapDelete_self _ _⟩

/-- Witness of C8: a cache with an entry for US/2024/2 that expired at time
1000, a configured API key and an upstream time-out at time 2000. -/
theorem getHolidays_loses_stale_entry_witness :
    (∃ e, (getHolidays ⟨some "key"⟩ (Except.error "timeout of 10000ms exceeded") 2000 2001 2001
      ⟨[("holidays_US_2024_2", ⟨[⟨"2024-02-19", "Presidents Day"⟩], 1000, 0⟩)], 3600000⟩
      "US" 2024 (some 2)).1 = Except.error e) ∧
    Cache.mapGet (getHolidays ⟨some "key"⟩ (Except.error "timeout of 10000ms exceeded") 2000 2001 2001
      ⟨[("holidays_US_2024_2", ⟨[⟨"2024-02-19", "Presidents Day"⟩], 1000, 0⟩)], 3600000⟩
      "US" 2024 (some 2)).2.cache (holidayCacheKey "US" 2024 (some 2)) = none :=
  getHolidays_loses_stale_entry ⟨some "key"⟩ (Except.error "timeout of 10000ms exceeded") 2000 2001 2001
    ⟨[("holidays_US_2024_2", ⟨[⟨"2024-02-19", "Presidents Day"⟩], 1000, 0⟩)], 3600000⟩
    "US" 2024 (some 2) ⟨[⟨"2024-02-19", "Presidents Day"⟩], 1000, 0⟩ (by decide) (by decide)
    (Or.inr ⟨_, rfl⟩)

end HolidayService

namespace Cache

variable {V : Type}

theorem mapGet_cons (k0 : String) (e0 : CacheEntry V) (rest : List (String × CacheEntry V))
    (key : String) :
    mapGet ((k0, e0) :: rest) key = if k0 = key then some e0 else mapGet rest key := rfl

theorem mapDelete_cons (k0 : String) (e0 : CacheEntry V) (rest : List (String × CacheEntry V))
    (key : String) :
    mapDelete ((k0, e0) :: rest) key =
      if k0 = key then mapDelete rest key else (k0, e0) :: mapDelete rest key := by
  unfold mapDelete
  rw [List.filter_cons]
  by_cases h : k0 = key
  · simp [h]
  · simp [h]

theorem mapSet_cons (k0 : String) (e0 : CacheEntry V) (rest : List (String × CacheEntry V))
    (key : String) (e : CacheEntry V) :
    mapSet ((k0, e0) :: rest) key e =
      if k0 = key then (key, e) :: rest else (k0, e0) :: mapSet rest key e := rfl

theorem mapGet_mapDelete_ne (m : List (String × CacheEntry V)) {key k : String} (h : k ≠ key) :
    mapGet (mapDelete m key) k = mapGet m k := by
  induction m with
  | nil => rfl
  | cons p rest ih =>
    obtain ⟨k0, e0⟩ := p
    rw [mapDelete_cons, mapGet_cons]
    by_cases h0 : k0 = key
    · rw [if_pos h0, ih, if_neg]
      intro e; exact h (e ▸ h0)
    · rw [if_neg h0, mapGet_cons, ih]

theorem mapGet_mapSet_ne (m : List (String × CacheEntry V)) {key k : String} (e : CacheEntry V)
    (h : k ≠ key) : mapGet (mapSet m key e) k = mapGet m k := by
  induction m with
  | nil =>
    show mapGet [(key, e)] k = none
    rw [mapGet_cons, if_neg (Ne.symm h)]; rfl
  | cons p rest ih =>
    obtain ⟨k0, e0⟩ := p
    rw [mapSet_cons, mapGet_cons]
    by_cases h0 : k0 = key
    · rw [if_pos h0, mapGet_cons, if_neg (Ne.symm h), if_neg]
      intro e1; exact h (e1 ▸ h0)
    · rw [if_neg h0, mapGet_cons, ih]

theorem mapGet_eq_none_iff (m : List (String × CacheEntry V)) (key : String) :
    mapGet m key = none ↔ key ∉ m.map (fun p => p.1) := by
  induction m with
  | nil => simp [mapGet]
  | cons p rest ih =>
    obtain ⟨k0, e0⟩ := p
    rw [mapGet_cons, List.map_cons, List.mem_cons, not_or]
    by_cases h0 : k0 = key
    · rw [if_pos h0]
      constructor
      · intro h; exact absurd h (by simp)
      · intro h; exact absurd h0.symm h.1
    · rw [if_neg h0, ih]
      constructor
      · intro h; exact ⟨fun e => h0 e.symm, h⟩
      · intro h; exact h.2

theorem mapGet_mem {m : List (String × CacheEntry V)} {key : String} {e : CacheEntry V}
    (h : mapGet m key = some e) : (key, e) ∈ m := by
  induction m with
  | nil => simp [mapGet] at h
  | cons p rest ih =>
    obtain ⟨k0, e0⟩ := p
    rw [mapGet_cons] at h
    by_cases h0 : k0 = key
    · rw [if_pos h0] at h
      injection h with h
      subst h0; subst h; exact List.mem_cons_self _ _
    · rw [if_neg h0] at h
      exact List.mem_cons_of_mem _ (ih h)

theorem mapGet_isSome_iff (m : List (String × CacheEntry V)) (key : String) :
    (mapGet m key).isSome = true ↔ ∃ e, (key, e) ∈ m := by
  constructor
  · intro h
    obtain ⟨e, he⟩ := Option.isSome_iff_exists.mp h
    exact ⟨e, mapGet_mem he⟩
  · rintro ⟨e, he⟩
    cases hg : mapGet m key with
    | some x => rfl
    | none =>
      rw [mapGet_eq_none_iff] at hg
      exact absurd (List.mem_map.mpr ⟨(key, e), he, rfl⟩) hg

/-- In a map with unique keys the entry found under a key is the only cell
with that key. -/
theorem mapGet_of_mem {m : List (String × CacheEntry V)} (hu : (m.map (fun p => p.1)).Nodup)
    {key : String} {e : CacheEntry V} (h : (key, e) ∈ m) : mapGet m key = some e := by
  induction m with
  | nil => simp at h
  | cons p rest ih =>
    obtain ⟨k0, e0⟩ := p
    simp only [List.map_cons, List.nodup_cons] at hu
    rw [mapGet_cons]
    rcases List.mem_cons.mp h with h1 | h1
    · injection h1 with a b
      subst a; subst b
      rw [if_pos rfl]
    · have hne : k0 ≠ key := by
        intro e1
        subst e1
        exact hu.1 (List.mem_map.mpr ⟨(k0, e), h1, rfl⟩)
      rw [if_neg hne, ih hu.2 h1]

theorem mapGet_filter (m : List (String × CacheEntry V)) (hu : (m.map (fun p => p.1)).Nodup)
    (q : String × CacheEntry V → Bool) (key : String) :
    mapGet (m.filter q) key = (mapGet m key).filter (fun e => q (key, e)) := by
  induction m with
  | nil => rfl
  | cons p rest ih =>
    obtain ⟨k0, e0⟩ := p
    simp only [List.map_cons, List.nodup_cons] at hu
    rw [List.filter_cons, mapGet_cons]
    by_cases h0 : k0 = key
    · subst h0
      have hn : mapGet (rest.filter q) k0 = none := by
        rw [mapGet_eq_none_iff]
        intro hm
        obtain ⟨p, hp, hk⟩ := List.mem_map.mp hm
        exact hu.1 (List.mem_map.mpr ⟨p, (List.mem_filter.mp hp).1, hk⟩)
      rw [if_pos rfl]
      by_cases hq : q (k0, e0) = true
      · rw [if_pos hq, mapGet_cons, if_pos rfl]
        simp [Option.filter, hq]
      · rw [if_neg hq, hn]
        simp [Option.filter, hq]
    · rw [if_neg h0]
      by_cases hq : q (k0, e0) = true
      · rw [if_pos hq, mapGet_cons, if_neg h0, ih hu.2]
      · rw [if_neg hq, ih hu.2]

theorem mapDelete_of_not_mem (m : List (String × CacheEntry V)) {key : String}
    (h : key ∉ m.map (fun p => p.1)) : mapDelete m key = m := by
  unfold mapDelete
  rw [List.filter_eq_self]
  intro p hp
  simp only [ne_eq, decide_not, Bool.not_eq_true', decide_eq_false_iff_not]
  intro e1
  exact h (List.mem_map.mpr ⟨p, hp, e1⟩)

theorem length_mapDelete_of_unique (m : List (String × CacheEntry V))
    (hu : (m.map (fun p => p.1)).Nodup) {key : String} {e : CacheEntry V}
    (h : mapGet m key = some e) : (mapDelete m key).length + 1 = m.length := by
  induction m with
  | nil => simp [mapGet] at h
  | cons p rest ih =>
    obtain ⟨k0, e0⟩ := p
    simp only [List.map_cons, List.nodup_cons] at hu
    rw [mapDelete_cons]
    rw [mapGet_cons] at h
    by_cases h0 : k0 = key
    · subst h0
      rw [if_pos rfl, mapDelete_of_not_mem _ hu.1]
      rfl
    · rw [if_neg h0] at h
      rw [if_neg h0, List.length_cons, List.length_cons, ih hu.2 h]

/-- C11: `get(key, includeExpired)` changes the cache in one case only, when
the entry is present, expired (`now > expiresAt`) and `includeExpired` is
false: then absent is returned and the entry of that key is removed, every
other entry staying as it is.  For an absent key absent is returned and the
cache is unchanged; for a present entry that is unexpired or read with
`includeExpired = true` its value is returned and the cache is unchanged. -/
theorem get_changes_only_expired (c : Cache V) (now : Int) (key : String)
    (includeExpired : Bool) :
    (∀ item, mapGet c.cache key = some item → includeExpired = false → now > item.expiresAt →
      (c.get now key includeExpired).1 = none ∧
      (c.get now key includeExpired).2.cache = c.cache.filter (fun p => decide (p.1 ≠ key)) ∧
      (c.get now key includeExpired).2.defaultTTL = c.defaultTTL ∧
      mapGet (c.get now key includeExpired).2.cache key = none ∧
      (∀ k, k ≠ key → mapGet (c.get now key includeExpired).2.cache k = mapGet c.cache k) ∧
      (c.keysUnique → (c.get now key includeExpired).2.cache.length + 1 = c.cache.length)) ∧
    (mapGet c.cache key = none → c.get now key includeExpired = (none, c)) ∧
    (∀ item, mapGet c.cache key = some item → (includeExpired = true ∨ now ≤ item.expiresAt) →
      c.get now key includeExpired = (some item.value, c)) := by
  refine ⟨?_, ?_, ?_⟩
  · intro item hitem hie hexp
    have hg : c.get now key includeExpired = (none, ⟨mapDelete c.cache key, c.defaultTTL⟩) := by
      unfold get
      rw [hitem, hie]
      simp only []
      rw [if_pos]
      simpa using hexp
    rw [hg]
    exact ⟨rfl, rfl, rfl, mapGet_mapDelete_self _ _, fun k hk => mapGet_mapDelete_ne _ hk,
      fun hu => length_mapDelete_of_unique _ hu hitem⟩
  · intro h
    unfold get
    rw [h]
  · intro item hitem hcase
    unfold get
    rw [hitem]
    simp only []
    rw [if_neg]
    rcases hcase with h | h
    · simp [h]
    · simp only [Bool.and_eq_true, Bool.not_eq_true', decide_eq_true_eq, not_and, not_lt]
      intro _; exact h

/-- Witness of C11: a cache with an expired and a fresh entry read at time 50. -/
theorem get_changes_only_expired_witness :
    ((⟨[("a", ⟨"x", 10, 0⟩), ("b", ⟨"y", 100, 0⟩)], 3600000⟩ : Cache String).get 50 "a" false
      = (none, ⟨[("b", ⟨"y", 100, 0⟩)], 3600000⟩)) ∧
    ((⟨[("a", ⟨"x", 10, 0⟩), ("b", ⟨"y", 100, 0⟩)], 3600000⟩ : Cache String).get 50 "a" true
      = (some "x", ⟨[("a", ⟨"x", 10, 0⟩), ("b", ⟨"y", 100, 0⟩)], 3600000⟩)) ∧
    ((⟨[("a", ⟨"x", 10, 0⟩), ("b", ⟨"y", 100, 0⟩)], 3600000⟩ : Cache String).get 50 "c" false
      = (none, ⟨[("a", ⟨"x", 10, 0⟩), ("b", ⟨"y", 100, 0⟩)], 3600000⟩)) := by
  have h := get_changes_only_expired
    (⟨[("a", ⟨"x", 10, 0⟩), ("b", ⟨"y", 100, 0⟩)], 3600000⟩ : Cache String) 50
  refine ⟨?_, ?_, ?_⟩
  · have h1 := (h "a" false).1 ⟨"x", 10, 0⟩ (by decide) rfl (by decide)
    exact Prod.ext h1.1 (by
      cases hc : (Cache.get (⟨[("a", ⟨"x", 10, 0⟩), ("b", ⟨"y", 100, 0⟩)], 3600000⟩ : Cache String)
        50 "a" false).2 with
      | mk l d =>
        rw [hc] at h1
        obtain ⟨-, h2, h3, -⟩ := h1
        simp only at h2 h3
        rw [h2, h3]
        decide)
  · exact (h "a" true).2.2 ⟨"x", 10, 0⟩ (by decide) (Or.inl rfl)
  · exact (h "c" false).2.1 (by decide)

/-- C12: `delete(k)` returns true exactly when an entry for `k` was stored,
expired or not; afterwards `get(k)` and `get(k, true)` return absent at every
time, and the entries of all other keys are as before. -/
theorem delete_removes_key (c : Cache V) (key : String) :
    ((c.delete key).1 = true ↔ ∃ e, (key, e) ∈ c.cache) ∧
    (∀ now includeExpired, ((c.delete key).2.get now key includeExpired).1 = none) ∧
    (c.delete key).2.cache = c.cache.filter (fun p => decide (p.1 ≠ key)) ∧
    (c.delete key).2.defaultTTL = c.defaultTTL ∧
    (∀ k, k ≠ key → mapGet (c.delete key).2.cache k = mapGet c.cache k) := by
  refine ⟨mapGet_isSome_iff _ _, ?_, rfl, rfl, fun k hk => mapGet_mapDelete_ne _ hk⟩
  intro now ie
  unfold get delete
  simp only [mapGet_mapDelete_self]

/-- Witness of C12: deleting an expired entry next to another entry. -/
theorem delete_removes_key_witness :
    ((⟨[("a", ⟨"x", 10, 0⟩), ("b", ⟨"y", 100, 0⟩)], 3600000⟩ : Cache String).delete "a").1 = true ∧
    (((⟨[("a", ⟨"x", 10, 0⟩), ("b", ⟨"y", 100, 0⟩)], 3600000⟩ : Cache String).delete "a").2.get
      50 "a" true).1 = none ∧
    mapGet ((⟨[("a", ⟨"x", 10, 0⟩), ("b", ⟨"y", 100, 0⟩)], 3600000⟩ : Cache String).delete "a").2.cache
      "b" = some ⟨"y", 100, 0⟩ :=
  ⟨(delete_removes_key _ "a").1.mpr ⟨⟨"x", 10, 0⟩, by decide⟩,
    (delete_removes_key _ "a").2.1 50 true,
    ((delete_removes_key _ "a").2.2.2.2 "b" (by decide)).trans (by decide)⟩

theorem expiredKeys_foldl (m : List (String × CacheEntry V)) (now : Int) (acc : List String) :
    m.foldl (fun acc p => if now > p.2.expiresAt then acc ++ [p.1] else acc) acc =
      acc ++ (m.filter (expiredAt now)).map (fun p => p.1) := by
  induction m generalizing acc with
  | nil => simp
  | cons p rest ih =>
    rw [List.foldl_cons, ih, List.filter_cons]
    by_cases h : now > p.2.expiresAt
    · have h2 : expiredAt now p = true := by simp [expiredAt, h]
      rw [if_pos h, if_pos h2]
      simp
    · have h2 : ¬ expiredAt now p = true := by simp [expiredAt, h]
      rw [if_neg h, if_neg h2]

theorem expiredKeys_eq (m : List (String × CacheEntry V)) (now : Int) :
    expiredKeys m now = (m.filter (expiredAt now)).map (fun p => p.1) := by
  unfold expiredKeys
  rw [expiredKeys_foldl]
  rfl

theorem foldl_mapDelete (ks : List String) (m : List (String × CacheEntry V)) :
    ks.foldl (fun m key => mapDelete m key) m = m.filter (fun p => decide (p.1 ∉ ks)) := by
  induction ks generalizing m with
  | nil => simp
  | cons k ks ih =>
    rw [List.foldl_cons, ih]
    unfold mapDelete
    rw [List.filter_filter]
    apply List.filter_congr
    intro p _
    by_cases h1 : p.1 = k <;> by_cases h2 : p.1 ∈ ks <;> simp [h1, h2]

theorem entry_eq_of_key_eq {m : List (String × CacheEntry V)} (hu : (m.map (fun p => p.1)).Nodup)
    {p q : String × CacheEntry V} (hp : p ∈ m) (hq : q ∈ m) (h : p.1 = q.1) : p = q := by
  obtain ⟨k, e⟩ := p
  obtain ⟨k2, e2⟩ := q
  simp only at h
  subst h
  have a := mapGet_of_mem hu hp
  have b := mapGet_of_mem hu hq
  rw [a] at b
  injection b with b
  rw [b]

/-- With unique keys `cleanup` keeps exactly the entries that are not expired. -/
theorem cleanup_cache_eq (c : Cache V) (now : Int) (hu : c.keysUnique) :
    (c.cleanup now).cache = c.cache.filter (fun p => !expiredAt now p) := by
  unfold cleanup
  simp only
  rw [foldl_mapDelete, expiredKeys_eq]
  apply List.filter_congr
  intro p hp
  by_cases h : expiredAt now p = true
  · have : p.1 ∈ (c.cache.filter (expiredAt now)).map (fun p => p.1) :=
      List.mem_map.mpr ⟨p, List.mem_filter.mpr ⟨hp, h⟩, rfl⟩
    simp [this, h]
  · have : p.1 ∉ (c.cache.filter (expiredAt now)).map (fun p => p.1) := by
      intro hm
      obtain ⟨q, hq, hk⟩ := List.mem_map.mp hm
      obtain ⟨hq1, hq2⟩ := List.mem_filter.mp hq
      have := entry_eq_of_key_eq hu hq1 hp hk
      subst this
      exact h hq2
    simp [this, h]

theorem countEntries_foldl (m : List (String × CacheEntry V)) (now : Int) (acc : Nat × Nat) :
    m.foldl (fun acc p => if now > p.2.expiresAt then (acc.1, acc.2 + 1) else (acc.1 + 1, acc.2))
      acc = (acc.1 + m.countP (fun p => !expiredAt now p), acc.2 + m.countP (expiredAt now)) := by
  induction m generalizing acc with
  | nil => simp
  | cons p rest ih =>
    rw [List.foldl_cons, ih, List.countP_cons, List.countP_cons]
    by_cases h : now > p.2.expiresAt
    · have h2 : expiredAt now p = true := by simp [expiredAt, h]
      rw [if_pos h]
      simp only [h2, Bool.not_true, Bool.false_eq_true, if_false, if_true]
      refine Prod.ext ?_ ?_ <;> simp only <;> omega
    · have h2 : expiredAt now p = false := by simp [expiredAt, h]
      rw [if_neg h]
      simp only [h2, Bool.not_false, Bool.false_eq_true, if_false, if_true]
      refine Prod.ext ?_ ?_ <;> simp only <;> omega

theorem countEntries_eq (m : List (String × CacheEntry V)) (now : Int) :
    countEntries m now = (m.countP (fun p => !expiredAt now p), m.countP (expiredAt now)) := by
  unfold countEntries
  rw [countEntries_foldl]
  simp

theorem cache_eq {a b : Cache V} (h1 : a.cache = b.cache) (h2 : a.defaultTTL = b.defaultTTL) :
    a = b := by
  cases a; cases b
  simp only at h1 h2
  rw [h1, h2]

theorem keysUnique_filter {c : Cache V} (hu : c.keysUnique) (q : String × CacheEntry V → Bool) :
    ((c.cache.filter q).map (fun p => p.1)).Nodup :=
  List.Nodup.sublist (List.Sublist.map _ (List.filter_sublist _)) hu

/-- C13: on a cache whose keys are stored once, `cleanup()` at time `now`
removes exactly the entries with `now > expiresAt` and keeps every other entry,
in order, with its value, `createdAt` and `expiresAt`; `getStats()` at the same
time then reports `expiredEntries = 0`, and a second `cleanup()` at the same
time changes nothing. -/
theorem cleanup_removes_exactly_expired (c : Cache V) (now : Int) (hu : c.keysUnique) :
    (c.cleanup now).cache = c.cache.filter (fun p => decide (¬ now > p.2.expiresAt)) ∧
    (c.cleanup now).defaultTTL = c.defaultTTL ∧
    (∀ jsonLength, ((c.cleanup now).getStats jsonLength now).1.expiredEntries = 0) ∧
    (c.cleanup now).cleanup now = c.cleanup now := by
  have hc := cleanup_cache_eq c now hu
  have hu2 : (c.cleanup now).keysUnique := by
    unfold keysUnique keys
    rw [hc]
    exact keysUnique_filter hu _
  refine ⟨?_, rfl, ?_, ?_⟩
  · rw [hc]
    apply List.filter_congr
    intro p _
    by_cases h : now > p.2.expiresAt <;> simp [expiredAt, h]
  · intro jl
    unfold getStats
    simp only [countEntries_eq, hc]
    rw [List.countP_eq_zero]
    intro p hp
    have := (List.mem_filter.mp hp).2
    simpa using this
  · have h2 := cleanup_cache_eq (c.cleanup now) now hu2
    have e : (c.cleanup now).cache.filter (fun p => !expiredAt now p) = (c.cleanup now).cache := by
      rw [hc, List.filter_filter]
      apply List.filter_congr
      intro p _
      simp
    rw [e] at h2
    exact cache_eq h2 rfl

/-- Witness of C13: one expired and two live entries swept at time 50. -/
theorem cleanup_removes_exactly_expired_witness :
    ((⟨[("a", ⟨"x", 100, 0⟩), ("b", ⟨"y", 10, 0⟩), ("c", ⟨"z", 50, 0⟩)], 3600000⟩ :
      Cache String).cleanup 50).cache = [("a", ⟨"x", 100, 0⟩), ("c", ⟨"z", 50, 0⟩)] :=
  ((cleanup_removes_exactly_expired
    (⟨[("a", ⟨"x", 100, 0⟩), ("b", ⟨"y", 10, 0⟩), ("c", ⟨"z", 50, 0⟩)], 3600000⟩ : Cache String)
    50 (by decide)).1).trans (by decide)

/-- C14: on a cache whose keys are stored once, `get(key)` returns at time
`now` the same value after `cleanup()` run at that time as without it. -/
theorem get_unchanged_by_cleanup (c : Cache V) (now : Int) (key : String) (hu : c.keysUnique) :
    ((c.cleanup now).get now key false).1 = (c.get now key false).1 := by
  have hc := cleanup_cache_eq c now hu
  unfold get
  rw [hc, mapGet_filter _ hu]
  cases hg : mapGet c.cache key with
  | none => simp [Option.filter]
  | some item =>
    by_cases he : now > item.expiresAt
    · simp [Option.filter, expiredAt, he]
    · simp [Option.filter, expiredAt, he]

/-- Witness of C14 on an expired and on a live key. -/
theorem get_unchanged_by_cleanup_witness :
    (((⟨[("a", ⟨"x", 100, 0⟩), ("b", ⟨"y", 10, 0⟩)], 3600000⟩ : Cache String).cleanup 50).get
        50 "b" false).1 = none ∧
    (((⟨[("a", ⟨"x", 100, 0⟩), ("b", ⟨"y", 10, 0⟩)], 3600000⟩ : Cache String).cleanup 50).get
        50 "a" false).1 = some "x" :=
  ⟨(get_unchanged_by_cleanup _ 50 "b" (by decide)).trans (by decide),
    (get_unchanged_by_cleanup _ 50 "a" (by decide)).trans (by decide)⟩

/-- C15: `getStats()` at time `now` reports `totalEntries` equal to the number
of stored keys, `expiredEntries` equal to the number of entries with
`now > expiresAt`, `validEntries` equal to the number of the other entries, so
that `totalEntries = validEntries + expiredEntries`; it leaves the cache
unchanged. -/
theorem getStats_counts (jsonLength : V → Nat) (c : Cache V) (now : Int) :
    (c.getStats jsonLength now).1.totalEntries = c.keys.length ∧
    (c.getStats jsonLength now).1.expiredEntries =
      c.cache.countP (fun p => decide (now > p.2.expiresAt)) ∧
    (c.getStats jsonLength now).1.validEntries =
      c.cache.countP (fun p => decide (¬ now > p.2.expiresAt)) ∧
    (c.getStats jsonLength now).1.totalEntries =
      (c.getStats jsonLength now).1.validEntries + (c.getStats jsonLength now).1.expiredEntries ∧
    (c.getStats jsonLength now).2 = c ∧
    (c.keysUnique → (c.getStats jsonLength now).1.totalEntries = c.keys.toFinset.card) := by
  have e1 : (c.getStats jsonLength now).1.expiredEntries = c.cache.countP (expiredAt now) := by
    unfold getStats; simp only [countEntries_eq]
  have e2 : (c.getStats jsonLength now).1.validEntries =
      c.cache.countP (fun p => !expiredAt now p) := by
    unfold getStats; simp only [countEntries_eq]
  have e0 : (c.getStats jsonLength now).1.totalEntries = c.cache.length := rfl
  refine ⟨by rw [e0]; simp [keys], ?_, ?_, ?_, rfl, ?_⟩
  · rw [e1]; rfl
  · rw [e2]
    apply List.countP_congr
    intro p _
    by_cases h : now > p.2.expiresAt <;> simp [expiredAt, h]
  · rw [e0, e1, e2, List.length_eq_countP_add_countP (expiredAt now) c.cache, Nat.add_comm]
    congr 1
    apply List.countP_congr
    intro p _
    simp
  · intro hu
    rw [e0, List.toFinset_card_of_nodup hu]
    simp [keys]

/-- Witness of C15: three entries, one of them expired at time 50. -/
theorem getStats_counts_witness :
    ((⟨[("a", ⟨"x", 100, 0⟩), ("b", ⟨"y", 10, 0⟩), ("c", ⟨"z", 50, 0⟩)], 3600000⟩ :
      Cache String).getStats String.length 50).1.totalEntries = 3 ∧
    ((⟨[("a", ⟨"x", 100, 0⟩), ("b", ⟨"y", 10, 0⟩), ("c", ⟨"z", 50, 0⟩)], 3600000⟩ :
      Cache String).getStats String.length 50).1.expiredEntries = 1 ∧
    ((⟨[("a", ⟨"x", 100, 0⟩), ("b", ⟨"y", 10, 0⟩), ("c", ⟨"z", 50, 0⟩)], 3600000⟩ :
      Cache String).getStats String.length 50).1.validEntries = 2 :=
  ⟨((getStats_counts String.length _ 50).2.2.2.2.2 (by decide)).trans (by decide),
    ((getStats_counts String.length _ 50).2.1).trans (by decide),
    ((getStats_counts String.length _ 50).2.2.1).trans (by decide)⟩

theorem keys_mapSet (m : List (String × CacheEntry V)) (key : String) (e : CacheEntry V) :
    (mapSet m key e).map (fun p => p.1) =
      if key ∈ m.map (fun p => p.1) then m.map (fun p => p.1)
      else m.map (fun p => p.1) ++ [key] := by
  induction m with
  | nil => simp [mapSet]
  | cons p rest ih =>
    obtain ⟨k0, e0⟩ := p
    rw [mapSet_cons]
    by_cases h0 : k0 = key
    · subst h0
      simp
    · rw [if_neg h0, List.map_cons, ih]
      by_cases h1 : key ∈ rest.map (fun p => p.1)
      · simp [h1]
      · simp [h1, Ne.symm h0]

theorem keysUnique_set {c : Cache V} (hu : c.keysUnique) (now createdNow : Int) (key : String)
    (value : V) (ttl : Option Int) : (c.set now createdNow key value ttl).keysUnique := by
  unfold keysUnique keys at *
  simp only [set]
  rw [keys_mapSet]
  split
  · exact hu
  · rename_i h
    exact List.Nodup.append hu (List.nodup_singleton _) (by simpa using h)

theorem keysUnique_mapDelete {c : Cache V} (hu : c.keysUnique) (key : String) :
    (⟨mapDelete c.cache key, c.defaultTTL⟩ : Cache V).keysUnique :=
  keysUnique_filter hu _

theorem keysUnique_get {c : Cache V} (hu : c.keysUnique) (now : Int) (key : String)
    (includeExpired : Bool) : (c.get now key includeExpired).2.keysUnique := by
  unfold get
  split
  · exact hu
  · split
    · exact keysUnique_mapDelete hu key
    · exact hu

theorem keysUnique_cleanup {c : Cache V} (hu : c.keysUnique) (now : Int) :
    (c.cleanup now).keysUnique := by
  unfold keysUnique keys
  rw [cleanup_cache_eq c now hu]
  exact keysUnique_filter hu _

/-- Every cache state reached from the constructor stores each key once. -/
theorem keysUnique_of_reachable {okCreate : Option Int → Prop}
    {okSet : Int → Int → Option Int → Prop} {c : Cache V}
    (h : ReachableVia okCreate okSet c) : c.keysUnique := by
  induction h with
  | create d _ => exact List.nodup_nil
  | set now createdNow key value ttl _ _ ih => exact keysUnique_set ih _ _ _ _ _
  | get now key includeExpired _ ih => exact keysUnique_get ih _ _ _
  | delete key _ ih => exact keysUnique_mapDelete ih key
  | clear _ _ => exact List.nodup_nil
  | cleanup now _ ih => exact keysUnique_cleanup ih now

theorem length_mapSet (m : List (String × CacheEntry V)) (key : String) (e : CacheEntry V) :
    (mapSet m key e).length = if key ∈ m.map (fun p => p.1) then m.length else m.length + 1 := by
  have := congrArg List.length (keys_mapSet m key e)
  rw [List.length_map] at this
  rw [this]
  split <;> simp

theorem count_key_of_unique (m : List (String × CacheEntry V))
    (hu : (m.map (fun p => p.1)).Nodup) {key : String} {e : CacheEntry V}
    (h : mapGet m key = some e) : (m.filter (fun p => decide (p.1 = key))).length = 1 := by
  have h1 := length_mapDelete_of_unique m hu h
  have h2 := List.length_eq_length_filter_add (l := m) (fun p => decide (p.1 = key))
  have h3 : m.filter (fun p => !decide (p.1 = key)) = mapDelete m key := by
    unfold mapDelete
    apply List.filter_congr
    intro p _
    simp
  rw [h3] at h2
  omega

theorem effectiveTTL_set (c : Cache V) (now createdNow : Int) (key : String) (value : V)
    (ttl ttl2 : Option Int) :
    effectiveTTL (c.set now createdNow key value ttl) ttl2 = effectiveTTL c ttl2 := rfl

/-- C16 (amended): on a cache whose keys are stored once, `set(k, v1, ttl1)`
followed by `set(k, v2, ttl2)` leaves exactly one entry for `k`; it holds `v2`
with the expiry of the second call only, its first clock reading plus `ttl2`
when `ttl2` is given and not zero, plus the configured default when `ttl2` is
omitted or zero; the number of stored keys grows by at most one over the two
calls. -/
theorem set_twice_keeps_second (c : Cache V) (hu : c.keysUnique) (k : String) (v1 v2 : V)
    (ttl1 ttl2 : Option Int) (t1 c1 t2 c2 : Int) :
    mapGet ((c.set t1 c1 k v1 ttl1).set t2 c2 k v2 ttl2).cache k =
      some ⟨v2, t2 + effectiveTTL c ttl2, c2⟩ ∧
    (∀ x, ttl2 = some x → x ≠ 0 → effectiveTTL c ttl2 = x) ∧
    (ttl2 = none ∨ ttl2 = some 0 → effectiveTTL c ttl2 = c.defaultTTL) ∧
    (((c.set t1 c1 k v1 ttl1).set t2 c2 k v2 ttl2).cache.filter
      (fun p => decide (p.1 = k))).length = 1 ∧
    ((c.set t1 c1 k v1 ttl1).set t2 c2 k v2 ttl2).keysUnique ∧
    ((c.set t1 c1 k v1 ttl1).set t2 c2 k v2 ttl2).cache.length ≤ c.cache.length + 1 := by
  have hu1 := keysUnique_set hu t1 c1 k v1 ttl1
  have hu2 := keysUnique_set hu1 t2 c2 k v2 ttl2
  have hg : mapGet ((c.set t1 c1 k v1 ttl1).set t2 c2 k v2 ttl2).cache k =
      some ⟨v2, t2 + effectiveTTL c ttl2, c2⟩ := by
    simp only [set, mapGet_mapSet_self]
    rfl
  refine ⟨hg, ?_, ?_, count_key_of_unique _ hu2 hg, hu2, ?_⟩
  · intro x hx hne
    rw [hx]
    unfold effectiveTTL
    simp only []
    rw [if_neg hne]
  · rintro (h | h)
    · rw [h]; rfl
    · rw [h]; rfl
  · have hk : k ∈ (c.set t1 c1 k v1 ttl1).cache.map (fun p => p.1) := by
      have := mapGet_mapSet_self c.cache k (⟨v1, t1 + effectiveTTL c ttl1, c1⟩ : CacheEntry V)
      by_contra hn
      rw [← mapGet_eq_none_iff] at hn
      simp only [set] at hn
      rw [this] at hn
      exact absurd hn (by simp)
    have l2 : ((c.set t1 c1 k v1 ttl1).set t2 c2 k v2 ttl2).cache.length =
        (c.set t1 c1 k v1 ttl1).cache.length := by
      simp only [set] at hk ⊢
      rw [length_mapSet, if_pos hk]
    have l1 : (c.set t1 c1 k v1 ttl1).cache.length ≤ c.cache.length + 1 := by
      simp only [set]
      rw [length_mapSet]
      split <;> omega
    omega

/-- Witness of C16: two writes of the same key, the second with its own ttl. -/
theorem set_twice_keeps_second_witness :
    mapGet (((⟨[("a", ⟨"x", 100, 0⟩)], 3600000⟩ : Cache String).set 10 10 "k" "v1" (some 5)).set
      20 20 "k" "v2" (some 7)).cache "k" = some ⟨"v2", 27, 20⟩ ∧
    ((((⟨[("a", ⟨"x", 100, 0⟩)], 3600000⟩ : Cache String).set 10 10 "k" "v1" (some 5)).set
      20 20 "k" "v2" (some 7)).cache.filter (fun p => decide (p.1 = "k"))).length = 1 :=
  ⟨((set_twice_keeps_second (⟨[("a", ⟨"x", 100, 0⟩)], 3600000⟩ : Cache String) (by decide) "k"
      "v1" "v2" (some 5) (some 7) 10 10 20 20).1).trans (by decide),
    (set_twice_keeps_second (⟨[("a", ⟨"x", 100, 0⟩)], 3600000⟩ : Cache String) (by decide) "k"
      "v1" "v2" (some 5) (some 7) 10 10 20 20).2.2.2.1⟩

/-- C16 fails as stated: with `ttl2 = 0` passed at time 20 the entry expires at
20 plus the configured default 3600000, not at 20 + 0. -/
theorem set_twice_zero_ttl_counterexample :
    mapGet (((Cache.create none : Cache String).set 10 10 "k" "v1" (some 5)).set
      20 20 "k" "v2" (some 0)).cache "k" = some ⟨"v2", 3600020, 20⟩ := by
  decide

theorem effectiveTTL_pos_of_notNegative (c : Cache V) {ttl : Option Int} (h : notNegative ttl)
    (hd : 0 < c.defaultTTL) : 0 < effectiveTTL c ttl := by
  unfold effectiveTTL
  cases ttl with
  | none => exact hd
  | some x =>
    have := h x rfl
    simp only []
    split <;> omega

theorem mem_mapSet {m : List (String × CacheEntry V)} {key : String} {e : CacheEntry V}
    {p : String × CacheEntry V} (h : p ∈ mapSet m key e) : p = (key, e) ∨ p ∈ m := by
  induction m with
  | nil => left; simpa [mapSet] using h
  | cons q rest ih =>
    obtain ⟨k0, e0⟩ := q
    rw [mapSet_cons] at h
    by_cases h0 : k0 = key
    · rw [if_pos h0] at h
      rcases List.mem_cons.mp h with h1 | h1
      · left; exact h1
      · right; exact List.mem_cons_of_mem _ h1
    · rw [if_neg h0] at h
      rcases List.mem_cons.mp h with h1 | h1
      · right; rw [h1]; exact List.mem_cons_self _ _
      · rcases ih h1 with h2 | h2
        · left; exact h2
        · right; exact List.mem_cons_of_mem _ h2

/-- In every state reached with a configured duration and ttl arguments that
are omitted, zero or positive, and equal clock readings in `set`, the default
is positive and every entry expires after it was created. -/
theorem positive_of_reachable {c : Cache V} (h : ReachableWithPositiveTTL c) :
    0 < c.defaultTTL ∧ ∀ p ∈ c.cache, p.2.createdAt < p.2.expiresAt := by
  unfold ReachableWithPositiveTTL at h
  induction h with
  | create d hd =>
    refine ⟨?_, by intro p hp; simp [Cache.create] at hp⟩
    unfold Cache.create
    cases d with
    | none => exact (by decide : (0 : Int) < 3600000)
    | some x =>
      have := hd x rfl
      simp only []
      split <;> omega
  | @set c now createdNow key value ttl _ hok ih =>
    refine ⟨ih.1, ?_⟩
    intro p hp
    simp only [set] at hp
    rcases mem_mapSet hp with h1 | h1
    · rw [h1]
      have := effectiveTTL_pos_of_notNegative c hok.2 ih.1
      simp only
      rw [hok.1]
      omega
    · exact ih.2 p h1
  | @get c now key includeExpired _ ih =>
    unfold get
    split
    · exact ih
    · split
      · exact ⟨ih.1, fun p hp => ih.2 p (List.mem_filter.mp hp).1⟩
      · exact ih
  | delete key _ ih => exact ⟨ih.1, fun p hp => ih.2 p (List.mem_filter.mp hp).1⟩
  | clear _ ih => exact ⟨ih.1, by intro p hp; simp [clear] at hp⟩
  | @cleanup c now hr ih =>
    refine ⟨ih.1, ?_⟩
    intro p hp
    rw [cleanup_cache_eq c now (keysUnique_of_reachable hr)] at hp
    exact ih.2 p (List.mem_filter.mp hp).1

/-- C17 (amended): the entry that `set(key, value, ttl)` stores has
`expiresAt = t + ttl'`, where `t` is the first clock reading and `ttl'` is the
ttl argument when it is given and not zero and the configured default
otherwise, and has the second clock reading as `createdAt`.  When the ttl
argument is omitted, zero or positive and the configured default is positive,
`ttl' > 0`, and when moreover both clock readings agree,
`expiresAt = createdAt + ttl' > createdAt`.  In every cache state reached from
the constructor with such arguments every entry has `expiresAt > createdAt`. -/
theorem set_entry_expires_after_creation (c : Cache V) (now createdNow : Int) (key : String)
    (value : V) (ttl : Option Int) :
    mapGet (c.set now createdNow key value ttl).cache key =
      some ⟨value, now + effectiveTTL c ttl, createdNow⟩ ∧
    (notNegative ttl → 0 < c.defaultTTL → 0 < effectiveTTL c ttl ∧
      (createdNow = now → ∀ e, mapGet (c.set now createdNow key value ttl).cache key = some e →
        e.expiresAt = e.createdAt + effectiveTTL c ttl ∧ e.createdAt < e.expiresAt)) ∧
    (ReachableWithPositiveTTL c → 0 < c.defaultTTL ∧
      ∀ p ∈ c.cache, p.2.createdAt < p.2.expiresAt) := by
  have hg : mapGet (c.set now createdNow key value ttl).cache key =
      some ⟨value, now + effectiveTTL c ttl, createdNow⟩ := by
    simp only [set, mapGet_mapSet_self]
  refine ⟨hg, ?_, positive_of_reachable⟩
  intro hn hd
  have hp := effectiveTTL_pos_of_notNegative c hn hd
  refine ⟨hp, ?_⟩
  intro hc e he
  rw [hg] at he
  injection he with he
  subst he
  simp only
  omega

/-- Witness of C17: a write without ttl on a cache created with the default
duration. -/
theorem set_entry_expires_after_creation_witness :
    0 < effectiveTTL ((Cache.create none : Cache String).set 5 5 "a" "x" (some 10)) none ∧
    ∀ p ∈ (((Cache.create none : Cache String).set 5 5 "a" "x" (some 10)).set
      7 7 "k" "v" none).cache, p.2.createdAt < p.2.expiresAt :=
  ⟨((set_entry_expires_after_creation
      ((Cache.create none : Cache String).set 5 5 "a" "x" (some 10)) 7 7 "k" "v" none).2.1
      (by intro x hx; exact absurd hx (by simp)) (by decide)).1,
    ((set_entry_expires_after_creation
      (((Cache.create none : Cache String).set 5 5 "a" "x" (some 10)).set 7 7 "k" "v" none)
      0 0 "z" "z" none).2.2
      (ReachableVia.set 7 7 "k" "v" none
        (ReachableVia.set 5 5 "a" "x" (some 10)
          (ReachableVia.create none (by intro x hx; exact absurd hx (by simp)))
          ⟨rfl, by intro x hx; injection hx with hx; omega⟩)
        ⟨rfl, by intro x hx; exact absurd hx (by simp)⟩)).2⟩

/-- C17 fails as stated: a negative ttl is used as it is, a negative configured
duration becomes the default, and the clock may advance between the two
readings of `set`; in each case the stored entry does not expire after its
creation. -/
theorem set_negative_ttl_counterexample :
    mapGet ((Cache.create none : Cache String).set 0 0 "k" "v" (some (-5))).cache "k"
      = some ⟨"v", -5, 0⟩ ∧
    mapGet ((Cache.create (some (-5)) : Cache String).set 0 0 "k" "v" none).cache "k"
      = some ⟨"v", -5, 0⟩ ∧
    mapGet ((Cache.create none : Cache String).set 0 1 "k" "v" (some 1)).cache "k"
      = some ⟨"v", 1, 1⟩ := by
  decide

end Cache

namespace CalendarGrid

open HolidayService

theorem pushRun_short {seqs : List (List Nat)} {cons : List Nat} (h : ¬ cons.length > 1) :
    pushRun seqs cons = seqs := by
  unfold pushRun; rw [if_neg h]

theorem pushRun_long {seqs : List (List Nat)} {cons : List Nat} (h : cons.length > 1) :
    pushRun seqs cons = seqs ++ [cons] := by
  unfold pushRun; rw [if_pos h]

theorem scanInv_init (p : Nat → Bool) : ScanInv p 0 ⟨[], -2, []⟩ := by
  refine ⟨0, le_refl 0, rfl, rfl, ?_, Or.inl rfl, fun _ => Or.inl rfl, ?_, ?_, List.Pairwise.nil⟩
  · intro i _ h; omega
  · intro r hr; simp at hr
  · intro s len _ h; omega

/-- One step of the scan keeps the invariant. -/
theorem scanInv_step (byDate : List (String × List Holiday)) (p : Nat → Bool) (n : Nat)
    (st : SeqState) (day : Day) (hinv : ScanInv p n st) (hq : qualifies byDate day = p n) :
    ScanInv p (n + 1) (seqStep byDate st day n) := by
  obtain ⟨a, han, hcons, hlast, hP, hstart, hempty, hsound, hcomp, hpair⟩ := hinv
  unfold seqStep
  rw [hq]
  by_cases hb : p n = true
  · rw [if_pos hb]
    by_cases ha : a < n
    · have hl : st.lastHolidayIdx = (n : Int) - 1 := by rw [hlast, if_pos ha]
      rw [if_pos hl]
      refine ⟨a, by omega, ?_, ?_, ?_, hstart, ?_, ?_, ?_, hpair⟩
      · simp only
        rw [hcons]
        have e : n + 1 - a = (n - a) + 1 := by omega
        rw [e, List.range'_1_concat]
        congr 2
        omega
      · simp only
        rw [if_pos (by omega)]
        push_cast; omega
      · intro i h1 h2
        rcases Nat.lt_succ_iff_lt_or_eq.mp h2 with h3 | h3
        · exact hP i h1 h3
        · rw [h3]; exact hb
      · intro h; omega
      · intro r hr
        obtain ⟨s, len, e1, e2, e3, e4, e5, e6⟩ := hsound r hr
        exact ⟨s, len, e1, e2, by omega, e4, e5, e6⟩
      · intro s len h2 h3 h4 h5 h6
        have : s + len ≠ n := by
          intro e; rw [e] at h6; rw [hb] at h6; exact absurd h6 (by simp)
        exact hcomp s len h2 (by omega) h4 h5 h6
    · have han2 : a = n := by omega
      have hl : ¬ st.lastHolidayIdx = (n : Int) - 1 := by
        rw [hlast, if_neg ha]; omega
      have hc0 : st.consecutive = [] := by
        rw [hcons, han2]; simp
      rw [if_neg hl, hc0, pushRun_short (by simp)]
      refine ⟨n, by omega, ?_, ?_, ?_, ?_, ?_, ?_, ?_, hpair⟩
      · simp only
        have e : n + 1 - n = 1 := by omega
        rw [e]; rfl
      · simp only
        rw [if_pos (by omega)]
        push_cast; omega
      · intro i h1 h2
        have : i = n := by omega
        rw [this]; exact hb
      · exact hempty han2
      · intro h; omega
      · intro r hr
        obtain ⟨s, len, e1, e2, e3, e4, e5, e6⟩ := hsound r hr
        exact ⟨s, len, e1, e2, by omega, e4, e5, e6⟩
      · intro s len h2 h3 h4 h5 h6
        have : s + len ≠ n := by
          intro e; rw [e] at h6; rw [hb] at h6; exact absurd h6 (by simp)
        exact hcomp s len h2 (by omega) h4 h5 h6
  · have hbf : p n = false := by simpa using hb
    rw [if_neg hb]
    have hlen : st.consecutive.length = n - a := by rw [hcons]; simp
    have hbefore : ∀ r ∈ st.sequences, ∀ i ∈ r, i < a := by
      intro r hr i hi
      obtain ⟨s, len, e1, e2, e3, e4, e5, e6⟩ := hsound r hr
      rw [e1, List.mem_range'_1] at hi
      by_contra hge
      have : p (s + len) = true := hP (s + len) (by omega) e3
      rw [e6] at this
      exact absurd this (by simp)
    refine ⟨n + 1, le_refl _, ?_, ?_, ?_, ?_, ?_, ?_, ?_, ?_⟩
    · simp
    · simp
    · intro i h1 h2; omega
    · right; simpa using hbf
    · intro _; right; simpa using hbf
    · intro r hr
      simp only at hr
      by_cases hlong : st.consecutive.length > 1
      · rw [pushRun_long hlong] at hr
        rcases List.mem_append.mp hr with h1 | h1
        · obtain ⟨s, len, e1, e2, e3, e4, e5, e6⟩ := hsound r h1
          exact ⟨s, len, e1, e2, by omega, e4, e5, e6⟩
        · rw [List.mem_singleton] at h1
          refine ⟨a, n - a, by rw [h1, hcons], by omega, by omega, ?_, hstart, ?_⟩
          · intro i h2 h3; exact hP i h2 (by omega)
          · have : a + (n - a) = n := by omega
            rw [this]; exact hbf
      · rw [pushRun_short hlong] at hr
        obtain ⟨s, len, e1, e2, e3, e4, e5, e6⟩ := hsound r hr
        exact ⟨s, len, e1, e2, by omega, e4, e5, e6⟩
    · intro s len h2 h3 h4 h5 h6
      simp only
      rcases Nat.lt_succ_iff_lt_or_eq.mp h3 with h7 | h7
      · have := hcomp s len h2 h7 h4 h5 h6
        unfold pushRun
        split
        · exact List.mem_append_left _ this
        · exact this
      · have hsa : s = a := by
          rcases Nat.lt_trichotomy s a with h8 | h8 | h8
          · exfalso
            have t1 : p (a - 1) = true := h4 (a - 1) (by omega) (by omega)
            rcases hstart with h9 | h9
            · omega
            · rw [h9] at t1; exact absurd t1 (by simp)
          · exact h8
          · exfalso
            have t1 : p (s - 1) = true := hP (s - 1) (by omega) (by omega)
            rcases h5 with h9 | h9
            · omega
            · rw [h9] at t1; exact absurd t1 (by simp)
        have hl2 : len = n - a := by omega
        rw [pushRun_long (by omega), hsa, hl2, ← hcons]
        exact List.mem_append_right _ (List.mem_singleton.mpr rfl)
    · simp only
      unfold pushRun
      split
      · rw [List.pairwise_append]
        refine ⟨hpair, List.pairwise_singleton _ _, ?_⟩
        intro r hr r2 hr2 i hi j hj
        rw [List.mem_singleton] at hr2
        rw [hr2, hcons, List.mem_range'_1] at hj
        have := hbefore r hr i hi
        omega
      · exact hpair

/-- The scan over a list of days keeps the invariant. -/
theorem scanInv_forEachDay (byDate : List (String × List Holiday)) (p : Nat → Bool)
    (rest : List Day) (idx : Nat) (st : SeqState) (hinv : ScanInv p idx st)
    (hq : ∀ j day, rest[j]? = some day → qualifies byDate day = p (idx + j)) :
    ScanInv p (idx + rest.length) (forEachDay byDate rest idx st) := by
  induction rest generalizing idx st with
  | nil => simpa [forEachDay] using hinv
  | cons day rest ih =>
    have h0 := hq 0 day (by simp)
    simp only [add_zero] at h0
    have := ih (idx + 1) _ (scanInv_step byDate p idx st day hinv h0) (fun j d hj => by
      have := hq (j + 1) d (by simpa using hj)
      have e : idx + (j + 1) = idx + 1 + j := by omega
      rwa [e] at this)
    have e : idx + (day :: rest).length = idx + 1 + rest.length := by simp; omega
    rw [e]
    exact this

/-- The sequences returned are exactly the maximal runs of two or more
qualifying days, in increasing order. -/
theorem sequences_characterised (byDate : List (String × List Holiday)) (weekDays : List Day) :
    (∀ r ∈ getConsecutiveHolidaySequences byDate weekDays, ∃ s len, r = List.range' s len ∧
      2 ≤ len ∧ IsMaximalRun (qualifiesAt byDate weekDays) weekDays.length s len) ∧
    (∀ s len, 2 ≤ len → IsMaximalRun (qualifiesAt byDate weekDays) weekDays.length s len →
      List.range' s len ∈ getConsecutiveHolidaySequences byDate weekDays) ∧
    (getConsecutiveHolidaySequences byDate weekDays).Pairwise
      (fun r1 r2 => ∀ i ∈ r1, ∀ j ∈ r2, i < j) := by
  have hinv := scanInv_forEachDay byDate (qualifiesAt byDate weekDays) weekDays 0 ⟨[], -2, []⟩
    (scanInv_init _) (fun j day hj => by
      unfold qualifiesAt
      rw [Nat.zero_add, hj])
  rw [Nat.zero_add] at hinv
  obtain ⟨a, han, hcons, hlast, hP, hstart, hempty, hsound, hcomp, hpair⟩ := hinv
  unfold getConsecutiveHolidaySequences
  simp only
  generalize forEachDay byDate weekDays 0 ⟨[], -2, []⟩ = st at *
  generalize weekDays.length = n at *
  generalize qualifiesAt byDate weekDays = p at *
  have hlen : st.consecutive.length = n - a := by rw [hcons]; simp
  have hbefore : ∀ r ∈ st.sequences, ∀ i ∈ r, i < a := by
    intro r hr i hi
    obtain ⟨s, len, e1, e2, e3, e4, e5, e6⟩ := hsound r hr
    rw [e1, List.mem_range'_1] at hi
    by_contra hge
    have : p (s + len) = true := hP (s + len) (by omega) e3
    rw [e6] at this
    exact absurd this (by simp)
  refine ⟨?_, ?_, ?_⟩
  · intro r hr
    by_cases hlong : st.consecutive.length > 1
    · rw [pushRun_long hlong] at hr
      rcases List.mem_append.mp hr with h1 | h1
      · obtain ⟨s, len, e1, e2, e3, e4, e5, e6⟩ := hsound r h1
        exact ⟨s, len, e1, e2, by omega, e4, e5, Or.inr e6⟩
      · rw [List.mem_singleton] at h1
        exact ⟨a, n - a, by rw [h1, hcons], by omega, by omega,
          fun i h2 h3 => hP i h2 (by omega), hstart, Or.inl (by omega)⟩
    · rw [pushRun_short hlong] at hr
      obtain ⟨s, len, e1, e2, e3, e4, e5, e6⟩ := hsound r hr
      exact ⟨s, len, e1, e2, by omega, e4, e5, Or.inr e6⟩
  · intro s len h2 ⟨h3, h4, h5, h6⟩
    rcases Nat.lt_or_eq_of_le h3 with h7 | h7
    · have h8 : p (s + len) = false := by
        rcases h6 with h6 | h6
        · omega
        · exact h6
      have := hcomp s len h2 h7 h4 h5 h8
      unfold pushRun
      split
      · exact List.mem_append_left _ this
      · exact this
    · have hsa : s = a := by
        rcases Nat.lt_trichotomy s a with h8 | h8 | h8
        · exfalso
          have t1 : p (a - 1) = true := h4 (a - 1) (by omega) (by omega)
          rcases hstart with h9 | h9
          · omega
          · rw [h9] at t1; exact absurd t1 (by simp)
        · exact h8
        · exfalso
          have t1 : p (s - 1) = true := hP (s - 1) (by omega) (by omega)
          rcases h5 with h9 | h9
          · omega
          · rw [h9] at t1; exact absurd t1 (by simp)
      have hl2 : len = n - a := by omega
      rw [pushRun_long (by omega), hsa, hl2, ← hcons]
      exact List.mem_append_right _ (List.mem_singleton.mpr rfl)
  · unfold pushRun
    split
    · rw [List.pairwise_append]
      refine ⟨hpair, List.pairwise_singleton _ _, ?_⟩
      intro r hr r2 hr2 i hi j hj
      rw [List.mem_singleton] at hr2
      rw [hr2, hcons, List.mem_range'_1] at hj
      have := hbefore r hr i hi
      omega
    · exact hpair

theorem qualifiesAt_iff (byDate : List (String × List Holiday)) (weekDays : List Day) (i : Nat) :
    qualifiesAt byDate weekDays i = true ↔
      ∃ day, weekDays[i]? = some day ∧ day.isCurrentMonth = true ∧
        0 < (getHolidaysForDate day.date byDate).length := by
  unfold qualifiesAt
  cases h : weekDays[i]? with
  | none => simp
  | some day => simp [qualifies]

/-- C18: every run returned by `getConsecutiveHolidaySequences` is the list of
the consecutive indices `s .. s + len - 1` inside the week, with `len` at least
2; every day in it has `isCurrentMonth` and a holiday; and the run is maximal:
the day before `s` and the day after the run, when inside the week, do not
satisfy that condition. -/
theorem returned_runs_are_maximal (byDate : List (String × List Holiday)) (weekDays : List Day) :
    ∀ r ∈ getConsecutiveHolidaySequences byDate weekDays, ∃ s len, r = List.range' s len ∧
      2 ≤ len ∧ s + len ≤ weekDays.length ∧
      (∀ i ∈ r, ∃ day, weekDays[i]? = some day ∧ day.isCurrentMonth = true ∧
        0 < (getHolidaysForDate day.date byDate).length) ∧
      (s = 0 ∨ qualifiesAt byDate weekDays (s - 1) = false) ∧
      (s + len = weekDays.length ∨ qualifiesAt byDate weekDays (s + len) = false) := by
  intro r hr
  obtain ⟨s, len, e1, e2, e3, e4, e5, e6⟩ := (sequences_characterised byDate weekDays).1 r hr
  refine ⟨s, len, e1, e2, e3, ?_, e5, e6⟩
  intro i hi
  rw [e1, List.mem_range'_1] at hi
  exact (qualifiesAt_iff byDate weekDays i).mp (e4 i hi.1 hi.2)

/-- Witness of C18: holidays from Tuesday to Friday give the one run 1..4. -/
theorem returned_runs_are_maximal_witness :
    getConsecutiveHolidaySequences (groupHolidaysByDate tueToFri) sampleWeek = [[1, 2, 3, 4]] ∧
    ∃ s len, [1, 2, 3, 4] = List.range' s len ∧ 2 ≤ len ∧ s + len ≤ sampleWeek.length ∧
      (∀ i ∈ [1, 2, 3, 4], ∃ day, sampleWeek[i]? = some day ∧ day.isCurrentMonth = true ∧
        0 < (getHolidaysForDate day.date (groupHolidaysByDate tueToFri)).length) ∧
      (s = 0 ∨ qualifiesAt (groupHolidaysByDate tueToFri) sampleWeek (s - 1) = false) ∧
      (s + len = sampleWeek.length ∨
        qualifiesAt (groupHolidaysByDate tueToFri) sampleWeek (s + len) = false) :=
  ⟨by decide, returned_runs_are_maximal (groupHolidaysByDate tueToFri) sampleWeek [1, 2, 3, 4]
    (by decide)⟩

/-- C19: `getConsecutiveHolidaySequences` returns every maximal run of two or
more adjacent in-month holiday days; the runs come in left-to-right order and
are pairwise disjoint, so each is returned once and each day index lies in at
most one run; an isolated holiday day lies in no run; holidays on Monday,
Tuesday and Thursday yield exactly the run `[0, 1]`. -/
theorem every_maximal_run_returned_once (byDate : List (String × List Holiday))
    (weekDays : List Day) :
    (∀ s len, 2 ≤ len → IsMaximalRun (qualifiesAt byDate weekDays) weekDays.length s len →
      List.range' s len ∈ getConsecutiveHolidaySequences byDate weekDays) ∧
    (getConsecutiveHolidaySequences byDate weekDays).Pairwise
      (fun r1 r2 => ∀ i ∈ r1, ∀ j ∈ r2, i < j) ∧
    (getConsecutiveHolidaySequences byDate weekDays).Nodup ∧
    (∀ i, ∀ r1 ∈ getConsecutiveHolidaySequences byDate weekDays,
      ∀ r2 ∈ getConsecutiveHolidaySequences byDate weekDays, i ∈ r1 → i ∈ r2 → r1 = r2) ∧
    (∀ i, IsMaximalRun (qualifiesAt byDate weekDays) weekDays.length i 1 →
      ∀ r ∈ getConsecutiveHolidaySequences byDate weekDays, i ∉ r) ∧
    getConsecutiveHolidaySequences (groupHolidaysByDate monTueThu) sampleWeek = [[0, 1]] := by
  obtain ⟨hsound, hcomp, hpair⟩ := sequences_characterised byDate weekDays
  have hne : ∀ r ∈ getConsecutiveHolidaySequences byDate weekDays, ∃ i, i ∈ r := by
    intro r hr
    obtain ⟨s, len, e1, e2, -⟩ := hsound r hr
    exact ⟨s, by rw [e1, List.mem_range'_1]; omega⟩
  refine ⟨hcomp, hpair, ?_, ?_, ?_, by decide⟩
  · unfold List.Nodup
    refine List.Pairwise.imp_of_mem ?_ hpair
    intro r1 r2 h1 _ hrel e
    obtain ⟨i, hi⟩ := hne r1 h1
    have := hrel i hi i (e ▸ hi)
    omega
  · intro i r1 h1 r2 h2 hi1 hi2
    by_contra hneq
    have hsym : ∀ r1 r2 : List Nat, (∀ i ∈ r1, ∀ j ∈ r2, i < j) ∨ (∀ i ∈ r2, ∀ j ∈ r1, i < j) →
        (∀ i ∈ r2, ∀ j ∈ r1, i < j) ∨ (∀ i ∈ r1, ∀ j ∈ r2, i < j) := fun _ _ h => h.symm
    rcases List.Pairwise.forall_of_forall_of_flip (R := fun r1 r2 : List Nat =>
        r1 = r2 ∨ (∀ i ∈ r1, ∀ j ∈ r2, i < j) ∨ (∀ i ∈ r2, ∀ j ∈ r1, i < j))
        (fun _ _ => Or.inl rfl) (hpair.imp (fun h => Or.inr (Or.inl h)))
        (hpair.imp (fun h => Or.inr (Or.inr h))) h1 h2 with h | h | h
    · exact hneq h
    · have := h i hi1 i hi2; omega
    · have := h i hi2 i hi1; omega
  · intro i ⟨h3, h4, h5, h6⟩ r hr hi
    obtain ⟨s, len, e1, e2, e3, e4, e5, e6⟩ := hsound r hr
    rw [e1, List.mem_range'_1] at hi
    rcases Nat.eq_or_lt_of_le hi.1 with h7 | h7
    · have t1 := e4 (i + 1) (by omega) (by omega)
      rcases h6 with h8 | h8
      · omega
      · rw [h8] at t1; exact absurd t1 (by simp)
    · have t1 := e4 (i - 1) (by omega) (by omega)
      rcases h5 with h8 | h8
      · omega
      · rw [h8] at t1; exact absurd t1 (by simp)

/-- Witness of C19: from Tuesday to Friday the maximal run is 1..4 and it is
returned. -/
theorem every_maximal_run_returned_once_witness :
    List.range' 1 4 ∈ getConsecutiveHolidaySequences (groupHolidaysByDate tueToFri) sampleWeek :=
  (every_maximal_run_returned_once (groupHolidaysByDate tueToFri) sampleWeek).1 1 4 (by decide)
    ⟨by decide, by
      intro i h1 h2
      have : i = 1 ∨ i = 2 ∨ i = 3 ∨ i = 4 := by omega
      rcases this with h | h | h | h <;> subst h <;> decide, Or.inr (by decide),
      Or.inr (by decide)⟩

theorem highlight_foldl_not_mem (dayIndex : Nat) (seqs : List (List Nat)) (h : DayHighlight)
    (hn : ∀ r ∈ seqs, dayIndex ∉ r) : seqs.foldl (highlightStep dayIndex) h = h := by
  induction seqs generalizing h with
  | nil => rfl
  | cons r rest ih =>
    rw [List.foldl_cons]
    have : highlightStep dayIndex h r = h := by
      unfold highlightStep
      rw [if_neg (hn r (List.mem_cons_self _ _))]
    rw [this]
    exact ih h (fun r2 hr2 => hn r2 (List.mem_cons_of_mem _ hr2))

/-- With pairwise disjoint runs of at least two days, the highlight of a day in
a run is decided by that run alone. -/
theorem dayHighlight_of_mem (dayIndex : Nat) (seqs : List (List Nat))
    (hdis : ∀ r1 ∈ seqs, ∀ r2 ∈ seqs, dayIndex ∈ r1 → dayIndex ∈ r2 → r1 = r2)
    (hlen : ∀ r ∈ seqs, 2 ≤ r.length) {r : List Nat} (hr : r ∈ seqs) (hi : dayIndex ∈ r) :
    dayHighlight seqs dayIndex =
      ⟨true, if r.length = 2 then some "yellow" else some "white"⟩ := by
  unfold dayHighlight
  have key : ∀ (l : List (List Nat)) (h : DayHighlight), r ∈ l →
      (∀ r2 ∈ l, dayIndex ∈ r2 → r2 = r) →
      l.foldl (highlightStep dayIndex) h =
        ⟨true, if r.length = 2 then some "yellow" else some "white"⟩ := by
    intro l
    induction l with
    | nil => intro h hm; simp at hm
    | cons x rest ih =>
      intro h hm hu
      rw [List.foldl_cons]
      by_cases hx : dayIndex ∈ x
      · have hxr : x = r := hu x (List.mem_cons_self _ _) hx
        have hstep : highlightStep dayIndex h x =
            ⟨true, if r.length = 2 then some "yellow" else some "white"⟩ := by
          unfold highlightStep
          rw [if_pos hx, hxr]
          have := hlen r hr
          by_cases h2 : r.length = 2
          · simp [h2]
          · have h3 : r.length ≥ 3 := by omega
            simp [h2, h3]
        rw [hstep]
        by_cases hrest : r ∈ rest
        · exact ih _ hrest (fun r2 hr2 => hu r2 (List.mem_cons_of_mem _ hr2))
        · apply highlight_foldl_not_mem
          intro r2 hr2 hi2
          have := hu r2 (List.mem_cons_of_mem _ hr2) hi2
          exact hrest (this ▸ hr2)
      · have hstep : highlightStep dayIndex h x = h := by
          unfold highlightStep
          rw [if_neg hx]
        rw [hstep]
        rcases List.mem_cons.mp hm with h1 | h1
        · exact absurd (h1 ▸ hi) hx
        · exact ih _ h1 (fun r2 hr2 => hu r2 (List.mem_cons_of_mem _ hr2))
  exact key seqs _ hr (fun r2 hr2 hi2 => hdis r2 hr2 r hr hi2 hi)

theorem sequences_disjoint (byDate : List (String × List Holiday)) (weekDays : List Day)
    (i : Nat) :
    ∀ r1 ∈ getConsecutiveHolidaySequences byDate weekDays,
      ∀ r2 ∈ getConsecutiveHolidaySequences byDate weekDays, i ∈ r1 → i ∈ r2 → r1 = r2 := by
  obtain ⟨-, -, hpair⟩ := sequences_characterised byDate weekDays
  intro r1 h1 r2 h2 hi1 hi2
  by_contra hneq
  rcases List.Pairwise.forall_of_forall_of_flip (R := fun r1 r2 : List Nat =>
      r1 = r2 ∨ (∀ i ∈ r1, ∀ j ∈ r2, i < j) ∨ (∀ i ∈ r2, ∀ j ∈ r1, i < j))
      (fun _ _ => Or.inl rfl) (hpair.imp (fun h => Or.inr (Or.inl h)))
      (hpair.imp (fun h => Or.inr (Or.inr h))) h1 h2 with h | h | h
  · exact hneq h
  · have := h i hi1 i hi2; omega
  · have := h i hi2 i hi1; omega

theorem sequences_length (byDate : List (String × List Holiday)) (weekDays : List Day) :
    ∀ r ∈ getConsecutiveHolidaySequences byDate weekDays, 2 ≤ r.length := by
  intro r hr
  obtain ⟨s, len, e1, e2, -⟩ := (sequences_characterised byDate weekDays).1 r hr
  rw [e1]; simpa using e2

/-- C20: in the highlighting of a week by `CalendarGrid`, the day at
`dayIndex` gets `consecutiveType = 'yellow'` exactly when it lies in a run of
length 2 and `'white'` exactly when it lies in a run of length 3 or more; it is
marked `isConsecutiveHoliday` exactly when it lies in some run, and has no mark
and no type exactly when it lies in none; `highlightWholeWeekWhite` is set
exactly when the week has a run of length 3 or more. -/
theorem highlight_follows_run_length (byDate : List (String × List Holiday))
    (weekDays : List Day) (dayIndex : Nat) :
    ((dayHighlight (getConsecutiveHolidaySequences byDate weekDays) dayIndex).consecutiveType
        = some "yellow" ↔
      ∃ r ∈ getConsecutiveHolidaySequences byDate weekDays, dayIndex ∈ r ∧ r.length = 2) ∧
    ((dayHighlight (getConsecutiveHolidaySequences byDate weekDays) dayIndex).consecutiveType
        = some "white" ↔
      ∃ r ∈ getConsecutiveHolidaySequences byDate weekDays, dayIndex ∈ r ∧ 3 ≤ r.length) ∧
    ((dayHighlight (getConsecutiveHolidaySequences byDate weekDays) dayIndex).isConsecutiveHoliday
        = true ↔
      ∃ r ∈ getConsecutiveHolidaySequences byDate weekDays, dayIndex ∈ r) ∧
    (dayHighlight (getConsecutiveHolidaySequences byDate weekDays) dayIndex = ⟨false, none⟩ ↔
      ∀ r ∈ getConsecutiveHolidaySequences byDate weekDays, dayIndex ∉ r) ∧
    (highlightWholeWeekWhite (getConsecutiveHolidaySequences byDate weekDays) = true ↔
      ∃ r ∈ getConsecutiveHolidaySequences byDate weekDays, 3 ≤ r.length) := by
  have hdis := sequences_disjoint byDate weekDays dayIndex
  have hlen := sequences_length byDate weekDays
  generalize getConsecutiveHolidaySequences byDate weekDays = seqs at *
  have hyw : (some "yellow" : Option String) ≠ some "white" := by decide
  by_cases hex : ∃ r ∈ seqs, dayIndex ∈ r
  · obtain ⟨r, hr, hi⟩ := hex
    have hd := dayHighlight_of_mem dayIndex seqs hdis hlen hr hi
    have hl := hlen r hr
    rw [hd]
    refine ⟨?_, ?_, ?_, ?_, ?_⟩
    · constructor
      · intro h
        by_cases h2 : r.length = 2
        · exact ⟨r, hr, hi, h2⟩
        · simp only [h2, if_false] at h
          exact absurd h.symm hyw
      · rintro ⟨r2, hr2, hi2, h2⟩
        have := hdis r2 hr2 r hr hi2 hi
        subst this
        simp [h2]
    · constructor
      · intro h
        by_cases h2 : r.length = 2
        · simp only [h2, if_true] at h
          exact absurd h hyw
        · exact ⟨r, hr, hi, by omega⟩
      · rintro ⟨r2, hr2, hi2, h2⟩
        have := hdis r2 hr2 r hr hi2 hi
        subst this
        have h3 : ¬ r2.length = 2 := by omega
        simp [h3]
    · exact ⟨fun _ => ⟨r, hr, hi⟩, fun _ => rfl⟩
    · constructor
      · intro h
        injection h with h1 _
        exact absurd h1 (by simp)
      · intro h; exact absurd hi (h r hr)
    · unfold highlightWholeWeekWhite
      simp [List.any_eq_true]
  · have hn : ∀ r ∈ seqs, dayIndex ∉ r := fun r hr hi => hex ⟨r, hr, hi⟩
    have hd : dayHighlight seqs dayIndex = ⟨false, none⟩ :=
      highlight_foldl_not_mem dayIndex seqs _ hn
    rw [hd]
    refine ⟨?_, ?_, ?_, ?_, ?_⟩
    · constructor
      · intro h; exact absurd h (by simp)
      · rintro ⟨r, hr, hi, -⟩; exact absurd hi (hn r hr)
    · constructor
      · intro h; exact absurd h (by simp)
      · rintro ⟨r, hr, hi, -⟩; exact absurd hi (hn r hr)
    · constructor
      · intro h; exact absurd h (by simp)
      · rintro ⟨r, hr, hi⟩; exact absurd hi (hn r hr)
    · exact ⟨fun _ => hn, fun _ => rfl⟩
    · unfold highlightWholeWeekWhite
      simp [List.any_eq_true]

/-- Witness of C20: with holidays on Monday, Tuesday and Thursday the Monday
cell is typed yellow, and with holidays from Tuesday to Friday the Wednesday
cell is typed white. -/
theorem highlight_follows_run_length_witness :
    (dayHighlight (getConsecutiveHolidaySequences (groupHolidaysByDate monTueThu) sampleWeek)
      0).consecutiveType = some "yellow" ∧
    (dayHighlight (getConsecutiveHolidaySequences (groupHolidaysByDate tueToFri) sampleWeek)
      2).consecutiveType = some "white" :=
  ⟨(highlight_follows_run_length (groupHolidaysByDate monTueThu) sampleWeek 0).1.mpr
      ⟨[0, 1], by decide, by decide, rfl⟩,
    (highlight_follows_run_length (groupHolidaysByDate tueToFri) sampleWeek 2).2.1.mpr
      ⟨[1, 2, 3, 4], by decide, by decide, by decide⟩⟩

end CalendarGrid

namespace Cache

variable {V : Type}

/-- The value read by `get` depends only on the entry stored under the key. -/
theorem get_fst_congr {c1 c2 : Cache V} {key : String}
    (h : mapGet c1.cache key = mapGet c2.cache key) (now : Int) (includeExpired : Bool) :
    (c1.get now key includeExpired).1 = (c2.get now key includeExpired).1 := by
  unfold get
  rw [h]
  cases mapGet c2.cache key with
  | none => rfl
  | some item => simp only []; split <;> rfl

/-- A read of one key leaves the entries of the other keys in place. -/
theorem mapGet_get_ne (c : Cache V) (now : Int) {key k : String} (h : k ≠ key)
    (includeExpired : Bool) :
    mapGet (c.get now key includeExpired).2.cache k = mapGet c.cache k := by
  unfold get
  cases mapGet c.cache key with
  | none => rfl
  | some item =>
    simp only []
    split
    · exact mapGet_mapDelete_ne c.cache h
    · rfl

/-- C30: for every cache state and two distinct keys `k` and `k'`, none of
`set(k, ..)`, `get(k, ..)` and `delete(k)` changes the entry stored under `k'`
(whether it is present, and its value, `createdAt` and `expiresAt`), and so
`get(k', includeExpired)` at one and the same time returns the same result
after each of the three operations as before it. -/
theorem operations_on_a_key_leave_other_keys (c : Cache V) (k k' : String) (h : k' ≠ k)
    (now createdNow t : Int) (value : V) (ttl : Option Int) (expiredToo includeExpired : Bool) :
    mapGet (c.set now createdNow k value ttl).cache k' = mapGet c.cache k' ∧
    mapGet (c.get now k expiredToo).2.cache k' = mapGet c.cache k' ∧
    mapGet (c.delete k).2.cache k' = mapGet c.cache k' ∧
    ((c.set now createdNow k value ttl).get t k' includeExpired).1 =
      (c.get t k' includeExpired).1 ∧
    ((c.get now k expiredToo).2.get t k' includeExpired).1 = (c.get t k' includeExpired).1 ∧
    ((c.delete k).2.get t k' includeExpired).1 = (c.get t k' includeExpired).1 := by
  have h1 : mapGet (c.set now createdNow k value ttl).cache k' = mapGet c.cache k' :=
    mapGet_mapSet_ne c.cache _ h
  have h2 := mapGet_get_ne c now h expiredToo
  have h3 : mapGet (c.delete k).2.cache k' = mapGet c.cache k' := mapGet_mapDelete_ne c.cache h
  exact ⟨h1, h2, h3, get_fst_congr h1 t includeExpired, get_fst_congr h2 t includeExpired,
    get_fst_congr h3 t includeExpired⟩

/-- C30 at a concrete cache: with `a` expired and `b` live at time 20, writing,
reading (which evicts `a`) and deleting `a` leave `b` as it was. -/
theorem operations_on_a_key_leave_other_keys_witness :
    "b" ≠ "a" ∧
    (let c : Cache Nat := ⟨[("a", ⟨1, 10, 0⟩), ("b", ⟨2, 100, 0⟩)], 3600000⟩
     mapGet (c.set 20 20 "a" 7 none).cache "b" = mapGet c.cache "b" ∧
     mapGet (c.get 20 "a" false).2.cache "b" = mapGet c.cache "b" ∧
     mapGet (c.delete "a").2.cache "b" = mapGet c.cache "b" ∧
     ((c.set 20 20 "a" 7 none).get 30 "b" false).1 = (c.get 30 "b" false).1 ∧
     ((c.get 20 "a" false).2.get 30 "b" false).1 = (c.get 30 "b" false).1 ∧
     ((c.delete "a").2.get 30 "b" false).1 = (c.get 30 "b" false).1) :=
  ⟨by decide, operations_on_a_key_leave_other_keys
    ⟨[("a", ⟨1, 10, 0⟩), ("b", ⟨2, 100, 0⟩)], 3600000⟩ "a" "b" (by decide) 20 20 30 7 none
    false false⟩

end Cache

namespace HolidayService

open Cache

/-- C27: when `getHolidays(country, year, month)` misses the cache and the
upstream request succeeds with the list `hs`, it returns `hs` and stores it;
`t` is the time the entry is stamped with.  After that, in every cache in
which the entry under the request's key is still that entry, a call with the
same arguments whose cache read happens at a time `t1 ≤ t + defaultTTL`
returns `hs` and leaves the cache as it is, whatever the service's key and
whatever the upstream would answer, failure included. -/
theorem getHolidays_served_from_cache_within_ttl (s : Service) (hs : List Holiday)
    (now1 t now3 : Int) (c : Cache (List Holiday)) (country : String) (year : Int)
    (month : Option Int)
    (hmiss : (c.get now1 (holidayCacheKey country year month) false).1 = none)
    (hkey : s.keyMissing = false) (hargs : ¬ (country = "" ∨ year = 0)) :
    (getHolidays s (Except.ok hs) now1 t now3 c country year month).1 = Except.ok hs ∧
    ∀ (c2 : Cache (List Holiday)),
      mapGet c2.cache (holidayCacheKey country year month) =
        mapGet (getHolidays s (Except.ok hs) now1 t now3 c country year month).2.cache
          (holidayCacheKey country year month) →
      ∀ (s2 : Service) (upstream : Except String (List Holiday)) (t1 t2 t3 : Int),
        t1 ≤ t + c.defaultTTL →
        getHolidays s2 upstream t1 t2 t3 c2 country year month = (Except.ok hs, c2) := by
  have e1 : getHolidays s (Except.ok hs) now1 t now3 c country year month =
      (Except.ok hs, (c.get now1 (holidayCacheKey country year month) false).2.set t now3
        (holidayCacheKey country year month) hs none) := by
    unfold getHolidays
    simp only [hmiss, hkey, if_neg hargs]
    rfl
  have hd : (c.get now1 (holidayCacheKey country year month) false).2.defaultTTL =
      c.defaultTTL := by
    unfold Cache.get
    cases mapGet c.cache (holidayCacheKey country year month) with
    | none => rfl
    | some item => simp only []; split <;> rfl
  refine ⟨by rw [e1], ?_⟩
  intro c2 hc2 s2 upstream t1 t2 t3 ht
  rw [e1] at hc2
  have hstored : mapGet c2.cache (holidayCacheKey country year month) =
      some ⟨hs, t + c.defaultTTL, now3⟩ := by
    rw [hc2]
    simp only [Cache.set, mapGet_mapSet_self, effectiveTTL, hd]
  have hget : c2.get t1 (holidayCacheKey country year month) false = (some hs, c2) := by
    unfold Cache.get
    rw [hstored]
    simp only []
    rw [if_neg]
    simp
    omega
  unfold getHolidays
  simp only [hget]

/-- C27 at a concrete request: `US/2024/2` fetched into an empty cache at time
1000 with a one-hour default, then asked again at time 3601000 while the
upstream fails. -/
theorem getHolidays_served_from_cache_within_ttl_witness :
    (getHolidays ⟨some "k"⟩ (Except.ok [⟨"2024-02-14", "v"⟩]) 1000 1000 1000
      (Cache.create none) "US" 2024 (some 2)).1 = Except.ok [⟨"2024-02-14", "v"⟩] ∧
    ∀ (c2 : Cache (List Holiday)),
      mapGet c2.cache (holidayCacheKey "US" 2024 (some 2)) =
        mapGet (getHolidays ⟨some "k"⟩ (Except.ok [⟨"2024-02-14", "v"⟩]) 1000 1000 1000
          (Cache.create none) "US" 2024 (some 2)).2.cache
          (holidayCacheKey "US" 2024 (some 2)) →
      ∀ (s2 : Service) (upstream : Except String (List Holiday)) (t1 t2 t3 : Int),
        t1 ≤ 1000 + (Cache.create none : Cache (List Holiday)).defaultTTL →
        getHolidays s2 upstream t1 t2 t3 c2 "US" 2024 (some 2) =
          (Except.ok [⟨"2024-02-14", "v"⟩], c2) :=
  getHolidays_served_from_cache_within_ttl ⟨some "k"⟩ [⟨"2024-02-14", "v"⟩] 1000 1000 1000
    (Cache.create none) "US" 2024 (some 2) (by rfl) (by decide) (by decide)

end HolidayService

namespace HolidayService

/-- The inner loop at another current date: the same next date, the same
cells up to `isToday`, the same in-month holiday dates. -/
theorem weekDaysLoop_onDate (env : Env) (today : String) (month : Int) (hd : List String)
    (n : Nat) (s : JSDate) (week week1 : List Day) (wd : List String)
    (h : week1.map Day.timeless = week.map Day.timeless) :
    (weekDaysLoop (env.onDate today) month hd n s week1 wd).1 =
        (weekDaysLoop env month hd n s week wd).1 ∧
    (weekDaysLoop (env.onDate today) month hd n s week1 wd).2.1.map Day.timeless =
        (weekDaysLoop env month hd n s week wd).2.1.map Day.timeless ∧
    (weekDaysLoop (env.onDate today) month hd n s week1 wd).2.2 =
        (weekDaysLoop env month hd n s week wd).2.2 := by
  induction n generalizing s week week1 wd with
  | zero => exact ⟨rfl, h, rfl⟩
  | succ n ih =>
    simp only [weekDaysLoop]
    have e : setDate (env.onDate today) s (jsAdd (getDate s) (some 1)) =
        setDate env s (jsAdd (getDate s) (some 1)) := rfl
    rw [e]
    apply ih
    simp only [List.map_append, h, List.map_cons, List.map_nil, Day.timeless]

/-- The `while` loop at another current date returns the same rows up to
`isToday`, and returns nothing exactly when the other run returns nothing. -/
theorem whileLoop_onDate (env : Env) (today : String) (month : Int) (lastDay : JSDate)
    (hd : List String) (fuel : Nat) (s : JSDate) (ws ws1 : List Week)
    (h : ws1.map Week.timeless = ws.map Week.timeless) :
    (whileLoop (env.onDate today) month lastDay hd fuel s ws1).map (List.map Week.timeless) =
      (whileLoop env month lastDay hd fuel s ws).map (List.map Week.timeless) := by
  have hl : ws1.length = ws.length := by
    have := congrArg List.length h
    simpa using this
  induction fuel generalizing s ws ws1 with
  | zero =>
    simp only [whileLoop, loopGuard_length lastDay s ws1 ws hl]
    split <;> simp [h]
  | succ fuel ih =>
    simp only [whileLoop, loopGuard_length lastDay s ws1 ws hl]
    obtain ⟨a1, a2, a3⟩ := weekDaysLoop_onDate env today month hd 7 s [] [] [] rfl
    have eg : getWeekNumber (env.onDate today) (reparse s) = getWeekNumber env (reparse s) := rfl
    split
    · rw [a1, a3, eg]
      have hw : (ws1 ++ [(⟨(weekDaysLoop (env.onDate today) month hd 7 s [] []).2.1,
            (weekDaysLoop env month hd 7 s [] []).2.2.length,
            weekColorOf (weekDaysLoop env month hd 7 s [] []).2.2.length,
            getWeekNumber env (reparse s)⟩ : Week)]).map Week.timeless =
          (ws ++ [(⟨(weekDaysLoop env month hd 7 s [] []).2.1,
            (weekDaysLoop env month hd 7 s [] []).2.2.length,
            weekColorOf (weekDaysLoop env month hd 7 s [] []).2.2.length,
            getWeekNumber env (reparse s)⟩ : Week)]).map Week.timeless := by
        simp only [List.map_append, h, List.map_cons, List.map_nil, Week.timeless, a2]
      split
      · simp only [Option.map_some']
        rw [hw]
      · exact ih _ _ _ hw (by simp [hl])
    · simp [h]

/-- C24: for every year, month, holiday list and time zone, two runs of
`generateCalendarStructure` with the same inputs at two different current
dates either both return nothing or return grids with the same rows once the
`isToday` flags are left out: the same number of weeks, the same `date`,
`day`, `isCurrentMonth` and `isHoliday` of every day, and the same
`holidayCount`, `weekColor` and `weekNumber` of every week. -/
theorem runs_on_two_dates_agree_except_isToday (env : Env) (today : String) (fuel : Nat)
    (year month : Int) (hs : List Holiday) :
    (generateCalendarStructure fuel (env.onDate today) year month hs).map
        (List.map Week.timeless) =
      (generateCalendarStructure fuel env year month hs).map (List.map Week.timeless) := by
  rw [generateCalendarStructure_def, generateCalendarStructure_def]
  have e1 : newDate (env.onDate today) year month 0 = newDate env year month 0 := rfl
  have e2 : gridStartDate (env.onDate today) year month = gridStartDate env year month := rfl
  rw [e1, e2]
  exact whileLoop_onDate env today month _ _ fuel _ [] [] rfl

/-- Adding a date that is not the date of the cell leaves the cell as it is. -/
theorem dayAt_insert (env : Env) (m : Int) (hd1 hd2 : List String) (x : String) (t : Int)
    (h : (civilOfDay t).iso ≠ x) :
    dayAt env m (hd1 ++ x :: hd2) t = dayAt env m (hd1 ++ hd2) t := by
  have hx : dateString (some t) ≠ x := h
  unfold dayAt
  have : decide (dateString (some t) ∈ hd1 ++ x :: hd2) =
      decide (dateString (some t) ∈ hd1 ++ hd2) := by
    simp [hx]
  rw [this]

theorem daysFrom_insert (env : Env) (m : Int) (hd1 hd2 : List String) (x : String) (t : Int)
    (n : Nat) (h : ∀ i : Nat, i < n → (civilOfDay (t + i)).iso ≠ x) :
    daysFrom env m (hd1 ++ x :: hd2) t n = daysFrom env m (hd1 ++ hd2) t n := by
  induction n generalizing t with
  | zero => rfl
  | succ n ih =>
    simp only [daysFrom]
    rw [dayAt_insert env m hd1 hd2 x t (by simpa using h 0 (by omega)), ih]
    intro i hi
    have := h (i + 1) (by omega)
    have e : t + ((i + 1 : Nat) : Int) = t + 1 + i := by push_cast; omega
    rw [e] at this
    exact this

theorem weeksFrom_insert (env : Env) (m : Int) (hd1 hd2 : List String) (x : String) (t : Int)
    (r : Nat) (h : ∀ i : Nat, i < 7 * r → (civilOfDay (t + i)).iso ≠ x) :
    weeksFrom env m (hd1 ++ x :: hd2) t r = weeksFrom env m (hd1 ++ hd2) t r := by
  induction r generalizing t with
  | zero => rfl
  | succ r ih =>
    simp only [weeksFrom]
    rw [ih]
    · congr 1
      unfold weekAt
      rw [daysFrom_insert env m hd1 hd2 x t 7 (fun i hi => h i (by omega))]
    · intro i hi
      have := h (i + 7) (by omega)
      have e : t + ((i + 7 : Nat) : Int) = t + 7 + i := by push_cast; omega
      rw [e] at this
      exact this

/-- The builder returns for every representable year. -/
theorem generateCalendarStructure_isSome (env : Env) (fuel : Nat) (year month : Int)
    (hs : List Holiday) (hy : representableYear year) (h1 : 1 ≤ month) (h2 : month ≤ 12)
    (hf : 6 ≤ fuel) : (generateCalendarStructure fuel env year month hs).isSome = true := by
  rw [generateCalendarStructure_eq env fuel year month hs hy h1 h2 hf]
  rfl

/-- C23: for every year, month and holiday list `hs1 ++ hs2`, adding (at any
place) a record `h` whose date string is not the date string of any day of
the grid changes nothing: `generateCalendarStructure` returns exactly the
same weeks, with the same days, flags, `holidayCount`, `weekColor` and
`weekNumber`; and for every representable year, month in 1..12 and fuel of at
least six rounds the builder does return with the record added. -/
theorem malformed_holiday_changes_nothing (env : Env) (fuel : Nat) (year month : Int)
    (hs1 hs2 : List Holiday) (h : Holiday)
    (hmal : ∀ ws, generateCalendarStructure fuel env year month (hs1 ++ hs2) = some ws →
      ∀ d ∈ allDays ws, d.date ≠ h.date) :
    generateCalendarStructure fuel env year month (hs1 ++ h :: hs2) =
      generateCalendarStructure fuel env year month (hs1 ++ hs2) ∧
    (representableYear year → 1 ≤ month → month ≤ 12 → 6 ≤ fuel →
      (generateCalendarStructure fuel env year month (hs1 ++ h :: hs2)).isSome = true) := by
  refine ⟨?_, fun hy h1 h2 hf => generateCalendarStructure_isSome env fuel year month _ hy h1 h2 hf⟩
  have hlen := whileLoop_length_indep env month (newDate env year month 0)
    ((hs1 ++ h :: hs2).map (fun h => h.date)) ((hs1 ++ hs2).map (fun h => h.date)) fuel
    (gridStartDate env year month) [] [] rfl
  rw [← generateCalendarStructure_def, ← generateCalendarStructure_def] at hlen
  cases hb : generateCalendarStructure fuel env year month (hs1 ++ hs2) with
  | none =>
    rw [hb] at hlen
    cases ha : generateCalendarStructure fuel env year month (hs1 ++ h :: hs2) with
    | none => rfl
    | some ws1 => rw [ha] at hlen; exact absurd hlen (by simp)
  | some ws =>
    rw [hb] at hlen
    cases ha : generateCalendarStructure fuel env year month (hs1 ++ h :: hs2) with
    | none => rw [ha] at hlen; exact absurd hlen (by simp)
    | some ws1 =>
      rw [ha] at hlen
      have hl : ws1.length = ws.length := by simpa using hlen
      obtain ⟨t0, ht0, hw⟩ := generateCalendarStructure_shape hb
      obtain ⟨t1, ht1, hw1⟩ := generateCalendarStructure_shape ha
      have et : t1 = t0 := by rw [ht0] at ht1; exact (Option.some.inj ht1).symm
      have hm := hmal ws hb
      rw [hw1, hw, hl, et]
      congr 1
      simp only [List.map_append, List.map_cons]
      apply weeksFrom_insert
      intro i hi
      have hmem : dayAt env month ((hs1 ++ hs2).map (fun h => h.date)) (t0 + i) ∈ allDays ws := by
        rw [hw, allDays_weeksFrom]
        exact mem_daysFrom.mpr ⟨i, hi, rfl⟩
      exact hm _ hmem

/-- C23 at February 2024 with a holiday on the 14th: a record dated
`2024-02-30`, which is the date of no day, is added; the weeks are the same. -/
theorem malformed_holiday_changes_nothing_witness :
    (∀ ws, generateCalendarStructure 6 utcEnv 2024 2 ([⟨"2024-02-14", "v"⟩] ++ []) = some ws →
      ∀ d ∈ allDays ws, d.date ≠ (⟨"2024-02-30", "bad"⟩ : Holiday).date) ∧
    (generateCalendarStructure 6 utcEnv 2024 2
        ([⟨"2024-02-14", "v"⟩] ++ ⟨"2024-02-30", "bad"⟩ :: []) =
      generateCalendarStructure 6 utcEnv 2024 2 ([⟨"2024-02-14", "v"⟩] ++ []) ∧
    (representableYear 2024 → (1 : Int) ≤ 2 → (2 : Int) ≤ 12 → 6 ≤ 6 →
      (generateCalendarStructure 6 utcEnv 2024 2
        ([⟨"2024-02-14", "v"⟩] ++ ⟨"2024-02-30", "bad"⟩ :: [])).isSome = true)) :=
  have hmal : ∀ ws, generateCalendarStructure 6 utcEnv 2024 2 ([⟨"2024-02-14", "v"⟩] ++ []) =
      some ws → ∀ d ∈ allDays ws, d.date ≠ (⟨"2024-02-30", "bad"⟩ : Holiday).date := by
    intro ws hws
    have e : (generateCalendarStructure 6 utcEnv 2024 2 ([⟨"2024-02-14", "v"⟩] ++ [])).map
        (fun ws => decide (∀ d ∈ allDays ws, d.date ≠ (⟨"2024-02-30", "bad"⟩ : Holiday).date)) =
        some true := by decide
    rw [hws] at e
    simpa using e
  ⟨hmal, malformed_holiday_changes_nothing utcEnv 6 2024 2 [⟨"2024-02-14", "v"⟩] []
    ⟨"2024-02-30", "bad"⟩ hmal⟩

end HolidayService

namespace Routes

open HolidayService

/-- Every row the builder returns carries the colour of its holiday count. -/
theorem weekColor_of_returned {fuel : Nat} {env : Env} {year month : Int} {hs : List Holiday}
    {ws : List Week} (h : generateCalendarStructure fuel env year month hs = some ws) :
    ∀ w ∈ ws, w.weekColor = weekColorOf w.holidayCount := by
  obtain ⟨t0, -, hw⟩ := generateCalendarStructure_shape h
  intro w hmem
  rw [hw] at hmem
  obtain ⟨i, -, rfl⟩ := mem_weeksFrom.mp hmem
  rfl

theorem length_filter_congr {α : Type} (l : List α) (p q : α → Bool)
    (h : ∀ a ∈ l, p a = q a) : (l.filter p).length = (l.filter q).length := by
  rw [← List.countP_eq_length_filter, ← List.countP_eq_length_filter]
  exact List.countP_congr (fun a ha => by rw [h a ha])

theorem length_three_way {α : Type} (l : List α) (f : α → Nat) :
    l.length = (l.filter (fun a => decide (f a = 0))).length +
      (l.filter (fun a => decide (f a = 1))).length +
      (l.filter (fun a => decide (2 ≤ f a))).length := by
  induction l with
  | nil => rfl
  | cons a l ih =>
    simp only [List.filter_cons, List.length_cons]
    rcases (show f a = 0 ∨ f a = 1 ∨ 2 ≤ f a by omega) with h | h | h
    · simp [h]; omega
    · simp [h]; omega
    · have h0 : f a ≠ 0 := by omega
      have h1 : f a ≠ 1 := by omega
      simp [h, h0, h1]; omega

/-- C25, what the route computes: for every calendar returned by
`generateCalendarStructure`, `defaultWeeks` and `lightGreenWeeks` are the
numbers of weeks with `holidayCount` 0 and 1, but `darkGreenWeeks` is always
0, because the route compares with `dark-green` while the builder writes
`very-dark-green`; so the three counts add up to `totalWeeks` less the number
of weeks with two or more holidays. -/
theorem weekColorStats_never_counts_dark_green (fuel : Nat) (env : Env) (year month : Int)
    (hs : List Holiday) (ws : List Week)
    (h : generateCalendarStructure fuel env year month hs = some ws) :
    (weekColorStats ws).totalWeeks = ws.length ∧
    (weekColorStats ws).defaultWeeks =
      (ws.filter (fun w => decide (w.holidayCount = 0))).length ∧
    (weekColorStats ws).lightGreenWeeks =
      (ws.filter (fun w => decide (w.holidayCount = 1))).length ∧
    (weekColorStats ws).darkGreenWeeks = 0 ∧
    (weekColorStats ws).defaultWeeks + (weekColorStats ws).lightGreenWeeks +
      (weekColorStats ws).darkGreenWeeks +
      (ws.filter (fun w => decide (2 ≤ w.holidayCount))).length =
        (weekColorStats ws).totalWeeks := by
  have hc := weekColor_of_returned h
  have e0 : (weekColorStats ws).defaultWeeks =
      (ws.filter (fun w => decide (w.holidayCount = 0))).length := by
    apply length_filter_congr
    intro w hw
    rw [hc w hw]
    unfold weekColorOf
    rcases (show w.holidayCount = 0 ∨ w.holidayCount = 1 ∨ w.holidayCount ≥ 2 by omega) with
      h | h | h
    · rw [h]; decide
    · rw [h]; decide
    · rw [if_pos h]
      have : w.holidayCount ≠ 0 := by omega
      simp [this]
  have e1 : (weekColorStats ws).lightGreenWeeks =
      (ws.filter (fun w => decide (w.holidayCount = 1))).length := by
    apply length_filter_congr
    intro w hw
    rw [hc w hw]
    unfold weekColorOf
    rcases (show w.holidayCount = 0 ∨ w.holidayCount = 1 ∨ w.holidayCount ≥ 2 by omega) with
      h | h | h
    · rw [h]; decide
    · rw [h]; decide
    · rw [if_pos h]
      have : w.holidayCount ≠ 1 := by omega
      simp [this]
  have e2 : (weekColorStats ws).darkGreenWeeks = 0 := by
    show (ws.filter (fun w => decide (w.weekColor = "dark-green"))).length = 0
    rw [List.length_eq_zero, List.filter_eq_nil_iff]
    intro w hw
    rw [hc w hw]
    unfold weekColorOf
    split
    · decide
    · split <;> decide
  refine ⟨rfl, e0, e1, e2, ?_⟩
  rw [e0, e1, e2]
  have := length_three_way ws (fun w => w.holidayCount)
  show _ = ws.length
  omega

/-- C25 at December 2024 with holidays on the 25th and the 26th: the week of
those two days has `holidayCount` 2, yet `darkGreenWeeks` is 0 and the three
counts add up to 5 of the 6 weeks. -/
theorem weekColorStats_never_counts_dark_green_witness :
    generateCalendarStructure 6 utcEnv 2024 12 [⟨"2024-12-25", "a"⟩, ⟨"2024-12-26", "b"⟩] =
      some (weeksFrom utcEnv 12 ["2024-12-25", "2024-12-26"] (gridStart (effectiveYear 2024) 12)
        (gridRows (effectiveYear 2024) 12)) ∧
    weekColorStats (weeksFrom utcEnv 12 ["2024-12-25", "2024-12-26"]
      (gridStart (effectiveYear 2024) 12) (gridRows (effectiveYear 2024) 12)) = ⟨6, 5, 0, 0⟩ ∧
    ((weeksFrom utcEnv 12 ["2024-12-25", "2024-12-26"] (gridStart (effectiveYear 2024) 12)
      (gridRows (effectiveYear 2024) 12)).filter
        (fun w => decide (2 ≤ w.holidayCount))).length = 1 ∧
    (weekColorStats (weeksFrom utcEnv 12 ["2024-12-25", "2024-12-26"]
      (gridStart (effectiveYear 2024) 12) (gridRows (effectiveYear 2024) 12))).darkGreenWeeks
        = 0 :=
  have h : generateCalendarStructure 6 utcEnv 2024 12
      [⟨"2024-12-25", "a"⟩, ⟨"2024-12-26", "b"⟩] =
      some (weeksFrom utcEnv 12 ["2024-12-25", "2024-12-26"] (gridStart (effectiveYear 2024) 12)
        (gridRows (effectiveYear 2024) 12)) :=
    generateCalendarStructure_eq utcEnv 6 2024 12 _ (by decide) (by decide) (by decide)
      (le_refl 6)
  ⟨h, by decide, by decide,
    (weekColorStats_never_counts_dark_green 6 utcEnv 2024 12
      [⟨"2024-12-25", "a"⟩, ⟨"2024-12-26", "b"⟩] _ h).2.2.2.1⟩

end Routes

namespace Validator

open HolidayService

theorem validateCountryCode_ok {toUpperCase : String → String} {country v : String}
    (h : validateCountryCode toUpperCase country = Except.ok v) : twoUpperLetters v = true := by
  unfold validateCountryCode at h
  split at h
  · exact absurd h (by simp)
  · simp only [] at h
    split at h
    · exact absurd h (by simp)
    · split at h
      · exact absurd h (by simp)
      · rename_i h3
        have e : toUpperCase (jsTrim country) = v := Except.ok.inj h
        rw [← e]
        simpa using h3

theorem validateYear_ok {currentYear : Int} {year : String} {v : Int}
    (h : validateYear currentYear year = Except.ok v) : 2000 ≤ v ∧ v ≤ currentYear + 5 := by
  unfold validateYear at h
  split at h
  · exact absurd h (by simp)
  · split at h
    · exact absurd h (by simp)
    · split at h
      · exact absurd h (by simp)
      · rename_i h3
        have e := Except.ok.inj h
        rw [← e]
        omega

theorem validateMonth_ok {month : String} {v : Int}
    (h : validateMonth month = Except.ok v) : 1 ≤ v ∧ v ≤ 12 := by
  unfold validateMonth at h
  split at h
  · exact absurd h (by simp)
  · split at h
    · exact absurd h (by simp)
    · split at h
      · exact absurd h (by simp)
      · rename_i h3
        have e := Except.ok.inj h
        rw [← e]
        omega

theorem countryBlock_ok {toUpperCase : String → String} {sanitized : Params}
    (h : (countryBlock toUpperCase sanitized).1 = []) :
    ∃ c, (countryBlock toUpperCase sanitized).2 = some c ∧ twoUpperLetters c = true := by
  unfold countryBlock at h ⊢
  cases h1 : truthy sanitized.country with
  | none => rw [h1] at h; exact absurd h (by simp)
  | some country =>
    rw [h1] at h
    simp only [] at h ⊢
    cases hc : validateCountryCode toUpperCase country with
    | error e => rw [hc] at h; exact absurd h (by simp)
    | ok c => exact ⟨c, rfl, validateCountryCode_ok hc⟩

theorem yearBlock_ok {currentYear : Int} {sanitized : Params} {errors : List String}
    (h : (yearBlock currentYear sanitized errors).1 = []) :
    errors = [] ∧ ∃ y, (yearBlock currentYear sanitized errors).2 = some y ∧
      2000 ≤ y ∧ y ≤ currentYear + 5 := by
  unfold yearBlock at h ⊢
  cases h1 : truthy sanitized.year with
  | none => rw [h1] at h; exact absurd h (by simp)
  | some year =>
    rw [h1] at h
    simp only [] at h ⊢
    cases hc : validateYear currentYear year with
    | error e => rw [hc] at h; exact absurd h (by simp)
    | ok y =>
      rw [hc] at h
      exact ⟨h, y, rfl, validateYear_ok hc⟩

theorem monthBlock_ok {sanitized : Params} {errors : List String}
    (h : (monthBlock sanitized errors).1 = []) :
    errors = [] ∧ ((monthBlock sanitized errors).2 = none ∨
      ∃ m, (monthBlock sanitized errors).2 = some m ∧ 1 ≤ m ∧ m ≤ 12) := by
  unfold monthBlock at h ⊢
  cases h1 : truthy sanitized.month with
  | none => rw [h1] at h; exact ⟨h, Or.inl rfl⟩
  | some month =>
    rw [h1] at h
    simp only [] at h ⊢
    cases hc : validateMonth month with
    | error e => rw [hc] at h; exact absurd h (by simp)
    | ok m =>
      rw [hc] at h
      exact ⟨h, Or.inr ⟨m, rfl, validateMonth_ok hc⟩⟩

/-- The part of C26 the validator keeps: the result is valid exactly when
`errors` is empty, and then `data` holds a country of two letters A..Z, a year
between 2000 and `currentYear + 5`, and a month that is missing or in 1..12. -/
theorem validateHolidayRequest_valid (toUpperCase : String → String) (currentYear : Int)
    (params : Params) :
    ((validateHolidayRequest toUpperCase currentYear params).valid = true ↔
      (validateHolidayRequest toUpperCase currentYear params).errors = []) ∧
    ((validateHolidayRequest toUpperCase currentYear params).valid = true →
      ∃ c y, (validateHolidayRequest toUpperCase currentYear params).data.country = some c ∧
        twoUpperLetters c = true ∧
        (validateHolidayRequest toUpperCase currentYear params).data.year = some y ∧
        2000 ≤ y ∧ y ≤ currentYear + 5 ∧
        ((validateHolidayRequest toUpperCase currentYear params).data.month = none ∨
          ∃ m, (validateHolidayRequest toUpperCase currentYear params).data.month = some m ∧
            1 ≤ m ∧ m ≤ 12)) := by
  have hiff : (validateHolidayRequest toUpperCase currentYear params).valid = true ↔
      (validateHolidayRequest toUpperCase currentYear params).errors = [] := by
    simp [validateHolidayRequest, List.length_eq_zero]
  refine ⟨hiff, fun hv => ?_⟩
  have h3 := hiff.mp hv
  obtain ⟨h2, hm⟩ := monthBlock_ok h3
  obtain ⟨h1, y, hy, hy1, hy2⟩ := yearBlock_ok h2
  obtain ⟨c, hc, hc1⟩ := countryBlock_ok h1
  exact ⟨c, y, hc, hc1, hy, hy1, hy2, hm⟩

/-- C26 at the request `/calendar/US/2024/%20` in 2026: the month segment is
one blank, which `sanitizeParams` trims to the empty string; the validator
then treats the month as not supplied, reports no error, and the route goes
on with `country = "US"`, `year = 2024` and no month at all. -/
theorem calendar_route_passes_blank_month_as_missing :
    (⟨some "US", some "2024", some " "⟩ : Params).month = some " " ∧
    (validateHolidayRequest asciiUpper 2026 ⟨some "US", some "2024", some " "⟩).valid = true ∧
    (validateHolidayRequest asciiUpper 2026 ⟨some "US", some "2024", some " "⟩).errors = [] ∧
    calendarRouteArguments asciiUpper 2026 ⟨some "US", some "2024", some " "⟩ =
      some ⟨some "US", some 2024, none⟩ := by
  decide

end Validator

namespace HolidayService

/-- The week number computed for a Monday `t` of a four-digit year is the
formula `ceil((d + w + 1) / 7)`, provided local time is not behind UTC or `t`
is not a January 1: the fraction of a day that the offset adds never crosses a
multiple of seven. -/
theorem getWeekNumber_monday (env : Env) (t : Int) (hmon : weekDay t = 1)
    (hy1 : 1000 ≤ yearFromDay t) (hy2 : yearFromDay t ≤ 9999)
    (hz : 0 ≤ env.tzOffset ∨ t ≠ dayFromYear (yearFromDay t)) :
    getWeekNumber env (reparse (some t)) = some (weekNumberOf t) := by
  have lo := env.tz_lo
  have hi := env.tz_hi
  obtain ⟨s1, s2⟩ := yearFromDay_spec t
  have hyear : yearFromDay ((t * 1440 + env.tzOffset) / 1440) = yearFromDay t := by
    apply yearFromDay_eq <;> omega
  have hrep : representableYear (yearFromDay t) := by unfold representableYear; omega
  have hj : newDate env (yearFromDay t) 0 1 = some (dayFromYear (yearFromDay t)) := by
    unfold newDate
    simp only []
    rw [if_neg (by omega)]
    have e : makeDay (yearFromDay t) 0 1 = dayFromYear (yearFromDay t) := by
      unfold makeDay
      simp [daysBeforeMonth]
    rw [e]
    have := dayFromYear_succ (yearFromDay t)
    have := leapDays_cases (yearFromDay t)
    exact timeClip_of_representable env hrep (by omega) (by omega)
  unfold reparse
  simp only []
  rw [if_pos ⟨hy1, hy2⟩]
  unfold getWeekNumber
  simp only [hyear, hj]
  unfold weekNumberOf
  congr 1
  unfold weekDay at hmon ⊢
  omega

/-- The formula `ceil((d + w + 1) / 7)` lies between 1 and 54. -/
theorem weekNumberOf_bounds (t : Int) : 1 ≤ weekNumberOf t ∧ weekNumberOf t ≤ 54 := by
  obtain ⟨s1, s2⟩ := yearFromDay_spec t
  rw [dayFromYear_succ] at s2
  have := leapDays_cases (yearFromDay t)
  unfold weekNumberOf weekDay
  omega

/-- The part of C22 that holds: in a grid of a representable year, the week
that starts on day `t` of a year 1000..9999 carries the week number
`ceil((d + w + 1) / 7)`, an integer between 1 and 54, whenever local time is
not behind UTC or the week does not start on a January 1. -/
theorem weekNumber_formula_of_returned (env : Env) (fuel : Nat) (year month : Int)
    (hs : List Holiday) (hy : representableYear year) (h1 : 1 ≤ month) (h2 : month ≤ 12)
    (hf : 6 ≤ fuel) :
    ∃ ws, generateCalendarStructure fuel env year month hs = some ws ∧
      ∀ (i : Nat) (w : Week), ws[i]? = some w →
        1000 ≤ yearFromDay (gridStart (effectiveYear year) month + 7 * i) →
        yearFromDay (gridStart (effectiveYear year) month + 7 * i) ≤ 9999 →
        (0 ≤ env.tzOffset ∨ gridStart (effectiveYear year) month + 7 * i ≠
          dayFromYear (yearFromDay (gridStart (effectiveYear year) month + 7 * i))) →
        w.weekNumber = some (weekNumberOf (gridStart (effectiveYear year) month + 7 * i)) ∧
        1 ≤ weekNumberOf (gridStart (effectiveYear year) month + 7 * i) ∧
        weekNumberOf (gridStart (effectiveYear year) month + 7 * i) ≤ 54 := by
  refine ⟨_, generateCalendarStructure_eq env fuel year month hs hy h1 h2 hf, ?_⟩
  intro i w hw hy1 hy2 hz
  have hwk : ∀ (r : Nat) (t : Int) (i : Nat) (w : Week),
      (weeksFrom env month (hs.map (fun h => h.date)) t r)[i]? = some w →
      w = weekAt env month (hs.map (fun h => h.date)) (t + 7 * i) := by
    intro r
    induction r with
    | zero => intro t i w h; simp [weeksFrom] at h
    | succ r ih =>
      intro t i w h
      cases i with
      | zero =>
        simp only [weeksFrom, List.getElem?_cons_zero, Option.some.injEq] at h
        simp [← h]
      | succ i =>
        simp only [weeksFrom, List.getElem?_cons_succ] at h
        have := ih (t + 7) i w h
        rw [this]
        congr 1
        push_cast
        omega
  have e := hwk _ _ i w hw
  obtain ⟨g1, -, -⟩ := gridStart_props (effectiveYear year) month
  have hmon : weekDay (gridStart (effectiveYear year) month + 7 * i) = 1 := by
    unfold weekDay at g1 ⊢
    omega
  refine ⟨?_, weekNumberOf_bounds _⟩
  rw [e]
  exact getWeekNumber_monday env _ hmon hy1 hy2 hz

/-- C22 on a server behind UTC: for January 2024, whose first week starts on
Monday 2024-01-01, a server five hours behind UTC returns week number 53 for
that week, where `ceil((d + w + 1) / 7)` with `d = 0` and `w = 1` is 1 and a
server on UTC returns 1: the date string is parsed as midnight UTC and its
year is then read in local time, where it is still 2023-12-31. -/
theorem weekNumber_of_new_year_monday_behind_utc :
    (generateCalendarStructure 6 easternEnv 2024 1 []).map
        (fun ws => ws.head?.map (fun w => (w.days.head?.map (fun d => d.date), w.weekNumber))) =
      some (some (some "2024-01-01", some 53)) ∧
    (generateCalendarStructure 6 utcEnv 2024 1 []).map
        (fun ws => ws.head?.map (fun w => (w.days.head?.map (fun d => d.date), w.weekNumber))) =
      some (some (some "2024-01-01", some 1)) ∧
    weekNumberOf (firstOfMonth 2024 1) = 1 ∧
    weekDay (dayFromYear 2024) = 1 := by
  refine ⟨?_, ?_, by decide, by decide⟩
  · rw [generateCalendarStructure_eq easternEnv 6 2024 1 [] (by decide) (by decide) (by decide)
      (le_refl 6)]
    decide
  · rw [generateCalendarStructure_eq utcEnv 6 2024 1 [] (by decide) (by decide) (by decide)
      (le_refl 6)]
    decide

end HolidayService

namespace HolidayService

theorem digitsAux_succ (f n : Nat) (acc : List Char) :
    digitsAux (f + 1) n acc =
      if n / 10 = 0 then digitChar n :: acc else digitsAux f (n / 10) (digitChar n :: acc) := rfl

theorem natToString_one_digit {n : Nat} (h : n < 10) :
    natToString n = String.mk [digitChar n] := by
  unfold natToString
  rw [digitsAux_succ, if_pos (by omega)]

theorem natToString_two_digits {n : Nat} (h1 : 10 ≤ n) (h2 : n < 100) :
    natToString n = twoDigits n := by
  unfold natToString twoDigits
  obtain ⟨k, rfl⟩ : ∃ k, n = k + 1 := ⟨n - 1, by omega⟩
  rw [digitsAux_succ, if_neg (by omega), digitsAux_succ, if_pos (by omega)]

theorem natToString_four_digits {n : Nat} (h1 : 1000 ≤ n) (h2 : n ≤ 9999) :
    natToString n = fourDigits n := by
  unfold natToString fourDigits
  obtain ⟨k, rfl⟩ : ∃ k, n = k + 3 := ⟨n - 3, by omega⟩
  rw [digitsAux_succ, if_neg (by omega), digitsAux_succ, if_neg (by omega), digitsAux_succ,
    if_neg (by omega), digitsAux_succ, if_pos (by omega)]
  have e1 : (k + 3) / 10 / 10 = (k + 3) / 100 := by omega
  have e2 : (k + 3) / 10 / 10 / 10 = (k + 3) / 1000 := by omega
  rw [e2, e1]

/-- Padding to two places gives the two-digit numeral. -/
theorem padStart2_natToString {n : Nat} (h : n < 100) :
    padStart2 (natToString n) = twoDigits n := by
  by_cases h10 : n < 10
  · rw [natToString_one_digit h10]
    have e : n / 10 = 0 := by omega
    unfold twoDigits
    rw [e]
    rfl
  · rw [natToString_two_digits (by omega) h]
    rfl

/-- The string built by the code is the zero-padded `YYYY-MM-DD` string when
the year has four digits. -/
theorem iso_eq_zeroPaddedDate (c : Civil) (hy1 : 1000 ≤ c.year) (hy2 : c.year ≤ 9999)
    (hm1 : 0 ≤ c.month) (hm2 : c.month ≤ 99) (hd1 : 0 ≤ c.day) (hd2 : c.day ≤ 99) :
    c.iso = zeroPaddedDate c := by
  obtain ⟨y, m, d⟩ := c
  simp only at hy1 hy2 hm1 hm2 hd1 hd2
  obtain ⟨a, rfl⟩ := Int.eq_ofNat_of_zero_le (show 0 ≤ y by omega)
  obtain ⟨b, rfl⟩ := Int.eq_ofNat_of_zero_le hm1
  obtain ⟨e, rfl⟩ := Int.eq_ofNat_of_zero_le hd1
  unfold Civil.iso isoDate zeroPaddedDate
  simp only [Int.toNat_ofNat]
  show natToString a ++ "-" ++ padStart2 (natToString b) ++ "-" ++ padStart2 (natToString e) = _
  rw [natToString_four_digits (by omega) (by omega), padStart2_natToString (by omega),
    padStart2_natToString (by omega)]

/-- The six days before the first of a month are the last days of the
previous month. -/
theorem civil_before {month : Int} (y : Int) (h1 : 1 ≤ month) (h2 : month ≤ 12) {j : Int}
    (j1 : 1 ≤ j) (j2 : j ≤ 6) :
    civilOfDay (firstOfMonth y month - j) =
      ⟨(previousMonth y month).1, (previousMonth y month).2,
        daysInMonth (previousMonth y month).1 (previousMonth y month).2 - j + 1⟩ := by
  have hb := daysInMonth_bounds
  unfold civilOfDay previousMonth
  rcases (show month = 1 ∨ 2 ≤ month by omega) with h | h
  · subst h
    have hs := dayFromYear_succ (y - 1)
    have hl := daysBeforeMonth_last (y - 1)
    have hk := hb (y - 1) 12
    have e : firstOfMonth y 1 - j =
        dayFromYear (y - 1) + daysBeforeMonth 11 (leapDays (y - 1)) + (daysInMonth (y - 1) 12 - j) := by
      unfold firstOfMonth
      simp only [sub_add_cancel] at hs
      simp only [show (1 : Int) - 1 = 0 by decide, show daysBeforeMonth 0 (leapDays y) = 0 by
        simp [daysBeforeMonth]]
      omega
    rw [e]
    obtain ⟨c1, c2, c3⟩ := civil_of_offset (y := y - 1) (m := 11) (k := daysInMonth (y - 1) 12 - j)
      (by omega) (by omega) (by omega) (by simp; omega)
    rw [c1, c2, c3]
    simp
  · have hd := daysBeforeMonth_succ (leapDays y) (show 0 ≤ month - 2 by omega)
      (show month - 2 ≤ 10 by omega) y rfl
    have e2 : month - 2 + 1 = month - 1 := by omega
    have hk := hb y (month - 1)
    rw [e2] at hd
    have e : firstOfMonth y month - j =
        dayFromYear y + daysBeforeMonth (month - 2) (leapDays y)
          + (daysInMonth y (month - 1) - j) := by
      unfold firstOfMonth
      omega
    rw [e]
    obtain ⟨c1, c2, c3⟩ := civil_of_offset (y := y) (m := month - 2)
      (k := daysInMonth y (month - 1) - j) (by omega) (by omega) (by omega) (by rw [e2]; omega)
    rw [c1, c2, c3, if_neg (by omega)]
    simp only [Civil.mk.injEq, true_and, and_true]
    omega

/-- The seven days after the last of a month are the first days of the
following month. -/
theorem civil_after {month : Int} (y : Int) (h1 : 1 ≤ month) (h2 : month ≤ 12) {j : Int}
    (j1 : 1 ≤ j) (j2 : j ≤ 7) :
    civilOfDay (firstOfMonth y month + daysInMonth y month - 1 + j) =
      ⟨(followingMonth y month).1, (followingMonth y month).2, j⟩ := by
  have hb := daysInMonth_bounds
  unfold civilOfDay followingMonth
  rcases (show month ≤ 11 ∨ month = 12 by omega) with h | h
  · have hd := daysBeforeMonth_succ (leapDays y) (show 0 ≤ month - 1 by omega)
      (show month - 1 ≤ 10 by omega) y rfl
    simp only [sub_add_cancel] at hd
    have e : firstOfMonth y month + daysInMonth y month - 1 + j =
        dayFromYear y + daysBeforeMonth month (leapDays y) + (j - 1) := by
      unfold firstOfMonth; omega
    rw [e, if_neg (by omega)]
    have hk := hb y (month + 1)
    obtain ⟨c1, c2, c3⟩ := civil_of_offset (y := y) (m := month) (k := j - 1)
      (by omega) (by omega) (by omega) (by omega)
    rw [c1, c2, c3]
    simp
  · subst h
    have hs := dayFromYear_succ y
    have hl := daysBeforeMonth_last y
    have e : firstOfMonth y 12 + daysInMonth y 12 - 1 + j =
        dayFromYear (y + 1) + daysBeforeMonth 0 (leapDays (y + 1)) + (j - 1) := by
      unfold firstOfMonth
      simp only [show (12 : Int) - 1 = 11 by decide,
        show daysBeforeMonth 0 (leapDays (y + 1)) = 0 by simp [daysBeforeMonth]]
      omega
    rw [e, if_pos rfl]
    have hk := hb (y + 1) (0 + 1)
    obtain ⟨c1, c2, c3⟩ := civil_of_offset (y := y + 1) (m := 0) (k := j - 1)
      (by omega) (by omega) (by omega) (by omega)
    rw [c1, c2, c3]
    simp

/-- The stamp of a cell from the calendar date and the month of its day. -/
theorem stamp_dayAt (env : Env) (m : Int) (hd : List String) (t : Int) :
    (dayAt env m hd t).stamp =
      ((civilOfDay t).iso, some (civilOfDay t).day, decide ((civilOfDay t).month = m)) := by
  unfold Day.stamp
  rw [dayAt_date, dayAt_day, dayAt_isCurrentMonth]
  simp only [civilOfDay, Prod.mk.injEq, true_and, decide_eq_decide]
  omega

theorem previousMonth_props (year month : Int) (h1 : 1 ≤ month) (h2 : month ≤ 12) :
    1 ≤ (previousMonth year month).2 ∧ (previousMonth year month).2 ≤ 12 ∧
      (previousMonth year month).2 ≠ month := by
  unfold previousMonth
  split <;> simp <;> omega

theorem followingMonth_props (year month : Int) (h1 : 1 ≤ month) (h2 : month ≤ 12) :
    1 ≤ (followingMonth year month).2 ∧ (followingMonth year month).2 ≤ 12 ∧
      (followingMonth year month).2 ≠ month := by
  unfold followingMonth
  split <;> simp <;> omega

/-- The cells of the closed-form grid, as dates, day numbers and month flags. -/
theorem stamps_of_grid (env : Env) (y month : Int) (hd : List String) (h1 : 1 ≤ month)
    (h2 : month ≤ 12) :
    ∃ lead trail : Nat, lead ≤ 6 ∧ trail ≤ 6 ∧
      (allDays (weeksFrom env month hd (gridStart y month) (gridRows y month))).map Day.stamp =
        (expectedCells y month lead trail).map (fun p => (p.1.iso, some p.1.day, p.2)) := by
  obtain ⟨b1, b2⟩ := daysInMonth_bounds y month
  obtain ⟨-, g1, g2⟩ := gridStart_props y month
  obtain ⟨r1, r2, r3, r4⟩ := gridRows_props y month
  obtain ⟨k, hk⟩ : ∃ k : Nat, (k : Int) = firstOfMonth y month - gridStart y month :=
    ⟨(firstOfMonth y month - gridStart y month).toNat, by omega⟩
  obtain ⟨n, hn⟩ : ∃ n : Nat, (n : Int) = daysInMonth y month := ⟨(daysInMonth y month).toNat, by omega⟩
  obtain ⟨q, hq⟩ : ∃ q : Nat, 7 * gridRows y month = k + (n + q) :=
    ⟨7 * gridRows y month - k - n, by omega⟩
  have hn2 : (daysInMonth y month).toNat = n := by omega
  obtain ⟨p1, p2, p3⟩ := previousMonth_props y month h1 h2
  obtain ⟨f1, f2, f3⟩ := followingMonth_props y month h1 h2
  refine ⟨k, q, by omega, by omega, ?_⟩
  rw [allDays_weeksFrom, hq, daysFrom_add, daysFrom_add]
  have e1 : gridStart y month + (k : Int) = firstOfMonth y month := by omega
  rw [e1]
  unfold expectedCells
  rw [hn2]
  simp only [List.map_append, List.append_assoc, daysFrom_map, List.map_map]
  congr 1
  · apply List.map_congr_left
    intro i hi
    have hi2 : i < k := List.mem_range.mp hi
    simp only [Function.comp]
    rw [stamp_dayAt]
    have e : gridStart y month + (i : Int) = firstOfMonth y month - ((k : Int) - i) := by omega
    rw [e, civil_before y h1 h2 (by omega) (by omega)]
    simp only [Prod.mk.injEq, Option.some.injEq, decide_eq_false_iff_not]
    refine ⟨?_, by omega, p3⟩
    congr 2
    omega
  congr 1
  · apply List.map_congr_left
    intro i hi
    have hi2 : i < n := List.mem_range.mp hi
    simp only [Function.comp]
    rw [stamp_dayAt]
    obtain ⟨c1, c2, c3⟩ := civil_in_month y h1 h2 (k := (i : Int)) (by omega) (by omega)
    unfold civilOfDay
    rw [c1, c2, c3]
    simp
  · apply List.map_congr_left
    intro i hi
    have hi2 : i < q := List.mem_range.mp hi
    simp only [Function.comp]
    rw [stamp_dayAt]
    have e : firstOfMonth y month + (n : Int) + (i : Int) =
        firstOfMonth y month + daysInMonth y month - 1 + ((i : Int) + 1) := by omega
    rw [e, civil_after y h1 h2 (by omega) (by omega)]
    simp only [Prod.mk.injEq, Option.some.injEq, decide_eq_false_iff_not]
    exact ⟨trivial, trivial, f3⟩

/-- The dates of the expected cells are real dates: month in 1..12 and day in
1..31. -/
theorem expectedCells_wellFormed (y month : Int) (h1 : 1 ≤ month) (h2 : month ≤ 12)
    (lead trail : Nat) (hl : lead ≤ 6) (ht : trail ≤ 6) :
    ∀ p ∈ expectedCells y month lead trail,
      1 ≤ p.1.month ∧ p.1.month ≤ 12 ∧ 1 ≤ p.1.day ∧ p.1.day ≤ 31 := by
  obtain ⟨p1, p2, -⟩ := previousMonth_props y month h1 h2
  obtain ⟨f1, f2, -⟩ := followingMonth_props y month h1 h2
  have hb := daysInMonth_bounds
  intro p hp
  unfold expectedCells at hp
  simp only [List.mem_append, List.mem_map, List.mem_range] at hp
  rcases hp with (⟨i, hi, rfl⟩ | ⟨i, hi, rfl⟩) | ⟨i, hi, rfl⟩
  · have := hb (previousMonth y month).1 (previousMonth y month).2
    simp only
    omega
  · have := hb y month
    simp only
    omega
  · simp only
    omega

end HolidayService

namespace HolidayService

theorem digitChar_inj {a b : Nat} (h : digitChar a = digitChar b) : a % 10 = b % 10 := by
  have key : ∀ x y : Fin 10, Char.ofNat (48 + x.val) = Char.ofNat (48 + y.val) → x = y := by
    decide
  have := key ⟨a % 10, by omega⟩ ⟨b % 10, by omega⟩ h
  exact Fin.mk.inj this

theorem twoDigits_inj {a b : Nat} (ha : a < 100) (hb : b < 100)
    (h : twoDigits a = twoDigits b) : a = b := by
  unfold twoDigits at h
  have hl := congrArg String.data h
  simp only [List.cons.injEq, and_true] at hl
  have h1 := digitChar_inj hl.1
  have h2 := digitChar_inj hl.2
  omega

theorem string_append_cancel_left {s t1 t2 : String} (h : s ++ t1 = s ++ t2) : t1 = t2 := by
  have := congrArg String.data h
  simp only [String.data_append, List.append_cancel_left_eq] at this
  exact String.ext this

/-- The date strings of two different days of a month differ. -/
theorem isoDate_day_inj (y m : Int) {a b : Nat} (ha : a < 100) (hb : b < 100)
    (h : isoDate y m (a : Int) = isoDate y m (b : Int)) : a = b := by
  unfold isoDate at h
  have h2 := string_append_cancel_left h
  have e : ∀ n : Nat, jsNumToString (some ((n : Nat) : Int)) = natToString n := fun n => rfl
  rw [e, e, padStart2_natToString ha, padStart2_natToString hb] at h2
  exact twoDigits_inj ha hb h2

theorem monthDates_nodup (y m : Int) : (monthDates y m).Nodup := by
  obtain ⟨b1, b2⟩ := daysInMonth_bounds y m
  unfold monthDates
  rw [List.nodup_map_iff_inj_on (List.nodup_range _)]
  intro i hi j hj h
  have hi2 := List.mem_range.mp hi
  have hj2 := List.mem_range.mp hj
  have := isoDate_day_inj y m (a := i + 1) (b := j + 1) (by omega) (by omega)
    (by push_cast; exact h)
  omega

/-- Two lists without repetition meet in as many elements from either side. -/
theorem length_filter_mem_comm {α : Type} [DecidableEq α] (l1 l2 : List α) (h1 : l1.Nodup)
    (h2 : l2.Nodup) :
    (l1.filter (fun a => decide (a ∈ l2))).length = (l2.filter (fun a => decide (a ∈ l1))).length := by
  apply List.Perm.length_eq
  rw [List.perm_ext_iff_of_nodup (h1.filter _) (h2.filter _)]
  intro a
  simp only [List.mem_filter, decide_eq_true_eq]
  tauto

/-- The sum of the holiday counts of successive rows counts the in-month
holidays among all their cells. -/
theorem totalHolidayCount_weeksFrom (env : Env) (m : Int) (hd : List String) (t : Int) (r : Nat) :
    totalHolidayCount (weeksFrom env m hd t r) =
      (inMonthHolidays (daysFrom env m hd t (7 * r))).length := by
  induction r generalizing t with
  | zero => rfl
  | succ r ih =>
    have e : 7 * (r + 1) = 7 + 7 * r := by omega
    rw [e, daysFrom_add]
    unfold totalHolidayCount at ih ⊢
    simp only [weeksFrom, List.map_cons, List.sum_cons, ih, inMonthHolidays, List.filter_append,
      List.length_append]
    rfl

/-- The dates of the days of the month, from the cells. -/
theorem daysFrom_month_dates (env : Env) (y month : Int) (hd : List String) (h1 : 1 ≤ month)
    (h2 : month ≤ 12) :
    (daysFrom env month hd (firstOfMonth y month) (daysInMonth y month).toNat).map
      (fun d => d.date) = monthDates y month := by
  obtain ⟨b1, b2⟩ := daysInMonth_bounds y month
  rw [daysFrom_map]
  unfold monthDates
  apply List.map_congr_left
  intro i hi
  have hi2 := List.mem_range.mp hi
  rw [dayAt_date]
  obtain ⟨c1, c2, c3⟩ := civil_in_month y h1 h2 (k := (i : Int)) (by omega) (by omega)
  unfold civilOfDay Civil.iso
  simp only [c1, c2, c3, sub_add_cancel]

/-- In the closed-form grid the holiday counts add up to the number of dates
of the month that are holiday dates. -/
theorem totalHolidayCount_grid (env : Env) (y month : Int) (hd : List String) (h1 : 1 ≤ month)
    (h2 : month ≤ 12) :
    totalHolidayCount (weeksFrom env month hd (gridStart y month) (gridRows y month)) =
      ((monthDates y month).filter (fun s => decide (s ∈ hd))).length := by
  rw [totalHolidayCount_weeksFrom, ← allDays_weeksFrom]
  have e : inMonthHolidays (allDays (weeksFrom env month hd (gridStart y month) (gridRows y month)))
      = (currentMonthDays (weeksFrom env month hd (gridStart y month) (gridRows y month))).filter
          (fun d => d.isHoliday) := by
    unfold inMonthHolidays currentMonthDays
    rw [List.filter_filter]
    apply List.filter_congr
    intro d _
    rw [Bool.and_comm]
  rw [e, currentMonthDays_grid env y month hd h1 h2, ← daysFrom_month_dates env y month hd h1 h2,
    ← List.countP_eq_length_filter, ← List.countP_eq_length_filter, List.countP_map]
  apply List.countP_congr
  intro d hdm
  obtain ⟨i, -, rfl⟩ := mem_daysFrom.mp hdm
  simp only [Function.comp, dayAt_isHoliday, dayAt_date]

end HolidayService

namespace HolidayService

theorem daysBeforeMonth_bounds (mm l : Int) (h0 : 0 ≤ mm) (h1 : mm ≤ 11) (hl : l = 0 ∨ l = 1) :
    0 ≤ daysBeforeMonth mm 0 ∧ daysBeforeMonth mm 0 ≤ 334 ∧
      daysBeforeMonth mm 0 ≤ daysBeforeMonth mm l ∧ daysBeforeMonth mm l ≤ daysBeforeMonth mm 0 + 1 := by
  rcases month_cases h0 h1 with h | h | h | h | h | h | h | h | h | h | h | h <;>
    subst h <;> simp [daysBeforeMonth] <;> omega

/-- Between two days of one month that are less than a week apart, every day
belongs to that month. -/
theorem monthFromDay_between {a b c mm : Int} (hab : a ≤ b) (hbc : b ≤ c) (hac : c ≤ a + 6)
    (ha : monthFromDay a = mm) (hc : monthFromDay c = mm) : monthFromDay b = mm := by
  obtain ⟨m0, m1⟩ := monthFromDay_range a
  rw [ha] at m0 m1
  obtain ⟨da, da1, da2⟩ := civil_decomp a
  obtain ⟨dc, dc1, dc2⟩ := civil_decomp c
  rw [ha] at da da2
  rw [hc] at dc dc2
  obtain ⟨sa1, sa2⟩ := yearFromDay_spec a
  obtain ⟨sc1, sc2⟩ := yearFromDay_spec c
  have hla := leapDays_cases (yearFromDay a)
  have hlc := leapDays_cases (yearFromDay c)
  obtain ⟨p1, p2, p3, p4⟩ := daysBeforeMonth_bounds mm (leapDays (yearFromDay a)) m0 m1 hla
  obtain ⟨-, -, q3, q4⟩ := daysBeforeMonth_bounds mm (leapDays (yearFromDay c)) m0 m1 hlc
  have hba := daysInMonth_bounds (yearFromDay a) (mm + 1)
  have hbc2 := daysInMonth_bounds (yearFromDay c) (mm + 1)
  have hyear : yearFromDay c = yearFromDay a := by
    by_contra hne
    rcases lt_or_gt_of_ne hne with h | h
    · have := dayFromYear_mono (show yearFromDay c + 1 ≤ yearFromDay a by omega)
      omega
    · have := dayFromYear_mono (show yearFromDay a + 1 ≤ yearFromDay c by omega)
      rw [dayFromYear_succ] at this
      omega
  rw [hyear] at dc dc2
  have e : b = dayFromYear (yearFromDay a) + daysBeforeMonth mm (leapDays (yearFromDay a)) +
      (b - a + (dateFromDay a - 1)) := by omega
  rw [e]
  exact (civil_of_offset (y := yearFromDay a) (m := mm) (k := b - a + (dateFromDay a - 1))
    m0 m1 (by omega) (by omega)).2.1

end HolidayService

namespace ConsecutiveHolidaysView

open HolidayService CalendarGrid

theorem adjacentPair_nil : adjacentPair [] = false := rfl

theorem adjacentPair_single (a : Bool) : adjacentPair [a] = false := rfl

theorem adjacentPair_cons_cons (a b : Bool) (l : List Bool) :
    adjacentPair (a :: b :: l) = ((a && b) || adjacentPair (b :: l)) := by
  simp [adjacentPair]

theorem adjacentPair_false_cons (l : List Bool) : adjacentPair (false :: l) = adjacentPair l := by
  cases l with
  | nil => rfl
  | cons b l => rw [adjacentPair_cons_cons]; simp

theorem adjacentPair_all_false (l : List Bool) (h : ∀ x ∈ l, x = false) :
    adjacentPair l = false := by
  induction l with
  | nil => rfl
  | cons a l ih =>
    have ha : a = false := h a (List.mem_cons_self _ _)
    rw [ha, adjacentPair_false_cons]
    exact ih (fun x hx => h x (List.mem_cons_of_mem _ hx))

/-- Two neighbouring set flags, by their places. -/
theorem adjacentPair_iff (l : List Bool) :
    adjacentPair l = true ↔ ∃ j, l[j]? = some true ∧ l[j + 1]? = some true := by
  induction l with
  | nil => simp [adjacentPair_nil]
  | cons a l ih =>
    cases l with
    | nil =>
      rw [adjacentPair_single]
      simp
    | cons b l =>
      rw [adjacentPair_cons_cons, Bool.or_eq_true, ih]
      constructor
      · rintro (h | ⟨j, h1, h2⟩)
        · rw [Bool.and_eq_true] at h
          exact ⟨0, by simp [h.1], by simp [h.2]⟩
        · exact ⟨j + 1, by simpa using h1, by simpa using h2⟩
      · rintro ⟨j, h1, h2⟩
        cases j with
        | zero =>
          left
          simp only [List.getElem?_cons_zero, Option.some.injEq] at h1
          simp only [zero_add, List.getElem?_cons_succ, List.getElem?_cons_zero,
            Option.some.injEq] at h2
          simp [h1, h2]
        | succ j =>
          right
          exact ⟨j, by simpa using h1, by simpa using h2⟩

theorem contiguous_tail {a : Bool} {l : List Bool} (h : ContiguousFlags (a :: l)) :
    ContiguousFlags l := by
  intro i j k hij hjk hi hk
  have := h (i + 1) (j + 1) (k + 1) (by omega) (by omega) (by simpa using hi) (by simpa using hk)
  simpa using this

theorem contiguous_gap {l : List Bool} (h : ContiguousFlags (true :: false :: l)) :
    ∀ x ∈ l, x = false := by
  intro x hx
  obtain ⟨n, hn⟩ := List.getElem?_of_mem hx
  cases x with
  | false => rfl
  | true =>
    have := h 0 1 (n + 2) (by omega) (by omega) (by simp) (by simpa using hn)
    simp at this

/-- Dropping the days outside the month before looking for two neighbouring
holidays changes nothing when the days of the month form one block. -/
theorem adjacentPair_filter {α : Type} (c H : α → Bool) (l : List α)
    (hc : ContiguousFlags (l.map c)) :
    adjacentPair ((l.filter c).map H) = adjacentPair (l.map (fun d => c d && H d)) := by
  induction l with
  | nil => rfl
  | cons d rest ih =>
    have ihr := ih (contiguous_tail hc)
    by_cases hd : c d = true
    · cases rest with
      | nil => simp [List.filter_cons, hd, adjacentPair_single]
      | cons e rest1 =>
        by_cases he : c e = true
        · simp only [List.filter_cons, hd, he, if_true, List.map_cons, Bool.true_and] at ihr ⊢
          rw [adjacentPair_cons_cons, adjacentPair_cons_cons, ihr]
        · have he2 : c e = false := by simpa using he
          have hall : ∀ x ∈ rest1.map c, x = false := by
            apply contiguous_gap
            simpa [hd, he2] using hc
          have hf : rest1.filter c = [] := by
            rw [List.filter_eq_nil_iff]
            intro x hx
            have := hall (c x) (List.mem_map_of_mem c hx)
            simp [this]
          have hq : ∀ x ∈ rest1.map (fun d => c d && H d), x = false := by
            intro x hx
            obtain ⟨y, hy, rfl⟩ := List.mem_map.mp hx
            have := hall (c y) (List.mem_map_of_mem c hy)
            simp [this]
          have hL : (d :: e :: rest1).filter c = [d] := by
            simp [List.filter_cons, hd, he2, hf]
          rw [hL]
          simp only [List.map_cons, List.map_nil, adjacentPair_single, hd, he2, Bool.true_and,
            Bool.false_and]
          rw [adjacentPair_cons_cons, adjacentPair_false_cons, adjacentPair_all_false _ hq]
          simp
    · have hd2 : c d = false := by simpa using hd
      simp only [List.filter_cons, hd2, List.map_cons, Bool.false_and]
      rw [adjacentPair_false_cons]
      simpa using ihr

theorem scanStep_props (byDate : List (String × List Holiday)) (st : ScanState) (d : Day)
    (idx : Nat) (prev : Bool) (h1 : st.lastHolidayIdx = (idx : Int) - 1 ↔ prev = true)
    (h2 : prev = true → 1 ≤ st.consecutiveCount) :
    (scanStep byDate st d idx).weekHasConsecutive =
        (st.weekHasConsecutive || (prev && hasHoliday byDate d)) ∧
    ((scanStep byDate st d idx).lastHolidayIdx = ((idx + 1 : Nat) : Int) - 1 ↔
        hasHoliday byDate d = true) ∧
    (hasHoliday byDate d = true → 1 ≤ (scanStep byDate st d idx).consecutiveCount) := by
  unfold scanStep
  simp only []
  by_cases hH : hasHoliday byDate d = true
  · have hH2 : decide ((getHolidaysForDate d.date byDate).length > 0) = true := hH
    rw [if_pos hH2]
    simp only [hH, Bool.and_true]
    refine ⟨?_, by simp, fun _ => by split <;> omega⟩
    by_cases hl : st.lastHolidayIdx = (idx : Int) - 1
    · have hp := h1.mp hl
      have := h2 hp
      rw [if_pos hl, if_pos (by omega), hp]
      simp
    · have hp : prev = false := by
        cases prev with
        | false => rfl
        | true => exact absurd (h1.mpr rfl) hl
      rw [if_neg hl, if_neg (by omega), hp]
      simp
  · have hH3 : hasHoliday byDate d = false := by simpa using hH
    have hH2 : ¬ decide ((getHolidaysForDate d.date byDate).length > 0) = true := hH
    rw [if_neg hH2]
    simp only [hH3, Bool.and_false, Bool.or_false]
    refine ⟨trivial, ?_, by simp⟩
    constructor
    · intro h; push_cast at h; omega
    · intro h; exact absurd h (by simp)

/-- The flag of the scan of `findConsecutiveHolidayWeeks`: it is set exactly
when two neighbouring days of the scanned list both have a holiday. -/
theorem scanDays_flag (byDate : List (String × List Holiday)) (ds : List Day) (idx : Nat)
    (st : ScanState) (prev : Bool) (h1 : st.lastHolidayIdx = (idx : Int) - 1 ↔ prev = true)
    (h2 : prev = true → 1 ≤ st.consecutiveCount) :
    (scanDays byDate ds idx st).weekHasConsecutive =
      (st.weekHasConsecutive || adjacentPair (prev :: ds.map (hasHoliday byDate))) := by
  induction ds generalizing idx st prev with
  | nil => simp [scanDays, adjacentPair_single]
  | cons d rest ih =>
    obtain ⟨p1, p2, p3⟩ := scanStep_props byDate st d idx prev h1 h2
    simp only [scanDays, List.map_cons]
    rw [ih (idx + 1) (scanStep byDate st d idx) (hasHoliday byDate d) p2 p3, p1,
      adjacentPair_cons_cons, Bool.or_assoc]

theorem weekHasConsecutive_eq (byDate : List (String × List Holiday)) (week : Week) :
    weekHasConsecutive byDate week =
      adjacentPair ((week.days.filter (fun day => day.isCurrentMonth)).map (hasHoliday byDate)) := by
  unfold weekHasConsecutive
  rw [scanDays_flag byDate _ 0 ⟨0, -2, false⟩ false (by simp) (by simp), adjacentPair_false_cons]
  simp

theorem pushRun_ne_nil (seqs : List (List Nat)) (cons : List Nat) :
    pushRun seqs cons ≠ [] ↔ seqs ≠ [] ∨ cons.length > 1 := by
  unfold pushRun
  split
  · simp [*]
  · simp [*]

theorem seqStep_props (byDate : List (String × List Holiday)) (st : SeqState) (d : Day)
    (idx : Nat) (prev : Bool) (h1 : st.lastHolidayIdx = (idx : Int) - 1 ↔ prev = true)
    (h2 : prev = true → 1 ≤ st.consecutive.length) :
    (pushRun (seqStep byDate st d idx).sequences (seqStep byDate st d idx).consecutive ≠ [] ↔
        pushRun st.sequences st.consecutive ≠ [] ∨ (prev && qualifies byDate d) = true) ∧
    ((seqStep byDate st d idx).lastHolidayIdx = ((idx + 1 : Nat) : Int) - 1 ↔
        qualifies byDate d = true) ∧
    (qualifies byDate d = true → 1 ≤ (seqStep byDate st d idx).consecutive.length) := by
  unfold seqStep
  by_cases hQ : qualifies byDate d = true
  · rw [if_pos hQ]
    by_cases hl : st.lastHolidayIdx = (idx : Int) - 1
    · have hp := h1.mp hl
      have := h2 hp
      rw [if_pos hl]
      simp only [hp, hQ, Bool.and_self, or_true, iff_true]
      refine ⟨?_, by simp, fun _ => by simp⟩
      rw [pushRun_ne_nil]
      right
      simp only [List.length_append, List.length_singleton]
      omega
    · have hp : prev = false := by
        cases prev with
        | false => rfl
        | true => exact absurd (h1.mpr rfl) hl
      rw [if_neg hl]
      simp only [hp, Bool.false_and, Bool.false_eq_true, or_false]
      refine ⟨?_, by simp [hQ], fun _ => by simp⟩
      rw [pushRun_ne_nil]
      simp
  · have hQ2 : qualifies byDate d = false := by simpa using hQ
    rw [if_neg hQ]
    simp only [hQ2, Bool.and_false, Bool.false_eq_true, or_false]
    refine ⟨?_, ?_, by simp⟩
    · rw [pushRun_ne_nil]
      simp
    · constructor
      · intro h; push_cast at h; omega
      · intro h; exact absurd h (by simp)

/-- The scan of `getConsecutiveHolidaySequences` ends with at least one run
exactly when two neighbouring days both pass its test. -/
theorem forEachDay_has_run (byDate : List (String × List Holiday)) (ds : List Day) (idx : Nat)
    (st : SeqState) (prev : Bool) (h1 : st.lastHolidayIdx = (idx : Int) - 1 ↔ prev = true)
    (h2 : prev = true → 1 ≤ st.consecutive.length) :
    (pushRun (forEachDay byDate ds idx st).sequences (forEachDay byDate ds idx st).consecutive
        ≠ [] ↔
      pushRun st.sequences st.consecutive ≠ [] ∨
        adjacentPair (prev :: ds.map (qualifies byDate)) = true) := by
  induction ds generalizing idx st prev with
  | nil => simp [forEachDay, adjacentPair_single]
  | cons d rest ih =>
    obtain ⟨p1, p2, p3⟩ := seqStep_props byDate st d idx prev h1 h2
    simp only [forEachDay, List.map_cons]
    rw [ih (idx + 1) (seqStep byDate st d idx) (qualifies byDate d) p2 p3, p1,
      adjacentPair_cons_cons, Bool.or_eq_true, or_assoc]

theorem sequences_ne_nil_iff (byDate : List (String × List Holiday)) (weekDays : List Day) :
    getConsecutiveHolidaySequences byDate weekDays ≠ [] ↔
      adjacentPair (weekDays.map (qualifies byDate)) = true := by
  unfold getConsecutiveHolidaySequences
  simp only []
  rw [forEachDay_has_run byDate weekDays 0 ⟨[], -2, []⟩ false (by simp) (by simp),
    adjacentPair_false_cons]
  simp [pushRun]

/-- The two scans agree on every list of days whose in-month days form one
block. -/
theorem scans_agree_on_contiguous (byDate : List (String × List Holiday)) (week : Week)
    (hc : ContiguousFlags (week.days.map (fun day => day.isCurrentMonth))) :
    weekHasConsecutive byDate week = true ↔
      getConsecutiveHolidaySequences byDate week.days ≠ [] := by
  rw [weekHasConsecutive_eq, sequences_ne_nil_iff,
    adjacentPair_filter (fun day => day.isCurrentMonth) (hasHoliday byDate) week.days hc]
  rfl

/-- The in-month days of the row that starts on any day form one block. -/
theorem contiguous_weekAt (env : Env) (m : Int) (hd : List String) (t : Int) :
    ContiguousFlags ((weekAt env m hd t).days.map (fun day => day.isCurrentMonth)) := by
  rw [weekAt_days, daysFrom_map]
  intro i j k hij hjk hi hk
  simp only [List.getElem?_map, List.getElem?_range, Option.map_eq_some'] at hi hk ⊢
  obtain ⟨a, ha, ha2⟩ := hi
  obtain ⟨b, hb, hb2⟩ := hk
  have hk7 : k < 7 := by
    by_contra hn
    rw [List.getElem?_eq_none (by simpa using hn)] at hb
    exact absurd hb (by simp)
  have hi7 : i < 7 := by omega
  have hj7 : j < 7 := by omega
  rw [List.getElem?_range hi7] at ha
  rw [List.getElem?_range hk7] at hb
  obtain rfl := Option.some.inj ha
  obtain rfl := Option.some.inj hb
  refine ⟨j, List.getElem?_range hj7, ?_⟩
  rw [dayAt_isCurrentMonth] at ha2 hb2 ⊢
  simp only [decide_eq_true_eq] at ha2 hb2 ⊢
  exact monthFromDay_between (a := t + i) (c := t + k) (by omega) (by omega) (by omega) ha2 hb2

/-- C28: for every week returned by `generateCalendarStructure` and every
holiday list, `findConsecutiveHolidayWeeks` selects the week exactly when
`getConsecutiveHolidaySequences` returns at least one run for its days; the
in-month days of every returned week form one block, which is why the two
scans agree.  On the seven days of `brokenWeek`, where a day outside the month
stands between two in-month holidays, they disagree: the first selects the
week and the second returns no run. -/
theorem findConsecutiveHolidayWeeks_agrees_with_sequences (fuel : Nat) (env : Env)
    (year month : Int) (hs holidays : List Holiday) (ws : List Week)
    (h : generateCalendarStructure fuel env year month hs = some ws) :
    (∀ w ∈ ws, w ∈ findConsecutiveHolidayWeeks (some ws) holidays ↔
      getConsecutiveHolidaySequences (groupHolidaysByDate holidays) w.days ≠ []) ∧
    (∀ w ∈ ws, ContiguousFlags (w.days.map (fun day => day.isCurrentMonth))) ∧
    (brokenWeek ∈ findConsecutiveHolidayWeeks (some [brokenWeek])
        [⟨"2024-02-05", "a"⟩, ⟨"2024-02-07", "b"⟩] ∧
      getConsecutiveHolidaySequences
        (groupHolidaysByDate [⟨"2024-02-05", "a"⟩, ⟨"2024-02-07", "b"⟩]) brokenWeek.days = []) := by
  have hcont : ∀ w ∈ ws, ContiguousFlags (w.days.map (fun day => day.isCurrentMonth)) := by
    obtain ⟨t0, -, hw⟩ := generateCalendarStructure_shape h
    intro w hmem
    rw [hw] at hmem
    obtain ⟨i, -, rfl⟩ := mem_weeksFrom.mp hmem
    exact contiguous_weekAt env month _ _
  refine ⟨?_, hcont, by decide, by decide⟩
  intro w hw
  unfold findConsecutiveHolidayWeeks
  simp only [List.mem_filter, hw, true_and]
  exact scans_agree_on_contiguous _ w (hcont w hw)

/-- C28 at February 2024 with holidays on the 14th and the 15th. -/
theorem findConsecutiveHolidayWeeks_agrees_with_sequences_witness :
    generateCalendarStructure 6 utcEnv 2024 2 [⟨"2024-02-14", "a"⟩, ⟨"2024-02-15", "b"⟩] =
      some (weeksFrom utcEnv 2 ["2024-02-14", "2024-02-15"] (gridStart (effectiveYear 2024) 2)
        (gridRows (effectiveYear 2024) 2)) ∧
    (findConsecutiveHolidayWeeks
      (some (weeksFrom utcEnv 2 ["2024-02-14", "2024-02-15"] (gridStart (effectiveYear 2024) 2)
        (gridRows (effectiveYear 2024) 2)))
      [⟨"2024-02-14", "a"⟩, ⟨"2024-02-15", "b"⟩]).map (fun w => w.weekNumber) = [some 7] ∧
    (∀ w ∈ weeksFrom utcEnv 2 ["2024-02-14", "2024-02-15"] (gridStart (effectiveYear 2024) 2)
        (gridRows (effectiveYear 2024) 2),
      w ∈ findConsecutiveHolidayWeeks
        (some (weeksFrom utcEnv 2 ["2024-02-14", "2024-02-15"] (gridStart (effectiveYear 2024) 2)
          (gridRows (effectiveYear 2024) 2)))
        [⟨"2024-02-14", "a"⟩, ⟨"2024-02-15", "b"⟩] ↔
      getConsecutiveHolidaySequences
        (groupHolidaysByDate [⟨"2024-02-14", "a"⟩, ⟨"2024-02-15", "b"⟩]) w.days ≠ []) :=
  have h : generateCalendarStructure 6 utcEnv 2024 2
      [⟨"2024-02-14", "a"⟩, ⟨"2024-02-15", "b"⟩] =
      some (weeksFrom utcEnv 2 ["2024-02-14", "2024-02-15"] (gridStart (effectiveYear 2024) 2)
        (gridRows (effectiveYear 2024) 2)) :=
    generateCalendarStructure_eq utcEnv 6 2024 2 _ (by decide) (by decide) (by decide)
      (le_refl 6)
  ⟨h, by decide,
    (findConsecutiveHolidayWeeks_agrees_with_sequences 6 utcEnv 2024 2
      [⟨"2024-02-14", "a"⟩, ⟨"2024-02-15", "b"⟩] [⟨"2024-02-14", "a"⟩, ⟨"2024-02-15", "b"⟩]
      _ h).1⟩

end ConsecutiveHolidaysView

namespace HolidayService

/-! ## The builder in any time zone: days that begin at a local midnight -/

theorem zoned_localDay_midnight {z : Zone} {t : Int} (h : z.keepsMidnight t) :
    Zoned.localDay z (z.midnight t) = t := by
  unfold Zone.keepsMidnight at h
  unfold Zoned.localDay
  rw [h]
  omega

theorem zoned_localTime_mod {z : Zone} {t : Int} (h : z.keepsMidnight t) :
    Zoned.localTime z (z.midnight t) % 1440 = 0 := by
  unfold Zone.keepsMidnight at h
  rw [h]
  omega

/-- The cell pushed for a valid Date is the cell of its local day. -/
theorem zoned_cell (z : Zone) (today : String) (month : Int) (hd : List String) (u : Int) :
    (⟨Zoned.dateString z (some u), Zoned.getDate z (some u),
      decide (Zoned.getMonth z (some u) = some (month - 1)),
      decide (Zoned.dateString z (some u) ∈ hd),
      decide (Zoned.dateString z (some u) = today)⟩ : Day) =
      dayAt (envOn today) month hd (Zoned.localDay z u) := rfl

theorem zoned_getDay_midnight {z : Zone} {t : Int} (h : z.keepsMidnight t) :
    Zoned.getDay z (some (z.midnight t)) = some (weekDay t) := by
  simp only [Zoned.getDay, Option.map_some', zoned_localDay_midnight h]

theorem zoned_getMonth_midnight {z : Zone} {t : Int} (h : z.keepsMidnight t) :
    Zoned.getMonth z (some (z.midnight t)) = some (monthFromDay t) := by
  simp only [Zoned.getMonth, Option.map_some', zoned_localDay_midnight h]

theorem zoned_getDate_midnight {z : Zone} {t : Int} (h : z.keepsMidnight t) :
    Zoned.getDate z (some (z.midnight t)) = some (dateFromDay t) := by
  simp only [Zoned.getDate, Option.map_some', zoned_localDay_midnight h]

/-- From a local midnight `setDate` goes to the local midnight of the day it
names. -/
theorem zoned_setDate_midnight {z : Zone} {t : Int} (h : z.keepsMidnight t) (k : Int) :
    Zoned.setDate z (some (z.midnight t)) (some k) =
      Zoned.timeClip (z.midnight (t - dateFromDay t + k)) := by
  simp only [Zoned.setDate, zoned_localDay_midnight h, zoned_localTime_mod h, add_zero,
    makeDay_of_day]
  rfl

theorem zoned_setDate_next {z : Zone} {t : Int} (h : z.keepsMidnight t) :
    Zoned.setDate z (some (z.midnight t)) (jsAdd (Zoned.getDate z (some (z.midnight t))) (some 1)) =
      Zoned.timeClip (z.midnight (t + 1)) := by
  rw [zoned_getDate_midnight h]
  simp only [jsAdd]
  rw [zoned_setDate_midnight h]
  congr 2
  omega

theorem zoned_setDate_none (z : Zone) (n : JSNum) : Zoned.setDate z none n = none := by
  unfold Zoned.setDate; rfl

theorem zoned_timeClip_cases (u : Int) :
    Zoned.timeClip u = some u ∨ Zoned.timeClip u = none := by
  unfold Zoned.timeClip; split <;> simp

/-- Every day of a grid of a representable year is a valid Date in every
zone. -/
theorem zoned_timeClip_of_representable (z : Zone) {y : Int} (hy : representableYear y) {d : Int}
    (h1 : dayFromYear y - 6 ≤ d) (h2 : d ≤ dayFromYear (y + 1) + 6) :
    Zoned.timeClip (z.midnight d) = some (z.midnight d) := by
  have lo := z.local_lo (d * 1440)
  have hi := z.local_hi (d * 1440)
  unfold representableYear at hy
  have a := dayFromYear_mono hy.1
  have b := dayFromYear_mono (show y + 1 ≤ 275760 by omega)
  have ea : dayFromYear (-271820) = -99999744 := by decide
  have eb : dayFromYear 275760 = 99999744 := by decide
  unfold Zoned.timeClip Zone.midnight Zoned.utc
  rw [if_pos (by omega)]

theorem zoned_grid_day_valid (z : Zone) {y month : Int} (hy : representableYear y) (h1 : 1 ≤ month)
    (h2 : month ≤ 12) {d : Int} (a : firstOfMonth y month - 6 ≤ d)
    (b : d ≤ firstOfMonth y month + daysInMonth y month + 6) :
    Zoned.timeClip (z.midnight d) = some (z.midnight d) := by
  obtain ⟨f1, f2⟩ := firstOfMonth_bounds y h1 h2
  exact zoned_timeClip_of_representable z hy (by omega) (by omega)

theorem zoned_weekDaysLoop_none (z : Zone) (today : String) (month : Int) (hd : List String)
    (n : Nat) (week : List Day) (wd : List String) :
    (Zoned.weekDaysLoop z today month hd n none week wd).1 = none := by
  induction n generalizing week wd with
  | zero => rfl
  | succ n ih => simp only [Zoned.weekDaysLoop, zoned_setDate_none]; exact ih _ _

/-- The inner loop over days that begin at a local midnight pushes the cells
of those days. -/
theorem zoned_weekDaysLoop_valid (z : Zone) (today : String) (month : Int) (hd : List String)
    (n : Nat) (t : Int) (week : List Day) (wd : List String)
    (hk : ∀ j : Nat, j < n → z.keepsMidnight (t + j))
    (hv : ∀ j : Nat, 1 ≤ j → j ≤ n →
      Zoned.timeClip (z.midnight (t + j)) = some (z.midnight (t + j))) :
    Zoned.weekDaysLoop z today month hd n (some (z.midnight t)) week wd =
      (some (z.midnight (t + n)), week ++ daysFrom (envOn today) month hd t n,
        wd ++ (inMonthHolidays (daysFrom (envOn today) month hd t n)).map (fun d => d.date)) := by
  induction n generalizing t week wd with
  | zero => simp [Zoned.weekDaysLoop, daysFrom, inMonthHolidays]
  | succ n ih =>
    have hk0 : z.keepsMidnight t := by simpa using hk 0 (by omega)
    have h1 : Zoned.timeClip (z.midnight (t + 1)) = some (z.midnight (t + 1)) := by
      have := hv 1 (le_refl 1) (by omega)
      simpa using this
    have hk2 : ∀ j : Nat, j < n → z.keepsMidnight (t + 1 + j) := by
      intro j j2
      have := hk (j + 1) (by omega)
      have e : t + ((j + 1 : Nat) : Int) = t + 1 + j := by push_cast; omega
      rwa [e] at this
    have hv2 : ∀ j : Nat, 1 ≤ j → j ≤ n →
        Zoned.timeClip (z.midnight (t + 1 + j)) = some (z.midnight (t + 1 + j)) := by
      intro j j1 j2
      have := hv (j + 1) (by omega) (by omega)
      have e : t + ((j + 1 : Nat) : Int) = t + 1 + j := by push_cast; omega
      rwa [e] at this
    simp only [Zoned.weekDaysLoop, zoned_setDate_next hk0, h1, zoned_cell]
    rw [zoned_localDay_midnight hk0]
    have hday : Zoned.dateString z (some (z.midnight t)) = (dayAt (envOn today) month hd t).date := by
      have := congrArg Day.date (zoned_cell z today month hd (z.midnight t))
      rw [zoned_localDay_midnight hk0] at this
      exact this
    have hcm : decide (Zoned.getMonth z (some (z.midnight t)) = some (month - 1)) =
        (dayAt (envOn today) month hd t).isCurrentMonth := by
      have := congrArg Day.isCurrentMonth (zoned_cell z today month hd (z.midnight t))
      rw [zoned_localDay_midnight hk0] at this
      exact this
    have hho : decide (Zoned.dateString z (some (z.midnight t)) ∈ hd) =
        (dayAt (envOn today) month hd t).isHoliday := by
      have := congrArg Day.isHoliday (zoned_cell z today month hd (z.midnight t))
      rw [zoned_localDay_midnight hk0] at this
      exact this
    rw [hcm, hho, hday, ih (t + 1) _ _ hk2 hv2]
    have e : t + 1 + (n : Int) = t + ((n + 1 : Nat) : Int) := by push_cast; omega
    rw [e]
    simp only [daysFrom, inMonthHolidays_cons, List.append_assoc, List.singleton_append]
    split <;> simp

/-- When some day of the inner loop is not a valid Date the running date ends
as an Invalid Date. -/
theorem zoned_weekDaysLoop_invalid (z : Zone) (today : String) (month : Int) (hd : List String)
    (n : Nat) (t : Int) (week : List Day) (wd : List String)
    (hk : ∀ j : Nat, j < n → z.keepsMidnight (t + j))
    (hv : ¬ ∀ j : Nat, 1 ≤ j → j ≤ n →
      Zoned.timeClip (z.midnight (t + j)) = some (z.midnight (t + j))) :
    (Zoned.weekDaysLoop z today month hd n (some (z.midnight t)) week wd).1 = none := by
  induction n generalizing t week wd with
  | zero => exact absurd (fun j j1 j2 => absurd j2 (by omega)) hv
  | succ n ih =>
    have hk0 : z.keepsMidnight t := by simpa using hk 0 (by omega)
    simp only [Zoned.weekDaysLoop, zoned_setDate_next hk0]
    rcases zoned_timeClip_cases (z.midnight (t + 1)) with h1 | h1
    · rw [h1]
      apply ih
      · intro j j2
        have := hk (j + 1) (by omega)
        have e : t + ((j + 1 : Nat) : Int) = t + 1 + j := by push_cast; omega
        rwa [e] at this
      · intro hall
        apply hv
        intro j j1 j2
        rcases Nat.eq_or_lt_of_le j1 with e | l
        · subst e; simpa using h1
        · have := hall (j - 1) (by omega) (by omega)
          have e : t + 1 + ((j - 1 : Nat) : Int) = t + j := by omega
          rwa [e] at this
    · rw [h1]; exact zoned_weekDaysLoop_none _ _ _ _ _ _ _

theorem zoned_loopGuard_none (z : Zone) (lastDay : Option Int) (ws : List Week) :
    Zoned.loopGuard z lastDay none ws = true := by
  simp [Zoned.loopGuard, Zoned.getDay]

/-- From an Invalid Date the `while` loop never exits. -/
theorem zoned_whileLoop_none (z : Zone) (today : String) (month : Int) (lastDay : Option Int)
    (hd : List String) (fuel : Nat) (ws : List Week) :
    Zoned.whileLoop z today month lastDay hd fuel none ws = none := by
  induction fuel generalizing ws with
  | zero => simp [Zoned.whileLoop, zoned_loopGuard_none]
  | succ fuel ih =>
    simp only [Zoned.whileLoop, zoned_loopGuard_none, if_true]
    rw [zoned_weekDaysLoop_none]
    simp only [Zoned.getMonth, Option.map_none', jsGt]
    exact ih _

theorem zoned_week_of_valid (z : Zone) (today : String) (month : Int) (hd : List String) (t : Int)
    (hk : ∀ j : Nat, j < 7 → z.keepsMidnight (t + j))
    (hv : ∀ j : Nat, 1 ≤ j → j ≤ 7 →
      Zoned.timeClip (z.midnight (t + j)) = some (z.midnight (t + j))) :
    (⟨(Zoned.weekDaysLoop z today month hd 7 (some (z.midnight t)) [] []).2.1,
      (Zoned.weekDaysLoop z today month hd 7 (some (z.midnight t)) [] []).2.2.length,
      weekColorOf (Zoned.weekDaysLoop z today month hd 7 (some (z.midnight t)) [] []).2.2.length,
      Zoned.getWeekNumber z (Zoned.reparse z (some (z.midnight t)))⟩ : Week) =
        Zoned.weekAt z today month hd t ∧
    (Zoned.weekDaysLoop z today month hd 7 (some (z.midnight t)) [] []).1 =
      some (z.midnight (t + 7)) := by
  rw [zoned_weekDaysLoop_valid z today month hd 7 t [] [] hk hv]
  simp [Zoned.weekAt]

theorem regularOn_mono {z : Zone} {a b a1 b1 : Int} (h : z.regularOn a b) (ha : a ≤ a1)
    (hb : b1 ≤ b) : z.regularOn a1 b1 := by
  intro t t1 t2
  obtain ⟨k, o⟩ := h t (by omega) (by omega)
  exact ⟨k, fun hlt => o (by omega)⟩

/-- Local midnights come in the order of their days. -/
theorem midnight_lt {z : Zone} {a b : Int} (h : z.regularOn a b) {s l : Int} (hs : a ≤ s)
    (hsl : s < l) (hl : l ≤ b) : z.midnight s < z.midnight l := by
  obtain ⟨n, rfl⟩ : ∃ n : Nat, l = s + 1 + n := ⟨(l - s - 1).toNat, by omega⟩
  induction n with
  | zero =>
    have := (h s hs (by omega)).2 (by omega)
    simpa using this
  | succ n ih =>
    have h1 := ih (by omega) (by push_cast at hl ⊢; omega)
    have h2 := (h (s + 1 + n) (by omega) (by push_cast at hl ⊢; omega)).2
      (by push_cast at hl ⊢; omega)
    have e : s + 1 + ((n + 1 : Nat) : Int) = s + 1 + n + 1 := by push_cast; omega
    rw [e]
    omega

theorem midnight_le_iff {z : Zone} {a b : Int} (h : z.regularOn a b) {s l : Int} (hs : a ≤ s)
    (hs2 : s ≤ b) (hl : a ≤ l) (hl2 : l ≤ b) : z.midnight s ≤ z.midnight l ↔ s ≤ l := by
  constructor
  · intro hle
    by_contra hn
    have := midnight_lt h hl (by omega : l < s) hs2
    omega
  · intro hle
    rcases eq_or_lt_of_le hle with e | l1
    · rw [e]
    · exact le_of_lt (midnight_lt h hs l1 hl2)

end HolidayService

namespace HolidayService

theorem zoned_weekAt_days (z : Zone) (today : String) (m : Int) (hd : List String) (t : Int) :
    (Zoned.weekAt z today m hd t).days = daysFrom (envOn today) m hd t 7 := rfl

theorem zoned_weekAt_cells (z : Zone) (today : String) (m : Int) (hd : List String) (t : Int) :
    (Zoned.weekAt z today m hd t).cells = (weekAt (envOn today) m hd t).cells := rfl

/-- The rows of the zoned closed form have the cells, counts and colours of the
rows of the fixed-offset closed form. -/
theorem zoned_weeksFrom_cells (z : Zone) (today : String) (m : Int) (hd : List String) (t : Int)
    (r : Nat) :
    (Zoned.weeksFrom z today m hd t r).map Week.cells =
      (weeksFrom (envOn today) m hd t r).map Week.cells := by
  induction r generalizing t with
  | zero => rfl
  | succ r ih => simp only [Zoned.weeksFrom, weeksFrom, List.map_cons, ih, zoned_weekAt_cells]

theorem zoned_weeksFrom_length (z : Zone) (today : String) (m : Int) (hd : List String) (t : Int)
    (r : Nat) : (Zoned.weeksFrom z today m hd t r).length = r := by
  induction r generalizing t with
  | zero => rfl
  | succ r ih => simp [Zoned.weeksFrom, ih]

theorem allDays_of_cells {ws ws1 : List Week} (h : ws.map Week.cells = ws1.map Week.cells) :
    allDays ws = allDays ws1 := by
  have := congrArg (List.map (fun c : List Day × Nat × String => c.1)) h
  simp only [List.map_map] at this
  unfold allDays
  rw [List.flatMap_def, List.flatMap_def]
  exact congrArg List.flatten this

theorem zoned_allDays_weeksFrom (z : Zone) (today : String) (m : Int) (hd : List String) (t : Int)
    (r : Nat) :
    allDays (Zoned.weeksFrom z today m hd t r) = daysFrom (envOn today) m hd t (7 * r) := by
  rw [allDays_of_cells (zoned_weeksFrom_cells z today m hd t r), allDays_weeksFrom]

theorem zoned_mem_weeksFrom {z : Zone} {today : String} {m : Int} {hd : List String} {t : Int}
    {r : Nat} {w : Week} :
    w ∈ Zoned.weeksFrom z today m hd t r ↔
      ∃ i : Nat, i < r ∧ w = Zoned.weekAt z today m hd (t + 7 * i) := by
  induction r generalizing t with
  | zero => simp [Zoned.weeksFrom]
  | succ r ih =>
    simp only [Zoned.weeksFrom, List.mem_cons, ih]
    constructor
    · rintro (h | ⟨i, hi, h⟩)
      · exact ⟨0, by omega, by simpa using h⟩
      · refine ⟨i + 1, by omega, ?_⟩
        have e : t + 7 * ((i + 1 : Nat) : Int) = t + 7 + 7 * i := by push_cast; omega
        rw [e]; exact h
    · rintro ⟨i, hi, h⟩
      cases i with
      | zero => left; simpa using h
      | succ i =>
        right
        refine ⟨i, by omega, ?_⟩
        have e : t + 7 * ((i + 1 : Nat) : Int) = t + 7 + 7 * i := by push_cast; omega
        rw [e] at h; exact h

theorem zoned_weeksFrom_snoc (z : Zone) (today : String) (m : Int) (hd : List String) (t : Int)
    (r : Nat) :
    Zoned.weeksFrom z today m hd t (r + 1) =
      Zoned.weeksFrom z today m hd t r ++ [Zoned.weekAt z today m hd (t + 7 * r)] := by
  induction r generalizing t with
  | zero => simp [Zoned.weeksFrom]
  | succ r ih =>
    rw [Zoned.weeksFrom, ih (t + 7)]
    have e : t + 7 + 7 * (r : Int) = t + 7 * ((r + 1 : Nat) : Int) := by push_cast; omega
    rw [e]
    rfl

theorem zoned_weeksFrom_getLast (z : Zone) (today : String) (m : Int) (hd : List String)
    (t : Int) (r : Nat) :
    (Zoned.weeksFrom z today m hd t (r + 1)).getLast? =
      some (Zoned.weekAt z today m hd (t + 7 * r)) := by
  rw [zoned_weeksFrom_snoc]; simp

theorem zoned_weeksFrom_head (z : Zone) (today : String) (m : Int) (hd : List String) (t : Int)
    (r : Nat) :
    (Zoned.weeksFrom z today m hd t (r + 1)).head? = some (Zoned.weekAt z today m hd t) := rfl

/-- The guard of the loop between two local midnights. -/
theorem zoned_loopGuard_midnight {z : Zone} {a b : Int} (h : z.regularOn a b) {s l : Int}
    (hs : a ≤ s) (hs2 : s ≤ b) (hl : a ≤ l) (hl2 : l ≤ b) (ws : List Week) :
    Zoned.loopGuard z (some (z.midnight l)) (some (z.midnight s)) ws =
      (decide (s ≤ l) || decide (ws.length = 0) || decide (weekDay s ≠ 1)) := by
  unfold Zoned.loopGuard
  rw [zoned_getDay_midnight (h s hs hs2).1]
  simp only [jsLe, midnight_le_iff h hs hs2 hl hl2, ne_eq, Option.some.injEq]

/-- The `while` loop run over `r + 1` rows that end with the row of the last
day of the month, in a zone whose days begin at local midnights. -/
theorem zoned_whileLoop_run (z : Zone) (today : String) (month : Int) (hd : List String)
    (first last : Int)
    (hmid : ∀ d, first ≤ d → d ≤ last → monthFromDay d = month - 1)
    (r : Nat) (fuel : Nat) (s : Int) (ws : List Week) (a : Int)
    (hfuel : r + 1 ≤ fuel)
    (hreg : z.regularOn a (s + 7 * (r + 1))) (ha : a ≤ s) (hal : a ≤ last)
    (hv : ∀ j : Nat, 1 ≤ j → j ≤ 7 * (r + 1) →
      Zoned.timeClip (z.midnight (s + j)) = some (z.midnight (s + j)))
    (hmon : weekDay s = 1) (hfirst : first ≤ s + 7)
    (hlo : s + 7 * r ≤ last) (hhi : last < s + 7 * (r + 1)) :
    Zoned.whileLoop z today month (some (z.midnight last)) hd fuel (some (z.midnight s)) ws =
      some (ws ++ Zoned.weeksFrom z today month hd s (r + 1)) := by
  induction r generalizing fuel s ws with
  | zero =>
    obtain ⟨f, rfl⟩ : ∃ f, fuel = f + 1 := ⟨fuel - 1, by omega⟩
    have hg : Zoned.loopGuard z (some (z.midnight last)) (some (z.midnight s)) ws = true := by
      rw [zoned_loopGuard_midnight hreg ha (by omega) hal (by omega)]
      simp only [Bool.or_eq_true, decide_eq_true_eq]
      left; left; omega
    obtain ⟨hw, hs⟩ := zoned_week_of_valid z today month hd s
      (fun j j2 => (hreg (s + j) (by omega) (by omega)).1) (fun j j1 j2 => hv j j1 (by omega))
    simp only [Zoned.whileLoop, hg, if_true]
    rw [hw, hs]
    have hg2 : Zoned.loopGuard z (some (z.midnight last)) (some (z.midnight (s + 7)))
        (ws ++ [Zoned.weekAt z today month hd s]) = false := by
      have : weekDay (s + 7) = 1 := by unfold weekDay at *; omega
      rw [zoned_loopGuard_midnight hreg (by omega) (by omega) hal (by omega)]
      simp only [this]
      simp
      omega
    split
    · simp [Zoned.weeksFrom]
    · cases f with
      | zero => simp [Zoned.whileLoop, hg2, Zoned.weeksFrom]
      | succ f => simp [Zoned.whileLoop, hg2, Zoned.weeksFrom]
  | succ r ih =>
    obtain ⟨f, rfl⟩ : ∃ f, fuel = f + 1 := ⟨fuel - 1, by omega⟩
    have hg : Zoned.loopGuard z (some (z.midnight last)) (some (z.midnight s)) ws = true := by
      rw [zoned_loopGuard_midnight hreg ha (by push_cast; omega) hal (by omega)]
      simp only [Bool.or_eq_true, decide_eq_true_eq]
      left; left; push_cast at hlo; omega
    obtain ⟨hw, hs⟩ := zoned_week_of_valid z today month hd s
      (fun j j2 => (hreg (s + j) (by omega) (by push_cast; omega)).1)
      (fun j j1 j2 => hv j j1 (by omega))
    simp only [Zoned.whileLoop, hg, if_true]
    rw [hw, hs]
    have hm : monthFromDay (s + 7) = month - 1 :=
      hmid _ (by omega) (by push_cast at hlo; omega)
    have hb : jsGt (Zoned.getMonth z (some (z.midnight (s + 7)))) (some (month - 1)) = false := by
      rw [zoned_getMonth_midnight (hreg (s + 7) (by omega) (by push_cast; omega)).1]
      simp [jsGt, hm]
    rw [hb]
    simp only [Bool.false_eq_true, if_false]
    rw [ih f (s + 7) _ (by omega) ?_ (by omega) ?_ (by unfold weekDay at *; omega) (by omega)
      (by push_cast at hlo ⊢; omega) (by push_cast at hhi ⊢; omega)]
    · simp [Zoned.weeksFrom]
    · have e : s + 7 + 7 * (((r : Nat) : Int) + 1) = s + 7 * (((r + 1 : Nat) : Int) + 1) := by
        push_cast; omega
      rw [e]; exact hreg
    · intro j j1 j2
      have := hv (j + 7) (by omega) (by omega)
      have e : s + ((j + 7 : Nat) : Int) = s + 7 + j := by push_cast; omega
      rwa [e] at this

theorem zoned_generateCalendarStructure_def (fuel : Nat) (z : Zone) (today : String)
    (year month : Int) (hs : List Holiday) :
    Zoned.generateCalendarStructure fuel z today year month hs =
      Zoned.whileLoop z today month (Zoned.newDate z year month 0) (hs.map (fun h => h.date)) fuel
        (Zoned.gridStartDate z year month) [] := rfl

theorem zoned_newDate_eq (z : Zone) (year m d : Int) :
    Zoned.newDate z year m d = Zoned.timeClip (z.midnight (makeDay (effectiveYear year) m d)) := rfl

/-- The start date in a zone where the first of the month begins at a local
midnight: the local midnight of the Monday on or before it, when that is a
valid Date. -/
theorem zoned_gridStartDate_eq (z : Zone) (year month : Int) (h1 : 1 ≤ month) (h2 : month ≤ 12)
    (hF : z.keepsMidnight (firstOfMonth (effectiveYear year) month))
    (hv : Zoned.timeClip (z.midnight (firstOfMonth (effectiveYear year) month)) =
      some (z.midnight (firstOfMonth (effectiveYear year) month))) :
    Zoned.gridStartDate z year month =
      Zoned.timeClip (z.midnight (gridStart (effectiveYear year) month)) := by
  obtain ⟨b1, b2⟩ := daysInMonth_bounds (effectiveYear year) month
  obtain ⟨-, -, hd⟩ := civil_in_month (effectiveYear year) h1 h2 (le_refl 0)
    (by omega : (0 : Int) < daysInMonth (effectiveYear year) month)
  simp only [add_zero] at hd
  unfold Zoned.gridStartDate
  rw [zoned_newDate_eq, makeDay_first _ h1 h2, hv, zoned_getDay_midnight hF]
  have hk : (if (some (weekDay (firstOfMonth (effectiveYear year) month)) : JSNum) = some 0
        then (some 6 : JSNum)
        else jsSub (some (weekDay (firstOfMonth (effectiveYear year) month))) (some 1)) =
      some (isoWeekday (firstOfMonth (effectiveYear year) month) - 1) := by
    unfold isoWeekday
    simp only [Option.some.injEq, jsSub]
    split <;> simp
  rw [hk]
  simp only [jsSub]
  rw [zoned_setDate_midnight hF, hd]
  congr 2
  unfold gridStart
  omega

/-- For a representable year and a month in 1..12, in a zone in which every
day from the Monday that opens the grid to the Monday after its last row
begins at a local midnight, the builder returns, with six units of fuel, the
rows from that Monday through the row of the last day of the month. -/
theorem zoned_generateCalendarStructure_eq (z : Zone) (today : String) (fuel : Nat)
    (year month : Int) (hs : List Holiday) (hy : representableYear year) (h1 : 1 ≤ month)
    (h2 : month ≤ 12) (hf : 6 ≤ fuel)
    (hreg : z.regularOn (gridStart (effectiveYear year) month)
      (gridStart (effectiveYear year) month + 7 * gridRows (effectiveYear year) month)) :
    Zoned.generateCalendarStructure fuel z today year month hs =
      some (Zoned.weeksFrom z today month (hs.map (fun h => h.date))
        (gridStart (effectiveYear year) month) (gridRows (effectiveYear year) month)) := by
  have hy2 := effectiveYear_representable hy
  obtain ⟨b1, b2⟩ := daysInMonth_bounds (effectiveYear year) month
  obtain ⟨gm, g1, g2⟩ := gridStart_props (effectiveYear year) month
  obtain ⟨r1, r2, r3, r4⟩ := gridRows_props (effectiveYear year) month
  have hFk : z.keepsMidnight (firstOfMonth (effectiveYear year) month) :=
    (hreg _ g1 (by omega)).1
  have hFv := zoned_grid_day_valid z hy2 h1 h2 (d := firstOfMonth (effectiveYear year) month)
    (by omega) (by omega)
  have hL : Zoned.newDate z year month 0 =
      some (z.midnight (firstOfMonth (effectiveYear year) month +
        daysInMonth (effectiveYear year) month - 1)) := by
    rw [zoned_newDate_eq, makeDay_last _ h1 h2]
    exact zoned_grid_day_valid z hy2 h1 h2 (by omega) (by omega)
  rw [zoned_generateCalendarStructure_def, hL, zoned_gridStartDate_eq z year month h1 h2 hFk hFv,
    zoned_grid_day_valid z hy2 h1 h2 (by omega) (by omega)]
  obtain ⟨r, hr⟩ : ∃ r, gridRows (effectiveYear year) month = r + 1 :=
    ⟨gridRows (effectiveYear year) month - 1, by omega⟩
  rw [hr] at r3 r4 hreg ⊢
  have := zoned_whileLoop_run z today month (hs.map (fun h => h.date))
    (firstOfMonth (effectiveYear year) month)
    (firstOfMonth (effectiveYear year) month + daysInMonth (effectiveYear year) month - 1)
    (fun d d1 d2 => by
      have := (civil_in_month (effectiveYear year) h1 h2
        (k := d - firstOfMonth (effectiveYear year) month) (by omega) (by omega)).2.1
      simpa using this)
    r fuel (gridStart (effectiveYear year) month) [] (gridStart (effectiveYear year) month)
    (by omega) (by push_cast at hreg ⊢; exact hreg) (le_refl _) (by omega)
    (fun j j1 j2 => zoned_grid_day_valid z hy2 h1 h2 (by omega) (by push_cast at r3; omega))
    gm (by omega) (by push_cast at r3; omega) (by push_cast at r4 ⊢; omega)
  simpa using this

end HolidayService

namespace HolidayService

/-! ## A zone with one offset: the zoned builder is the fixed-offset builder -/

theorem fixed_keepsMidnight (k : Int) (lo : -1440 < k) (hi : k < 1440) (t : Int) :
    (Zone.fixed k lo hi).keepsMidnight t := by
  unfold Zone.keepsMidnight Zone.midnight Zoned.localTime Zoned.utc Zone.fixed
  simp

/-- In a zone with one offset every day begins at a local midnight. -/
theorem fixed_regularOn (k : Int) (lo : -1440 < k) (hi : k < 1440) (a b : Int) :
    (Zone.fixed k lo hi).regularOn a b := by
  intro t _ _
  refine ⟨fixed_keepsMidnight k lo hi t, fun _ => ?_⟩
  unfold Zone.midnight Zoned.utc Zone.fixed
  simp only
  omega

theorem env_zone_midnight (env : Env) (t : Int) : env.zone.midnight t = t * 1440 - env.tzOffset :=
  rfl

theorem env_zone_keepsMidnight (env : Env) (t : Int) : env.zone.keepsMidnight t :=
  fixed_keepsMidnight _ _ _ t

theorem zoned_fixed_timeClip (env : Env) (d : Int) :
    Zoned.timeClip (env.zone.midnight d) = (timeClip env d).map env.zone.midnight := by
  unfold Zoned.timeClip timeClip
  rw [env_zone_midnight]
  split <;> simp [env_zone_midnight]

theorem zoned_fixed_newDate (env : Env) (y m d : Int) :
    Zoned.newDate env.zone y m d = (newDate env y m d).map env.zone.midnight := by
  rw [zoned_newDate_eq, newDate_eq, zoned_fixed_timeClip]

theorem zoned_fixed_getMonth (env : Env) (x : JSDate) :
    Zoned.getMonth env.zone (x.map env.zone.midnight) = getMonth x := by
  cases x with
  | none => rfl
  | some t => simp only [Option.map_some', zoned_getMonth_midnight (env_zone_keepsMidnight env t),
      getMonth]

theorem zoned_fixed_getDate (env : Env) (x : JSDate) :
    Zoned.getDate env.zone (x.map env.zone.midnight) = getDate x := by
  cases x with
  | none => rfl
  | some t => simp only [Option.map_some', zoned_getDate_midnight (env_zone_keepsMidnight env t),
      getDate]

theorem zoned_fixed_getDay (env : Env) (x : JSDate) :
    Zoned.getDay env.zone (x.map env.zone.midnight) = getDay x := by
  cases x with
  | none => rfl
  | some t => simp only [Option.map_some', zoned_getDay_midnight (env_zone_keepsMidnight env t),
      getDay]

theorem zoned_fixed_dateString (env : Env) (x : JSDate) :
    Zoned.dateString env.zone (x.map env.zone.midnight) = dateString x := by
  cases x with
  | none => rfl
  | some t =>
    have := congrArg Day.date (zoned_cell env.zone "" 0 [] (env.zone.midnight t))
    rw [zoned_localDay_midnight (env_zone_keepsMidnight env t)] at this
    exact this

theorem zoned_fixed_setDate (env : Env) (x : JSDate) (n : JSNum) :
    Zoned.setDate env.zone (x.map env.zone.midnight) n = (setDate env x n).map env.zone.midnight := by
  cases x with
  | none => cases n <;> rfl
  | some t =>
    cases n with
    | none => rfl
    | some k =>
      simp only [Option.map_some']
      rw [zoned_setDate_midnight (env_zone_keepsMidnight env t), zoned_fixed_timeClip]
      simp only [setDate, makeDay_of_day]

theorem zoned_fixed_jsLe (env : Env) (a b : JSDate) :
    jsLe (a.map env.zone.midnight) (b.map env.zone.midnight) = jsLe a b := by
  cases a with
  | none => rfl
  | some s =>
    cases b with
    | none => rfl
    | some l =>
      simp only [Option.map_some', jsLe, env_zone_midnight, decide_eq_decide]
      omega

theorem zoned_fixed_reparse (env : Env) (x : JSDate) :
    Zoned.reparse env.zone (x.map env.zone.midnight) = reparse x := by
  cases x with
  | none => rfl
  | some t =>
    simp only [Option.map_some', Zoned.reparse, reparse,
      zoned_localDay_midnight (env_zone_keepsMidnight env t)]

theorem zoned_fixed_localDay (env : Env) (u : Int) :
    Zoned.localDay env.zone u = (u + env.tzOffset) / 1440 := rfl

theorem zoned_fixed_getWeekNumber (env : Env) (date : Option Int) :
    Zoned.getWeekNumber env.zone date = getWeekNumber env date := by
  cases date with
  | none => rfl
  | some u =>
    unfold Zoned.getWeekNumber getWeekNumber
    simp only [zoned_fixed_newDate, zoned_fixed_localDay]
    cases newDate env (yearFromDay ((u + env.tzOffset) / 1440)) 0 1 with
    | none => rfl
    | some j =>
      simp only [Option.map_some', Option.some.injEq]
      have e : (env.zone.midnight j + env.tzOffset) / 1440 = j := by
        rw [env_zone_midnight]; omega
      rw [e, env_zone_midnight]

/-- The inner loop in a zone with one offset. -/
theorem zoned_fixed_weekDaysLoop (env : Env) (month : Int) (hd : List String) (n : Nat)
    (x : JSDate) (week : List Day) (wd : List String) :
    Zoned.weekDaysLoop env.zone env.today month hd n (x.map env.zone.midnight) week wd =
      ((weekDaysLoop env month hd n x week wd).1.map env.zone.midnight,
        (weekDaysLoop env month hd n x week wd).2.1, (weekDaysLoop env month hd n x week wd).2.2) := by
  induction n generalizing x week wd with
  | zero => rfl
  | succ n ih =>
    simp only [Zoned.weekDaysLoop, weekDaysLoop, zoned_fixed_dateString, zoned_fixed_getDate,
      zoned_fixed_getMonth, zoned_fixed_setDate, ih]

theorem zoned_fixed_loopGuard (env : Env) (l s : JSDate) (ws : List Week) :
    Zoned.loopGuard env.zone (l.map env.zone.midnight) (s.map env.zone.midnight) ws =
      loopGuard l s ws := by
  unfold Zoned.loopGuard loopGuard
  rw [zoned_fixed_jsLe, zoned_fixed_getDay]

theorem zoned_fixed_whileLoop (env : Env) (month : Int) (l : JSDate) (hd : List String)
    (fuel : Nat) (s : JSDate) (ws : List Week) :
    Zoned.whileLoop env.zone env.today month (l.map env.zone.midnight) hd fuel
      (s.map env.zone.midnight) ws = whileLoop env month l hd fuel s ws := by
  induction fuel generalizing s ws with
  | zero => simp only [Zoned.whileLoop, whileLoop, zoned_fixed_loopGuard]
  | succ fuel ih =>
    simp only [Zoned.whileLoop, whileLoop, zoned_fixed_loopGuard, zoned_fixed_weekDaysLoop,
      zoned_fixed_getMonth, zoned_fixed_reparse, zoned_fixed_getWeekNumber, ih]

/-- On a server whose zone keeps one offset the zoned builder is the
fixed-offset builder: for every input they return the same rows, and neither
returns when the other does not. -/
theorem zoned_generateCalendarStructure_fixed (env : Env) (fuel : Nat) (year month : Int)
    (hs : List Holiday) :
    Zoned.generateCalendarStructure fuel env.zone env.today year month hs =
      generateCalendarStructure fuel env year month hs := by
  unfold Zoned.generateCalendarStructure generateCalendarStructure
  simp only [zoned_fixed_newDate, zoned_fixed_getDay, zoned_fixed_setDate, zoned_fixed_whileLoop]

end HolidayService

namespace HolidayService

/-! ## What the zoned builder returns -/

/-- The `while` loop only adds rows, and adds at least one when its guard
holds. -/
theorem zoned_whileLoop_length (z : Zone) (today : String) (month : Int) (lastDay : Option Int)
    (hd : List String) (fuel : Nat) (sd : Option Int) (ws out : List Week)
    (h : Zoned.whileLoop z today month lastDay hd fuel sd ws = some out) :
    ws.length ≤ out.length ∧
      (Zoned.loopGuard z lastDay sd ws = true → ws.length + 1 ≤ out.length) := by
  induction fuel generalizing sd ws with
  | zero =>
    simp only [Zoned.whileLoop] at h
    split at h
    · exact absurd h (by simp)
    · rename_i hg
      have := Option.some.inj h
      subst this
      exact ⟨le_refl _, fun hg2 => absurd hg2 hg⟩
  | succ fuel ih =>
    simp only [Zoned.whileLoop] at h
    split at h
    · split at h
      · have := Option.some.inj h
        subst this
        simp
      · have := (ih _ _ h).1
        simp only [List.length_append, List.length_singleton] at this
        exact ⟨by omega, fun _ => this⟩
    · rename_i hg
      have := Option.some.inj h
      subst this
      exact ⟨le_refl _, fun hg2 => absurd hg2 hg⟩

/-- Whatever the `while` loop returns from a local midnight, in a zone in which
the days of the rows it adds begin at local midnights, is the rows of
successive weeks. -/
theorem zoned_whileLoop_shape (z : Zone) (today : String) (month : Int) (lastDay : Option Int)
    (hd : List String) (fuel : Nat) (s : Int) (ws out : List Week)
    (h : Zoned.whileLoop z today month lastDay hd fuel (some (z.midnight s)) ws = some out)
    (L : Nat) (hL : out.length = ws.length + L) (hreg : z.regularOn s (s + 7 * L)) :
    out = ws ++ Zoned.weeksFrom z today month hd s L := by
  induction fuel generalizing s ws L with
  | zero =>
    simp only [Zoned.whileLoop] at h
    split at h
    · exact absurd h (by simp)
    · have := Option.some.inj h
      subst this
      have : L = 0 := by omega
      subst this
      simp [Zoned.weeksFrom]
  | succ fuel ih =>
    have hlen := zoned_whileLoop_length z today month lastDay hd (fuel + 1) _ ws out h
    simp only [Zoned.whileLoop] at h
    split at h
    · rename_i hg
      have h1 := hlen.2 hg
      obtain ⟨L1, rfl⟩ : ∃ L1, L = L1 + 1 := ⟨L - 1, by omega⟩
      have hk : ∀ j : Nat, j < 7 → z.keepsMidnight (s + j) :=
        fun j j2 => (hreg (s + j) (by omega) (by push_cast; omega)).1
      by_cases hv : ∀ j : Nat, 1 ≤ j → j ≤ 7 →
          Zoned.timeClip (z.midnight (s + j)) = some (z.midnight (s + j))
      · obtain ⟨hw, hs⟩ := zoned_week_of_valid z today month hd s hk hv
        rw [hw, hs] at h
        split at h
        · have := Option.some.inj h
          subst this
          have : L1 = 0 := by
            simp only [List.length_append, List.length_singleton] at hL
            omega
          subst this
          simp [Zoned.weeksFrom]
        · have := ih (s + 7) _ h L1 (by
            simp only [List.length_append, List.length_singleton] at hL ⊢; omega)
            (regularOn_mono hreg (by omega) (by push_cast; omega))
          rw [this]
          simp [Zoned.weeksFrom]
      · have hn := zoned_weekDaysLoop_invalid z today month hd 7 s [] [] hk hv
        rw [hn] at h
        simp only [Zoned.getMonth, Option.map_none', jsGt] at h
        rw [zoned_whileLoop_none] at h
        exact absurd h (by simp)
    · have := Option.some.inj h
      subst this
      have : L = 0 := by omega
      subst this
      simp [Zoned.weeksFrom]

/-- Whatever the builder returns for a month in 1..12, in a zone in which the
days of the returned rows and of the day after them begin at local midnights,
is the rows of successive weeks from the Monday on or before the first of the
month. -/
theorem zoned_generateCalendarStructure_shape {fuel : Nat} {z : Zone} {today : String}
    {year month : Int} {hs : List Holiday} {ws : List Week} (h1 : 1 ≤ month) (h2 : month ≤ 12)
    (h : Zoned.generateCalendarStructure fuel z today year month hs = some ws)
    (hreg : z.regularOn (gridStart (effectiveYear year) month)
      (gridStart (effectiveYear year) month + 7 * ws.length)) :
    ws = Zoned.weeksFrom z today month (hs.map (fun h => h.date))
      (gridStart (effectiveYear year) month) ws.length := by
  obtain ⟨gm, g1, g2⟩ := gridStart_props (effectiveYear year) month
  rw [zoned_generateCalendarStructure_def] at h
  have hlen := (zoned_whileLoop_length _ _ _ _ _ _ _ _ _ h).2 (by simp [Zoned.loopGuard])
  simp only [List.length_nil, zero_add] at hlen
  have hFk : z.keepsMidnight (firstOfMonth (effectiveYear year) month) :=
    (hreg _ g1 (by omega)).1
  rcases zoned_timeClip_cases (z.midnight (firstOfMonth (effectiveYear year) month)) with hv | hv
  · rw [zoned_gridStartDate_eq z year month h1 h2 hFk hv] at h
    rcases zoned_timeClip_cases (z.midnight (gridStart (effectiveYear year) month)) with hg | hg
    · rw [hg] at h
      have := zoned_whileLoop_shape _ _ _ _ _ _ _ _ _ h ws.length (by simp) hreg
      simpa using this
    · rw [hg, zoned_whileLoop_none] at h
      exact absurd h (by simp)
  · have : Zoned.gridStartDate z year month = none := by
      unfold Zoned.gridStartDate
      rw [zoned_newDate_eq, makeDay_first _ h1 h2, hv]
      exact zoned_setDate_none _ _
    rw [this, zoned_whileLoop_none] at h
    exact absurd h (by simp)

/-- The cells the inner loop pushes while the date stays valid are cells of
calendar days. -/
theorem zoned_weekDaysLoop_cells (z : Zone) (today : String) (month : Int) (hd : List String)
    (n : Nat) (sd : Option Int) (week : List Day) (wd : List String)
    (h : (Zoned.weekDaysLoop z today month hd n sd week wd).1 ≠ none) :
    ∀ d ∈ (Zoned.weekDaysLoop z today month hd n sd week wd).2.1,
      d ∈ week ∨ ∃ t, d = dayAt (envOn today) month hd t := by
  induction n generalizing sd week wd with
  | zero => intro d hd2; exact Or.inl hd2
  | succ n ih =>
    cases sd with
    | none => exact absurd (zoned_weekDaysLoop_none z today month hd (n + 1) week wd) h
    | some u =>
      simp only [Zoned.weekDaysLoop, zoned_cell] at h ⊢
      intro d hd2
      rcases ih _ _ _ h d hd2 with hm | ht
      · rcases List.mem_append.mp hm with a | b
        · exact Or.inl a
        · exact Or.inr ⟨Zoned.localDay z u, by simpa using b⟩
      · exact Or.inr ht

/-- Every row the `while` loop adds to what it returns is made of cells of
calendar days. -/
theorem zoned_whileLoop_cells (z : Zone) (today : String) (month : Int) (lastDay : Option Int)
    (hd : List String) (fuel : Nat) (sd : Option Int) (ws out : List Week)
    (h : Zoned.whileLoop z today month lastDay hd fuel sd ws = some out) :
    ∀ w ∈ out, w ∈ ws ∨ ∀ d ∈ w.days, ∃ t, d = dayAt (envOn today) month hd t := by
  induction fuel generalizing sd ws with
  | zero =>
    simp only [Zoned.whileLoop] at h
    split at h
    · exact absurd h (by simp)
    · have := Option.some.inj h
      subst this
      exact fun w hw => Or.inl hw
  | succ fuel ih =>
    simp only [Zoned.whileLoop] at h
    split at h
    · have key : (Zoned.weekDaysLoop z today month hd 7 sd [] []).1 ≠ none →
          ∀ d ∈ (Zoned.weekDaysLoop z today month hd 7 sd [] []).2.1,
            ∃ t, d = dayAt (envOn today) month hd t := by
        intro hne d hd2
        rcases zoned_weekDaysLoop_cells z today month hd 7 sd [] [] hne d hd2 with a | b
        · exact absurd a (by simp)
        · exact b
      split at h
      · rename_i hb
        have hne : (Zoned.weekDaysLoop z today month hd 7 sd [] []).1 ≠ none := by
          intro e
          rw [e] at hb
          simp [Zoned.getMonth, jsGt] at hb
        have := Option.some.inj h
        subst this
        intro w hw
        rcases List.mem_append.mp hw with a | b
        · exact Or.inl a
        · right
          rw [List.mem_singleton.mp b]
          exact key hne
      · have hne : (Zoned.weekDaysLoop z today month hd 7 sd [] []).1 ≠ none := by
          intro e
          rw [e, zoned_whileLoop_none] at h
          exact absurd h (by simp)
        intro w hw
        rcases ih _ _ h w hw with a | b
        · rcases List.mem_append.mp a with a1 | b1
          · exact Or.inl a1
          · right
            rw [List.mem_singleton.mp b1]
            exact key hne
        · exact Or.inr b
    · have := Option.some.inj h
      subst this
      exact fun w hw => Or.inl hw

/-- In every zone, every cell of every grid the builder returns is the cell of
a calendar day. -/
theorem zoned_cells_of_returned {fuel : Nat} {z : Zone} {today : String} {year month : Int}
    {hs : List Holiday} {ws : List Week}
    (h : Zoned.generateCalendarStructure fuel z today year month hs = some ws) :
    ∀ d ∈ allDays ws, ∃ t, d = dayAt (envOn today) month (hs.map (fun h => h.date)) t := by
  rw [zoned_generateCalendarStructure_def] at h
  intro d hd
  unfold allDays at hd
  obtain ⟨w, hw, hdw⟩ := List.mem_flatMap.mp hd
  rcases zoned_whileLoop_cells _ _ _ _ _ _ _ _ _ h w hw with a | b
  · exact absurd a (by simp)
  · exact b d hdw

end HolidayService

namespace HolidayService

/-! ## The two zones of the examples -/

theorem santiago_midnight (t : Int) :
    santiago.midnight t = t * 1440 - (if t * 1440 < 28762620 then -240 else -180) := by
  have hF : firstOfMonth 2024 9 = 19967 := by decide
  unfold Zone.midnight Zoned.utc santiago Zone.changing
  simp only [hF]
  norm_num

theorem santiago_localTime (u : Int) :
    Zoned.localTime santiago u = u + (if u < 28762800 then -240 else -180) := by
  have hF : firstOfMonth 2024 9 = 19967 := by decide
  unfold Zoned.localTime santiago Zone.changing
  simp only [hF]
  norm_num

/-- In the zone of the example every day from 9 September 2024 on begins at a
local midnight. -/
theorem santiago_regularOn_after (a b : Int) (h : 19975 ≤ a) : santiago.regularOn a b := by
  intro t t1 t2
  unfold Zone.keepsMidnight
  rw [santiago_midnight, santiago_midnight, santiago_localTime]
  refine ⟨?_, fun _ => ?_⟩
  · split_ifs <;> omega
  · split_ifs <;> omega

/-- In the zone of the example every day up to 7 September 2024 begins at a
local midnight. -/
theorem santiago_regularOn_before (a b : Int) (h : b ≤ 19973) : santiago.regularOn a b := by
  intro t t1 t2
  unfold Zone.keepsMidnight
  rw [santiago_midnight, santiago_midnight, santiago_localTime]
  refine ⟨?_, fun _ => ?_⟩
  · split_ifs <;> omega
  · split_ifs <;> omega

theorem apia_midnight (t : Int) :
    apia.midnight t = t * 1440 - (if t * 1440 < 22088160 then -600 else 840) := by
  have hF : firstOfMonth 2011 12 = 15309 := by decide
  unfold Zone.midnight Zoned.utc apia Zone.changing
  simp only [hF]
  norm_num

theorem apia_localTime (u : Int) :
    Zoned.localTime apia u = u + (if u < 22087320 then -600 else 840) := by
  have hF : firstOfMonth 2011 12 = 15309 := by decide
  unfold Zoned.localTime apia Zone.changing
  simp only [hF]
  norm_num

/-- In the zone of the example every day from 31 December 2011 on begins at a
local midnight. -/
theorem apia_keepsMidnight_after (t : Int) (h : 15339 ≤ t) : apia.keepsMidnight t := by
  unfold Zone.keepsMidnight
  rw [apia_midnight, apia_localTime]
  split_ifs <;> omega

/-! ## Runs that never return -/

/-- When the first of the month is not a valid Date the builder never returns. -/
theorem zoned_generateCalendarStructure_diverges {z : Zone} {year month : Int}
    (h : Zoned.newDate z year (month - 1) 1 = none) (fuel : Nat) (today : String)
    (hs : List Holiday) : Zoned.generateCalendarStructure fuel z today year month hs = none := by
  rw [zoned_generateCalendarStructure_def]
  have : Zoned.gridStartDate z year month = none := by
    unfold Zoned.gridStartDate; rw [h]; exact zoned_setDate_none _ _
  rw [this, zoned_whileLoop_none]

/-- One round of the `while` loop that neither stops nor breaks: if the loop
never returns from the next start date, it never returns from this one. -/
theorem zoned_whileLoop_none_step (z : Zone) (today : String) (month : Int)
    (lastDay : Option Int) (hd : List String) (sd next : Option Int)
    (hg : jsLe sd lastDay = true)
    (hr : (Zoned.weekDaysLoop z today month hd 7 sd [] []).1 = next)
    (hb : jsGt (Zoned.getMonth z next) (some (month - 1)) = false)
    (hn : ∀ fuel ws, Zoned.whileLoop z today month lastDay hd fuel next ws = none) :
    ∀ fuel ws, Zoned.whileLoop z today month lastDay hd fuel sd ws = none := by
  intro fuel ws
  have hgd : Zoned.loopGuard z lastDay sd ws = true := by simp [Zoned.loopGuard, hg]
  cases fuel with
  | zero => simp [Zoned.whileLoop, hgd]
  | succ fuel =>
    simp only [Zoned.whileLoop, hgd, if_true, hr, hb]
    exact hn _ _

/-- For December, from a start date that is not a Monday, in a zone whose later
days all begin at local midnights, the `while` loop never returns: the guard
`getDay() !== 1` stays true and `getMonth() > 11` never holds. -/
theorem zoned_whileLoop_off_monday (z : Zone) (today : String) (lastDay : Option Int)
    (hd : List String) (fuel : Nat) (s : Int) (ws : List Week)
    (hk : ∀ t, s ≤ t → z.keepsMidnight t) (hday : weekDay s ≠ 1) :
    Zoned.whileLoop z today 12 lastDay hd fuel (some (z.midnight s)) ws = none := by
  induction fuel generalizing s ws with
  | zero =>
    have hgd : Zoned.loopGuard z lastDay (some (z.midnight s)) ws = true := by
      simp [Zoned.loopGuard, zoned_getDay_midnight (hk s (le_refl s)), hday]
    simp [Zoned.whileLoop, hgd]
  | succ fuel ih =>
    have hgd : Zoned.loopGuard z lastDay (some (z.midnight s)) ws = true := by
      simp [Zoned.loopGuard, zoned_getDay_midnight (hk s (le_refl s)), hday]
    simp only [Zoned.whileLoop, hgd, if_true]
    by_cases hv : ∀ j : Nat, 1 ≤ j → j ≤ 7 →
        Zoned.timeClip (z.midnight (s + j)) = some (z.midnight (s + j))
    · obtain ⟨hw, hs⟩ := zoned_week_of_valid z today 12 hd s
        (fun j _ => hk (s + j) (by omega)) hv
      rw [hw, hs]
      have hb : jsGt (Zoned.getMonth z (some (z.midnight (s + 7)))) (some (12 - 1)) = false := by
        rw [zoned_getMonth_midnight (hk (s + 7) (by omega))]
        have := (monthFromDay_range (s + 7)).2
        simp only [jsGt, decide_eq_false_iff_not]
        omega
      rw [hb]
      simp only [Bool.false_eq_true, if_false]
      exact ih (s + 7) _ (fun t ht => hk t (by omega)) (by unfold weekDay at *; omega)
    · have hn := zoned_weekDaysLoop_invalid z today 12 hd 7 s [] []
        (fun j _ => hk (s + j) (by omega)) hv
      rw [hn]
      simp only [Zoned.getMonth, Option.map_none', jsGt]
      exact zoned_whileLoop_none _ _ _ _ _ _ _

/-- On a server in the zone of Apia the builder never returns for December
2011: the row of 26 December skips the 30th and ends on 2 January, so every
later row starts on a Tuesday. -/
theorem apia_december_2011_never_returns (fuel : Nat) :
    Zoned.generateCalendarStructure fuel apia "2011-12-15" 2011 12 [] = none := by
  rw [zoned_generateCalendarStructure_def]
  have hS : Zoned.gridStartDate apia 2011 12 = some (apia.midnight 15306) := by decide
  have hL : Zoned.newDate apia 2011 12 0 = some (apia.midnight 15339) := by decide
  rw [hS, hL]
  have h5 : ∀ fuel ws, Zoned.whileLoop apia "2011-12-15" 12 (some (apia.midnight 15339)) []
      fuel (some (apia.midnight 15342)) ws = none :=
    fun fuel ws => zoned_whileLoop_off_monday apia _ _ _ fuel 15342 ws
      (fun t ht => apia_keepsMidnight_after t (by omega)) (by decide)
  have h4 := zoned_whileLoop_none_step apia "2011-12-15" 12 (some (apia.midnight 15339)) []
    (some (apia.midnight 15334)) (some (apia.midnight 15342)) (by decide) (by decide)
    (by decide) h5
  have h3 := zoned_whileLoop_none_step apia "2011-12-15" 12 (some (apia.midnight 15339)) []
    (some (apia.midnight 15327)) (some (apia.midnight 15334)) (by decide) (by decide)
    (by decide) h4
  have h2 := zoned_whileLoop_none_step apia "2011-12-15" 12 (some (apia.midnight 15339)) []
    (some (apia.midnight 15320)) (some (apia.midnight 15327)) (by decide) (by decide)
    (by decide) h3
  have h1 := zoned_whileLoop_none_step apia "2011-12-15" 12 (some (apia.midnight 15339)) []
    (some (apia.midnight 15313)) (some (apia.midnight 15320)) (by decide) (by decide)
    (by decide) h2
  have h0 := zoned_whileLoop_none_step apia "2011-12-15" 12 (some (apia.midnight 15339)) []
    (some (apia.midnight 15306)) (some (apia.midnight 15313)) (by decide) (by decide)
    (by decide) h1
  exact h0 fuel []

end HolidayService

namespace HolidayService

theorem zoned_weekDaysLoop_length (z : Zone) (today : String) (month : Int) (hd : List String)
    (n : Nat) (sd : Option Int) (week : List Day) (wd : List String) :
    (Zoned.weekDaysLoop z today month hd n sd week wd).2.1.length = week.length + n := by
  induction n generalizing sd week wd with
  | zero => rfl
  | succ n ih =>
    simp only [Zoned.weekDaysLoop]
    rw [ih, List.length_append, List.length_singleton]
    omega

theorem zoned_whileLoop_seven (z : Zone) (today : String) (month : Int) (lastDay : Option Int)
    (hd : List String) (fuel : Nat) (sd : Option Int) (ws out : List Week)
    (h : Zoned.whileLoop z today month lastDay hd fuel sd ws = some out) :
    ∀ w ∈ out, w ∈ ws ∨ w.days.length = 7 := by
  induction fuel generalizing sd ws with
  | zero =>
    simp only [Zoned.whileLoop] at h
    split at h
    · exact absurd h (by simp)
    · have := Option.some.inj h
      subst this
      exact fun w hw => Or.inl hw
  | succ fuel ih =>
    simp only [Zoned.whileLoop] at h
    have key : (Zoned.weekDaysLoop z today month hd 7 sd [] []).2.1.length = 7 := by
      rw [zoned_weekDaysLoop_length]; rfl
    split at h
    · split at h
      · have := Option.some.inj h
        subst this
        intro w hw
        rcases List.mem_append.mp hw with a | b
        · exact Or.inl a
        · right
          rw [List.mem_singleton.mp b]
          exact key
      · intro w hw
        rcases ih _ _ h w hw with a | b
        · rcases List.mem_append.mp a with a1 | b1
          · exact Or.inl a1
          · right
            rw [List.mem_singleton.mp b1]
            exact key
        · exact Or.inr b
    · have := Option.some.inj h
      subst this
      exact fun w hw => Or.inl hw

/-- In every zone, every week of every grid the builder returns has 7 days. -/
theorem zoned_weeks_of_returned_seven {fuel : Nat} {z : Zone} {today : String}
    {year month : Int} {hs : List Holiday} {ws : List Week}
    (h : Zoned.generateCalendarStructure fuel z today year month hs = some ws) :
    ∀ w ∈ ws, w.days.length = 7 := by
  rw [zoned_generateCalendarStructure_def] at h
  intro w hw
  rcases zoned_whileLoop_seven _ _ _ _ _ _ _ _ _ h w hw with a | b
  · exact absurd a (by simp)
  · exact b

theorem currentMonthDays_of_cells {ws ws1 : List Week}
    (h : ws.map Week.cells = ws1.map Week.cells) : currentMonthDays ws = currentMonthDays ws1 := by
  unfold currentMonthDays
  rw [allDays_of_cells h]

theorem totalHolidayCount_of_cells {ws ws1 : List Week}
    (h : ws.map Week.cells = ws1.map Week.cells) :
    totalHolidayCount ws = totalHolidayCount ws1 := by
  have := congrArg (List.map (fun c : List Day × Nat × String => c.2.1)) h
  simp only [List.map_map] at this
  unfold totalHolidayCount
  exact congrArg List.sum this

/-- C1 (amended): for every year that the Date constructor takes literally (a
representable year outside 0..99), every month in 1..12 and every holiday
list, on a server in whose time zone every day from the Monday that opens the
grid to the Monday after its last row begins at a local midnight, the builder
returns, and the cells flagged `isCurrentMonth`, read in grid order, are
exactly the days 1..N of that month of that year, each once, where N is the
number of days of the month. -/
theorem zoned_currentMonth_days_are_the_days_of_the_month (z : Zone) (today : String)
    (fuel : Nat) (year month : Int) (hs : List Holiday) (hy : literalYear year) (h1 : 1 ≤ month)
    (h2 : month ≤ 12) (hf : 6 ≤ fuel)
    (hreg : z.regularOn (gridStart year month) (gridStart year month + 7 * gridRows year month)) :
    ∃ ws, Zoned.generateCalendarStructure fuel z today year month hs = some ws ∧
      (currentMonthDays ws).map (fun d => (d.date, d.day)) =
        (List.range (daysInMonth year month).toNat).map
          (fun i : Nat => (isoDate year month ((i : Int) + 1), some ((i : Int) + 1))) ∧
      ((currentMonthDays ws).length : Int) = daysInMonth year month := by
  obtain ⟨b1, b2⟩ := daysInMonth_bounds year month
  have hg := zoned_generateCalendarStructure_eq z today fuel year month hs hy.1 h1 h2 hf
    (by rw [effectiveYear_literal hy]; exact hreg)
  rw [effectiveYear_literal hy] at hg
  have hc := currentMonthDays_of_cells (zoned_weeksFrom_cells z today month
    (hs.map (fun h => h.date)) (gridStart year month) (gridRows year month))
  refine ⟨_, hg, ?_, ?_⟩
  · rw [hc, currentMonthDays_grid (envOn today) year month _ h1 h2, daysFrom_map]
    apply List.map_congr_left
    intro i hi
    have hi2 : (i : Int) < daysInMonth year month := by
      have := List.mem_range.mp hi; omega
    obtain ⟨a, b, -⟩ := dayAt_in_month (envOn today) (hs.map (fun h => h.date)) (y := year) h1 h2
      (k := (i : Int)) (by omega) hi2
    rw [a, b]
  · rw [hc, currentMonthDays_grid (envOn today) year month _ h1 h2, daysFrom_length]
    omega

/-- Witness of C1 at October 2024 on a server in the zone of Santiago, three
weeks after its clocks changed. -/
theorem zoned_currentMonth_days_are_the_days_of_the_month_witness :
    ∃ ws, Zoned.generateCalendarStructure 6 santiago "2024-10-15" 2024 10 [] = some ws ∧
      (currentMonthDays ws).map (fun d => (d.date, d.day)) =
        (List.range (daysInMonth 2024 10).toNat).map
          (fun i : Nat => (isoDate 2024 10 ((i : Int) + 1), some ((i : Int) + 1))) ∧
      ((currentMonthDays ws).length : Int) = daysInMonth 2024 10 :=
  zoned_currentMonth_days_are_the_days_of_the_month santiago "2024-10-15" 6 2024 10 []
    (by decide) (by decide) (by decide) (le_refl 6) (santiago_regularOn_after _ _ (by decide))

/-- C1 fails as stated.  On a server in the zone of Santiago, where the clocks
went from 00:00 to 01:00 on 8 September 2024, the running date stays at 01:00
from that day on and is later than the last day of the month, which is at
00:00, when the fifth row is done: the builder returns five rows for September
2024 and flags 29 of the 30 days, the last of them 2024-09-29.  For year 0 the
builder flags the 28 days of February 1900 although February of year 0 has 29
days, and for the years next to the representable range (275760 and -271821)
it never returns. -/
theorem zoned_currentMonth_days_counterexample :
    (Zoned.generateCalendarStructure 6 santiago "2024-09-15" 2024 9 []).map
        (fun ws => (ws.length, (currentMonthDays ws).length,
          (currentMonthDays ws).getLast?.map (fun d => d.date)))
      = some (5, 29, some "2024-09-29") ∧
    daysInMonth 2024 9 = 30 ∧
    (Zoned.generateCalendarStructure 6 utcZone "2024-02-10" 0 2 []).map
        (fun ws => ((currentMonthDays ws).length, (currentMonthDays ws).head?.map (fun d => d.date)))
      = some (28, some "1900-02-01") ∧
    daysInMonth 0 2 = 29 ∧ isoDate 0 2 1 = "0-02-01" ∧
    (∀ fuel, Zoned.generateCalendarStructure fuel utcZone "2024-02-10" 275760 12 [] = none) ∧
    (∀ fuel, Zoned.generateCalendarStructure fuel utcZone "2024-02-10" (-271821) 1 [] = none) :=
  ⟨by decide, by decide, by decide, by decide, by decide,
    fun fuel => zoned_generateCalendarStructure_diverges (by decide) fuel _ [],
    fun fuel => zoned_generateCalendarStructure_diverges (by decide) fuel _ []⟩

/-- C2 (amended): for every representable year and every month in 1..12, on a
server in whose time zone every day from the Monday that opens the grid to the
Monday after its last row begins at a local midnight, the builder returns on
the empty holiday list, with six units of fuel, at least 4 and at most 6
weeks. -/
theorem zoned_week_count_between_four_and_six (z : Zone) (today : String) (fuel : Nat)
    (year month : Int) (hy : representableYear year) (h1 : 1 ≤ month) (h2 : month ≤ 12)
    (hf : 6 ≤ fuel)
    (hreg : z.regularOn (gridStart (effectiveYear year) month)
      (gridStart (effectiveYear year) month + 7 * gridRows (effectiveYear year) month)) :
    ∃ ws, Zoned.generateCalendarStructure fuel z today year month [] = some ws ∧
      4 ≤ ws.length ∧ ws.length ≤ 6 := by
  obtain ⟨r1, r2, -, -⟩ := gridRows_props (effectiveYear year) month
  refine ⟨_, zoned_generateCalendarStructure_eq z today fuel year month [] hy h1 h2 hf hreg,
    ?_, ?_⟩ <;>
    rw [zoned_weeksFrom_length] <;> assumption

/-- Witness of C2 at February 2027, a month of exactly four rows, on a server
in the zone of Santiago. -/
theorem zoned_week_count_between_four_and_six_witness :
    ∃ ws, Zoned.generateCalendarStructure 6 santiago "2027-02-10" 2027 2 [] = some ws ∧
      4 ≤ ws.length ∧ ws.length ≤ 6 :=
  zoned_week_count_between_four_and_six santiago "2027-02-10" 6 2027 2 (by decide) (by decide)
    (by decide) (le_refl 6) (santiago_regularOn_after _ _ (by decide))

/-- C2 fails as stated.  On a server in the zone of Apia, which skipped 30
December 2011, the builder never returns for December 2011, whatever the fuel:
the row of 26 December ends on 2 January, every later row starts on a Tuesday,
and for month 12 the `break` never fires.  For December 275760 and for January
-271821 the first of the month is not a valid Date and the loop never exits
either. -/
theorem zoned_week_count_counterexample :
    (¬ ∃ fuel ws, Zoned.generateCalendarStructure fuel apia "2011-12-15" 2011 12 [] = some ws) ∧
    (¬ ∃ fuel ws, Zoned.generateCalendarStructure fuel utcZone "2024-02-10" 275760 12 [] =
      some ws) ∧
    (¬ ∃ fuel ws, Zoned.generateCalendarStructure fuel utcZone "2024-02-10" (-271821) 1 [] =
      some ws) := by
  refine ⟨?_, ?_, ?_⟩
  · rintro ⟨fuel, ws, h⟩
    rw [apia_december_2011_never_returns fuel] at h
    exact absurd h (by simp)
  · rintro ⟨fuel, ws, h⟩
    rw [zoned_generateCalendarStructure_diverges (by decide) fuel _ []] at h
    exact absurd h (by simp)
  · rintro ⟨fuel, ws, h⟩
    rw [zoned_generateCalendarStructure_diverges (by decide) fuel _ []] at h
    exact absurd h (by simp)

/-- C3 (amended): for every year, month in 1..12 and holiday list, every week
the builder returns has exactly 7 days, in whatever time zone the server runs;
and on a server in whose time zone every day from the Monday that opens the
grid to the day after the last returned row begins at a local midnight, the
days of the whole grid, read week by week, carry the strings of a run of real
calendar dates in which each date is the day after the previous one.  For a
representable year the builder does return when this holds up to the Monday
after the row of the last day of the month. -/
theorem zoned_weeks_have_seven_consecutive_days (z : Zone) (today : String) (year month : Int)
    (hs : List Holiday) (h1 : 1 ≤ month) (h2 : month ≤ 12) :
    (∀ fuel ws, Zoned.generateCalendarStructure fuel z today year month hs = some ws →
      (∀ w ∈ ws, w.days.length = 7) ∧
      (z.regularOn (gridStart (effectiveYear year) month)
          (gridStart (effectiveYear year) month + 7 * ws.length) →
        ∃ cs : List Civil, (allDays ws).map (fun d => d.date) = cs.map Civil.iso ∧
          cs.length = 7 * ws.length ∧ (∀ c ∈ cs, c.wellFormed) ∧
          List.Chain' (fun a b : Civil => b = a.next) cs)) ∧
    (representableYear year →
      z.regularOn (gridStart (effectiveYear year) month)
        (gridStart (effectiveYear year) month + 7 * gridRows (effectiveYear year) month) →
      ∃ ws, Zoned.generateCalendarStructure 6 z today year month hs = some ws ∧
        ws.length = gridRows (effectiveYear year) month) := by
  constructor
  · intro fuel ws h
    refine ⟨zoned_weeks_of_returned_seven h, ?_⟩
    intro hreg
    have hw := zoned_generateCalendarStructure_shape h1 h2 h hreg
    refine ⟨(List.range (7 * ws.length)).map
        (fun i : Nat => civilOfDay (gridStart (effectiveYear year) month + (i : Int))),
      ?_, by simp, ?_, chain_civil _ _⟩
    · conv_lhs => rw [hw]
      rw [zoned_allDays_weeksFrom, daysFrom_map, List.map_map]
      rfl
    · intro c hc
      obtain ⟨i, -, rfl⟩ := List.mem_map.mp hc
      exact civilOfDay_wellFormed _
  · intro hy hreg
    exact ⟨_, zoned_generateCalendarStructure_eq z today 6 year month hs hy h1 h2 (le_refl 6) hreg,
      zoned_weeksFrom_length _ _ _ _ _ _⟩

/-- Witness of C3 at December 2024 with a holiday, on a server in the zone of
Santiago, and at January 2012 on a server in the zone of Apia, where the weeks
have 7 days each although a day is missing from the run. -/
theorem zoned_weeks_have_seven_consecutive_days_witness :
    (∃ ws, Zoned.generateCalendarStructure 6 santiago "2024-12-15" 2024 12
        [⟨"2024-12-25", "Christmas Day"⟩] = some ws ∧
      (∀ w ∈ ws, w.days.length = 7) ∧
      ∃ cs : List Civil, (allDays ws).map (fun d => d.date) = cs.map Civil.iso ∧
        cs.length = 7 * ws.length ∧ (∀ c ∈ cs, c.wellFormed) ∧
        List.Chain' (fun a b : Civil => b = a.next) cs) ∧
    (∃ ws, Zoned.generateCalendarStructure 6 apia "2012-01-15" 2012 1 [] = some ws ∧
      ∀ w ∈ ws, w.days.length = 7) := by
  obtain ⟨ws, h, hlen⟩ := (zoned_weeks_have_seven_consecutive_days santiago "2024-12-15" 2024 12
    [⟨"2024-12-25", "Christmas Day"⟩] (by decide) (by decide)).2 (by decide)
    (santiago_regularOn_after _ _ (by decide))
  have hsome : (Zoned.generateCalendarStructure 6 apia "2012-01-15" 2012 1 []).isSome = true := by
    decide
  obtain ⟨ws1, h1⟩ := Option.isSome_iff_exists.mp hsome
  have p := (zoned_weeks_have_seven_consecutive_days santiago "2024-12-15" 2024 12
    [⟨"2024-12-25", "Christmas Day"⟩] (by decide) (by decide)).1 6 ws h
  exact ⟨⟨ws, h, p.1, p.2 (santiago_regularOn_after _ _ (by decide))⟩,
    ⟨ws1, h1, ((zoned_weeks_have_seven_consecutive_days apia "2012-01-15" 2012 1 [] (by decide)
      (by decide)).1 6 ws1 h1).1⟩⟩

/-- C3 fails as stated.  On a server in the zone of Apia, which skipped 30
December 2011, the builder returns for January 2012 a first week whose days go
from 2011-12-29 straight to 2011-12-31, although the day after 29 December is
the 30th. -/
theorem zoned_consecutive_days_counterexample :
    (Zoned.generateCalendarStructure 6 apia "2012-01-15" 2012 1 []).map
        (fun ws => ws.head?.map (fun w => w.days.map (fun d => d.date))) =
      some (some ["2011-12-26", "2011-12-27", "2011-12-28", "2011-12-29", "2011-12-31",
        "2012-01-01", "2012-01-02"]) ∧
    (⟨2011, 12, 29⟩ : Civil).next = ⟨2011, 12, 30⟩ ∧
    (⟨2011, 12, 30⟩ : Civil).iso = "2011-12-30" := by
  refine ⟨by decide, by decide, by decide⟩

/-- C5 (amended): for every year that the Date constructor takes literally and
every month in 1..12, on a server in whose time zone every day from the Monday
that opens the grid to the Monday after its last row begins at a local
midnight, the first week returned contains the first of the month, the last
week returned contains the last day of the month, both flagged
`isCurrentMonth`, and every week returned contains a day of the month. -/
theorem zoned_first_and_last_week_cover_the_month (z : Zone) (today : String) (fuel : Nat)
    (year month : Int) (hs : List Holiday) (hy : literalYear year) (h1 : 1 ≤ month)
    (h2 : month ≤ 12) (hf : 6 ≤ fuel)
    (hreg : z.regularOn (gridStart year month) (gridStart year month + 7 * gridRows year month)) :
    ∃ ws first last, Zoned.generateCalendarStructure fuel z today year month hs = some ws ∧
      ws.head? = some first ∧ ws.getLast? = some last ∧
      (∃ d ∈ first.days, d.date = isoDate year month 1 ∧ d.isCurrentMonth = true) ∧
      (∃ d ∈ last.days, d.date = isoDate year month (daysInMonth year month) ∧
        d.isCurrentMonth = true) ∧
      (∀ w ∈ ws, ∃ d ∈ w.days, d.isCurrentMonth = true) := by
  obtain ⟨b1, b2⟩ := daysInMonth_bounds year month
  obtain ⟨gm, g1, g2⟩ := gridStart_props year month
  obtain ⟨r1, r2, r3, r4⟩ := gridRows_props year month
  obtain ⟨r, hr⟩ : ∃ r, gridRows year month = r + 1 := ⟨gridRows year month - 1, by omega⟩
  have hg := zoned_generateCalendarStructure_eq z today fuel year month hs hy.1 h1 h2 hf
    (by rw [effectiveYear_literal hy]; exact hreg)
  rw [effectiveYear_literal hy] at hg
  refine ⟨_, Zoned.weekAt z today month (hs.map (fun h => h.date)) (gridStart year month),
    Zoned.weekAt z today month (hs.map (fun h => h.date)) (gridStart year month + 7 * r),
    hg, ?_, ?_, ?_, ?_, ?_⟩
  · rw [hr, zoned_weeksFrom_head]
  · rw [hr, zoned_weeksFrom_getLast]
  · obtain ⟨a, -, c⟩ := dayAt_in_month (envOn today) (hs.map (fun h => h.date)) (y := year) h1 h2
      (k := 0) (le_refl 0) (by omega)
    refine ⟨dayAt (envOn today) month (hs.map (fun h => h.date)) (firstOfMonth year month + 0),
      ?_, a, c⟩
    rw [zoned_weekAt_days, mem_daysFrom]
    exact ⟨(firstOfMonth year month - gridStart year month).toNat, by omega, by congr 1; omega⟩
  · obtain ⟨a, -, c⟩ := dayAt_in_month (envOn today) (hs.map (fun h => h.date)) (y := year) h1 h2
      (k := daysInMonth year month - 1) (by omega) (by omega)
    simp only [sub_add_cancel] at a
    refine ⟨dayAt (envOn today) month (hs.map (fun h => h.date))
      (firstOfMonth year month + (daysInMonth year month - 1)), ?_, a, c⟩
    rw [zoned_weekAt_days, mem_daysFrom]
    rw [hr] at r3 r4
    push_cast at r3 r4
    exact ⟨(firstOfMonth year month + (daysInMonth year month - 1)
      - (gridStart year month + 7 * r)).toNat, by omega, by congr 1; omega⟩
  · intro w hw
    obtain ⟨i, hi, rfl⟩ := zoned_mem_weeksFrom.mp hw
    have hi2 : (i : Int) + 1 ≤ gridRows year month := by omega
    rcases Nat.eq_zero_or_pos i with h0 | hpos
    · subst h0
      obtain ⟨-, -, c⟩ := dayAt_in_month (envOn today) (hs.map (fun h => h.date)) (y := year)
        h1 h2 (k := 0) (le_refl 0) (by omega)
      refine ⟨dayAt (envOn today) month (hs.map (fun h => h.date)) (firstOfMonth year month + 0),
        ?_, c⟩
      rw [zoned_weekAt_days, mem_daysFrom]
      exact ⟨(firstOfMonth year month - gridStart year month).toNat, by omega,
        by congr 1; push_cast; omega⟩
    · obtain ⟨-, -, c⟩ := dayAt_in_month (envOn today) (hs.map (fun h => h.date)) (y := year)
        h1 h2 (k := gridStart year month + 7 * i - firstOfMonth year month) (by omega) (by omega)
      refine ⟨dayAt (envOn today) month (hs.map (fun h => h.date)) (firstOfMonth year month +
        (gridStart year month + 7 * i - firstOfMonth year month)), ?_, c⟩
      rw [zoned_weekAt_days, mem_daysFrom]
      exact ⟨0, by omega, by congr 1; push_cast; omega⟩

/-- Witness of C5 at October 2024 on a server in the zone of Santiago. -/
theorem zoned_first_and_last_week_cover_the_month_witness :
    ∃ ws first last, Zoned.generateCalendarStructure 6 santiago "2024-10-15" 2024 10 [] =
        some ws ∧
      ws.head? = some first ∧ ws.getLast? = some last ∧
      (∃ d ∈ first.days, d.date = isoDate 2024 10 1 ∧ d.isCurrentMonth = true) ∧
      (∃ d ∈ last.days, d.date = isoDate 2024 10 (daysInMonth 2024 10) ∧
        d.isCurrentMonth = true) ∧
      (∀ w ∈ ws, ∃ d ∈ w.days, d.isCurrentMonth = true) :=
  zoned_first_and_last_week_cover_the_month santiago "2024-10-15" 6 2024 10 [] (by decide)
    (by decide) (by decide) (le_refl 6) (santiago_regularOn_after _ _ (by decide))

/-- C5 fails as stated.  On a server in the zone of Santiago the last week
returned for September 2024 ends on 2024-09-29 and the grid holds no
2024-09-30, the last day of the month.  For February of year 0 the last week
returned ends the month at 1900-02-28 and holds no 29th, although February of
year 0 has 29 days; for the years next to the representable range the builder
never returns. -/
theorem zoned_last_week_counterexample :
    (Zoned.generateCalendarStructure 6 santiago "2024-09-15" 2024 9 []).map
        (fun ws => (ws.getLast?.map (fun w => w.days.map (fun d => d.date)),
          decide (∃ d ∈ allDays ws, d.date = isoDate 2024 9 (daysInMonth 2024 9))))
      = some (some ["2024-09-23", "2024-09-24", "2024-09-25", "2024-09-26", "2024-09-27",
          "2024-09-28", "2024-09-29"], false) ∧
    isoDate 2024 9 (daysInMonth 2024 9) = "2024-09-30" ∧
    (Zoned.generateCalendarStructure 6 utcZone "2024-02-10" 0 2 []).map
        (fun ws => ws.getLast?.map (fun w => w.days.map (fun d => d.date)))
      = some (some ["1900-02-26", "1900-02-27", "1900-02-28", "1900-03-01", "1900-03-02",
          "1900-03-03", "1900-03-04"]) ∧
    isoDate 0 2 (daysInMonth 0 2) = "0-02-29" ∧
    (∀ fuel, Zoned.generateCalendarStructure fuel utcZone "2024-02-10" 275760 12 [] = none) ∧
    (∀ fuel, Zoned.generateCalendarStructure fuel utcZone "2024-02-10" (-271821) 1 [] = none) :=
  ⟨by decide, by decide, by decide, by decide,
    fun fuel => zoned_generateCalendarStructure_diverges (by decide) fuel _ [],
    fun fuel => zoned_generateCalendarStructure_diverges (by decide) fuel _ []⟩

end HolidayService

namespace HolidayService

theorem stamps_of_cells {ws ws1 : List Week} (h : ws.map Week.cells = ws1.map Week.cells) :
    (allDays ws).map Day.stamp = (allDays ws1).map Day.stamp := by
  rw [allDays_of_cells h]

/-- C21 (amended): for every year outside 0..99, every month in 1..12 and every
holiday list, on a server in any time zone, each day of a grid the builder
returns is the cell of a calendar day: it carries as `date` the string
`Y-MM-DD` of the real calendar date of that day, with month and day padded to
two digits and the year written as a plain decimal number, so it is the
zero-padded `YYYY-MM-DD` string whenever the year of the day lies in
1000..9999; as `day` its day of the month; and `isCurrentMonth` exactly when
its month is the target month.  For month 12 a cell of one of the seven days
after December 31 is dated in January of `year + 1` and is not flagged, and
for month 1 a cell of one of the six days before January 1 is dated in
December of `year - 1` and is not flagged.  When moreover the year is
representable and, in the zone of the server, every day from the Monday that
opens the grid to the Monday after its last row begins at a local midnight,
the builder returns, and its days, read row by row, are at most six days of
the previous month, then the days 1..N of the month, then at most six days of
the following month. -/
theorem zoned_days_carry_their_calendar_date (z : Zone) (today : String) (year month : Int)
    (hs : List Holiday) (hq : ¬ (0 ≤ year ∧ year ≤ 99)) (h1 : 1 ≤ month) (h2 : month ≤ 12) :
    (∀ fuel ws, Zoned.generateCalendarStructure fuel z today year month hs = some ws →
      ∀ d ∈ allDays ws, ∃ t : Int,
        (civilOfDay t).wellFormed ∧
        d.stamp = ((civilOfDay t).iso, some (civilOfDay t).day,
          decide ((civilOfDay t).month = month)) ∧
        (1000 ≤ (civilOfDay t).year → (civilOfDay t).year ≤ 9999 →
          d.date = zeroPaddedDate (civilOfDay t)) ∧
        (month = 12 → ∀ j : Int, 1 ≤ j → j ≤ 7 → t = firstOfMonth year 12 + 30 + j →
          d.stamp = (isoDate (year + 1) 1 j, some j, false)) ∧
        (month = 1 → ∀ j : Int, 1 ≤ j → j ≤ 6 → t = firstOfMonth year 1 - j →
          d.stamp = (isoDate (year - 1) 12 (32 - j), some (32 - j), false))) ∧
    (representableYear year → ∀ fuel, 6 ≤ fuel →
      z.regularOn (gridStart year month) (gridStart year month + 7 * gridRows year month) →
      ∃ ws lead trail, Zoned.generateCalendarStructure fuel z today year month hs = some ws ∧
        lead ≤ 6 ∧ trail ≤ 6 ∧
        (allDays ws).map Day.stamp =
          (expectedCells year month lead trail).map (fun p => (p.1.iso, some p.1.day, p.2)) ∧
        previousMonth year 1 = (year - 1, 12) ∧ followingMonth year 12 = (year + 1, 1)) := by
  constructor
  · intro fuel ws h d hd
    obtain ⟨t, rfl⟩ := zoned_cells_of_returned h d hd
    have hwf := civilOfDay_wellFormed t
    have hst := stamp_dayAt (envOn today) month (hs.map (fun h => h.date)) t
    refine ⟨t, hwf, hst, ?_, ?_, ?_⟩
    · intro y1 y2
      obtain ⟨m1, m2, d1, d2⟩ := hwf
      have hb := (daysInMonth_bounds (civilOfDay t).year (civilOfDay t).month).2
      rw [dayAt_date]
      exact iso_eq_zeroPaddedDate _ y1 y2 (by omega) (by omega) (by omega) (by omega)
    · intro hm j j1 j2 ht
      have e31 : daysInMonth year 12 = 31 := by simp [daysInMonth]
      have hc := civil_after year (show (1 : Int) ≤ 12 by decide) (show (12 : Int) ≤ 12 by decide)
        j1 j2
      rw [e31, show firstOfMonth year 12 + 31 - 1 + j = t by omega] at hc
      rw [hst, hc, hm]
      simp [followingMonth, Civil.iso]
    · intro hm j j1 j2 ht
      have e31 : daysInMonth (year - 1) 12 = 31 := by simp [daysInMonth]
      have hc := civil_before year (show (1 : Int) ≤ 1 by decide) (show (1 : Int) ≤ 12 by decide)
        j1 j2
      rw [← ht] at hc
      have hp : previousMonth year 1 = (year - 1, 12) := rfl
      rw [hp] at hc
      simp only [e31] at hc
      rw [hst, hc, hm]
      simp only [Civil.iso, show (31 : Int) - j + 1 = 32 - j by omega]
      simp
  · intro hy fuel hf hreg
    have hl : literalYear year := ⟨hy, hq⟩
    have hg := zoned_generateCalendarStructure_eq z today fuel year month hs hy h1 h2 hf
      (by rw [effectiveYear_literal hl]; exact hreg)
    rw [effectiveYear_literal hl] at hg
    obtain ⟨lead, trail, hl1, ht1, hst⟩ :=
      stamps_of_grid (envOn today) year month (hs.map (fun h => h.date)) h1 h2
    refine ⟨_, lead, trail, hg, hl1, ht1, ?_, rfl, rfl⟩
    rw [stamps_of_cells (zoned_weeksFrom_cells z today month (hs.map (fun h => h.date))
      (gridStart year month) (gridRows year month))]
    exact hst

/-- Witness of C21: the cells of the grid of January 2012 on a server in the
zone of Apia, which skipped the day before the grid's fifth cell, and the
whole grid of December 2024 on a server in the zone of Santiago. -/
theorem zoned_days_carry_their_calendar_date_witness :
    (∃ ws, Zoned.generateCalendarStructure 6 apia "2012-01-15" 2012 1 [] = some ws ∧
      ∀ d ∈ allDays ws, ∃ t : Int,
        (civilOfDay t).wellFormed ∧
        d.stamp = ((civilOfDay t).iso, some (civilOfDay t).day,
          decide ((civilOfDay t).month = 1)) ∧
        (1000 ≤ (civilOfDay t).year → (civilOfDay t).year ≤ 9999 →
          d.date = zeroPaddedDate (civilOfDay t)) ∧
        ((1 : Int) = 12 → ∀ j : Int, 1 ≤ j → j ≤ 7 → t = firstOfMonth 2012 12 + 30 + j →
          d.stamp = (isoDate (2012 + 1) 1 j, some j, false)) ∧
        ((1 : Int) = 1 → ∀ j : Int, 1 ≤ j → j ≤ 6 → t = firstOfMonth 2012 1 - j →
          d.stamp = (isoDate (2012 - 1) 12 (32 - j), some (32 - j), false))) ∧
    (∃ ws lead trail, Zoned.generateCalendarStructure 6 santiago "2024-12-15" 2024 12 [] =
        some ws ∧
      lead ≤ 6 ∧ trail ≤ 6 ∧
      (allDays ws).map Day.stamp =
        (expectedCells 2024 12 lead trail).map (fun p => (p.1.iso, some p.1.day, p.2)) ∧
      previousMonth 2024 1 = (2024 - 1, 12) ∧ followingMonth 2024 12 = (2024 + 1, 1)) := by
  have hsome : (Zoned.generateCalendarStructure 6 apia "2012-01-15" 2012 1 []).isSome = true := by
    decide
  obtain ⟨ws, h⟩ := Option.isSome_iff_exists.mp hsome
  exact ⟨⟨ws, h, (zoned_days_carry_their_calendar_date apia "2012-01-15" 2012 1 [] (by decide)
      (by decide) (by decide)).1 6 ws h⟩,
    (zoned_days_carry_their_calendar_date santiago "2024-12-15" 2024 12 [] (by decide)
      (by decide) (by decide)).2 (by decide) 6 (le_refl 6)
      (santiago_regularOn_after _ _ (by decide))⟩

/-- C21 fails as stated: for January of the year 999 the first day of the month
carries `999-01-01`, which is not the zero-padded string `0999-01-01`; and for
January of the year 50 the grid is that of January 1950 and its leading days
are dated in 1949, not in the year 49. -/
theorem zoned_date_string_counterexample :
    (Zoned.generateCalendarStructure 6 utcZone "2024-02-10" 999 1 []).map
        (fun ws => ((allDays ws).filter (fun d => d.isCurrentMonth)).head?.map (fun d => d.date)) =
      some (some "999-01-01") ∧
    zeroPaddedDate ⟨999, 1, 1⟩ = "0999-01-01" ∧
    (Zoned.generateCalendarStructure 6 utcZone "2024-02-10" 50 1 []).map
        (fun ws => (allDays ws).head?.map (fun d => (d.date, d.isCurrentMonth))) =
      some (some ("1949-12-26", false)) ∧
    isoDate (50 - 1) 12 26 = "49-12-26" := by
  refine ⟨by decide, by decide, by decide, by decide⟩

/-- C29 (amended): for every year that the Date constructor takes literally,
every month in 1..12 and every holiday list, on a server in whose time zone
every day from the Monday that opens the grid to the Monday after its last row
begins at a local midnight, the builder returns, and the sum of `holidayCount`
over its weeks is the number of distinct holiday date strings that are dates
of the month (several records on one date count once, other dates count
zero); so it is at most `holidays.length`, and in every object returned by
`getCalendarData` it is at most `totalHolidays`. -/
theorem zoned_holiday_counts_add_up_to_distinct_dates (z : Zone) (today : String) (fuel : Nat)
    (year month : Int) (hs : List Holiday) (hy : literalYear year) (h1 : 1 ≤ month)
    (h2 : month ≤ 12) (hf : 6 ≤ fuel)
    (hreg : z.regularOn (gridStart year month) (gridStart year month + 7 * gridRows year month)) :
    (∃ ws, Zoned.generateCalendarStructure fuel z today year month hs = some ws ∧
      totalHolidayCount ws = (holidayDatesOfMonth year month hs).length ∧
      totalHolidayCount ws ≤ hs.length) ∧
    ∀ (s : Service) (upstream : Except String (List Holiday)) (now1 now2 now3 : Int)
      (c c1 : Cache (List Holiday)) (country : String) (data : CalendarData),
      Zoned.getCalendarData fuel z today s upstream now1 now2 now3 c country year month =
        (some (Except.ok data), c1) →
      data.totalHolidays = data.holidays.length ∧
      totalHolidayCount data.calendar = (holidayDatesOfMonth year month data.holidays).length ∧
      totalHolidayCount data.calendar ≤ data.totalHolidays := by
  have main : ∀ hs : List Holiday,
      ∃ ws, Zoned.generateCalendarStructure fuel z today year month hs = some ws ∧
      totalHolidayCount ws = (holidayDatesOfMonth year month hs).length ∧
      totalHolidayCount ws ≤ hs.length := by
    intro hs
    have hg := zoned_generateCalendarStructure_eq z today fuel year month hs hy.1 h1 h2 hf
      (by rw [effectiveYear_literal hy]; exact hreg)
    rw [effectiveYear_literal hy] at hg
    refine ⟨_, hg, ?_⟩
    have e : totalHolidayCount (Zoned.weeksFrom z today month (hs.map (fun h => h.date))
        (gridStart year month) (gridRows year month)) =
        (holidayDatesOfMonth year month hs).length := by
      rw [totalHolidayCount_of_cells (zoned_weeksFrom_cells z today month
        (hs.map (fun h => h.date)) (gridStart year month) (gridRows year month)),
        totalHolidayCount_grid (envOn today) year month _ h1 h2]
      unfold holidayDatesOfMonth
      rw [← length_filter_mem_comm _ _ (monthDates_nodup year month) (List.nodup_dedup _)]
      apply Routes.length_filter_congr
      intro a _
      simp only [List.mem_dedup]
    refine ⟨e, ?_⟩
    rw [e]
    unfold holidayDatesOfMonth
    calc (List.filter (fun s => decide (s ∈ monthDates year month))
          (hs.map (fun h => h.date)).dedup).length
        ≤ ((hs.map (fun h => h.date)).dedup).length := List.length_filter_le _ _
      _ ≤ (hs.map (fun h => h.date)).length := (List.dedup_sublist _).length_le
      _ = hs.length := List.length_map _ _
  refine ⟨main hs, ?_⟩
  intro s upstream now1 now2 now3 c c1 country data hdata
  unfold Zoned.getCalendarData at hdata
  simp only [] at hdata
  cases hr : (getHolidays s upstream now1 now2 now3 c country year (some month)).1 with
  | error e =>
    rw [hr] at hdata
    simp only [Prod.mk.injEq, Option.some.injEq] at hdata
    exact absurd hdata.1 (by simp)
  | ok holidays =>
    rw [hr] at hdata
    obtain ⟨ws, hws, e1, e2⟩ := main holidays
    simp only [hws, Option.map_some', Prod.mk.injEq, Option.some.injEq, Except.ok.injEq] at hdata
    obtain ⟨hd, -⟩ := hdata
    subst hd
    exact ⟨rfl, e1, e2⟩

/-- Witness of C29 at October 2024 on a server in the zone of Santiago, with
two records on the 31st and one on November 1: the counts add up to 1. -/
theorem zoned_holiday_counts_add_up_to_distinct_dates_witness :
    (holidayDatesOfMonth 2024 10
      [⟨"2024-10-31", "a"⟩, ⟨"2024-10-31", "b"⟩, ⟨"2024-11-01", "c"⟩]).length = 1 ∧
    ((∃ ws, Zoned.generateCalendarStructure 6 santiago "2024-10-15" 2024 10
        [⟨"2024-10-31", "a"⟩, ⟨"2024-10-31", "b"⟩, ⟨"2024-11-01", "c"⟩] = some ws ∧
      totalHolidayCount ws = (holidayDatesOfMonth 2024 10
        [⟨"2024-10-31", "a"⟩, ⟨"2024-10-31", "b"⟩, ⟨"2024-11-01", "c"⟩]).length ∧
      totalHolidayCount ws ≤
        [(⟨"2024-10-31", "a"⟩ : Holiday), ⟨"2024-10-31", "b"⟩, ⟨"2024-11-01", "c"⟩].length) ∧
    ∀ (s : Service) (upstream : Except String (List Holiday)) (now1 now2 now3 : Int)
      (c c1 : Cache (List Holiday)) (country : String) (data : CalendarData),
      Zoned.getCalendarData 6 santiago "2024-10-15" s upstream now1 now2 now3 c country 2024 10 =
        (some (Except.ok data), c1) →
      data.totalHolidays = data.holidays.length ∧
      totalHolidayCount data.calendar = (holidayDatesOfMonth 2024 10 data.holidays).length ∧
      totalHolidayCount data.calendar ≤ data.totalHolidays) :=
  ⟨by decide,
    zoned_holiday_counts_add_up_to_distinct_dates santiago "2024-10-15" 6 2024 10
      [⟨"2024-10-31", "a"⟩, ⟨"2024-10-31", "b"⟩, ⟨"2024-11-01", "c"⟩] (by decide) (by decide)
      (by decide) (le_refl 6) (santiago_regularOn_after _ _ (by decide))⟩

/-- C29 fails as stated.  On a server in the zone of Santiago the grid of
September 2024 stops at 2024-09-29, so a holiday on 2024-09-30 is counted in
no week although it is a date of the month.  For February of the year 0 the
grid is that of February 1900, so a holiday dated `1900-02-14` is counted
although no date of February of the year 0 is a holiday date; and for December
275760 the builder never returns. -/
theorem zoned_holiday_count_sum_counterexample :
    (Zoned.generateCalendarStructure 6 santiago "2024-09-15" 2024 9
      [⟨"2024-09-30", "h"⟩]).map totalHolidayCount = some 0 ∧
    (holidayDatesOfMonth 2024 9 [⟨"2024-09-30", "h"⟩]).length = 1 ∧
    (Zoned.generateCalendarStructure 6 utcZone "2024-02-10" 0 2
      [⟨"1900-02-14", "x"⟩]).map totalHolidayCount = some 1 ∧
    (holidayDatesOfMonth 0 2 [⟨"1900-02-14", "x"⟩]).length = 0 ∧
    (∀ fuel hs, Zoned.generateCalendarStructure fuel utcZone "2024-02-10" 275760 12 hs = none) :=
  ⟨by decide, by decide, by decide, by decide,
    fun fuel hs => zoned_generateCalendarStructure_diverges (by decide) fuel _ hs⟩

end HolidayService
